import Mathlib

/-!
# Reversi engine: board, legality, capture, rollout and move search

A shallow embedding of the game engine of `src/reversiSimulation/reversi.go`,
with theorems about it.  The engine functions of `src/reversi/reversi.go` are
embedded in the namespace `reversi` and shown to agree with it.

Conventions of the embedding:

* Go's `int` is modelled by `Int`.  Cell values, the turn, positions and scores
  stay far inside the 64-bit range, so no wrap-around is modelled.
* The slice `r.board` is a `List Int`; an index expression `r.board[i]` that is
  out of range makes the Go program stop with a run-time fault, which is the
  result `Res.fault` here.
* Every `for` loop whose exit depends on data, and the recursion of `doPlayOut`,
  takes an explicit amount of fuel; running out of it is the result
  `Res.outOfFuel`.  Theorems that say that a call returns give the fuel that is
  enough.
* The receiver `r *Reversi` is mutated in place by the Go code; here every
  mutating function returns the new value of the receiver.  Where it matters
  which struct and which backing array a write goes to (the clones of the
  search), the engine is run on an explicit memory, `Heap`, in which structs and
  the backing arrays of slices have addresses.
* `rand.Intn n` is modelled by reducing a raw draw, taken from a stream of
  natural numbers, modulo `n`.
* In `getBestMove` the wall clock is a stream of booleans, one per evaluation of
  `time.Since(startTime).Seconds() > 10`; the map `scores` is the list of its
  entries, and the order in which Go iterates over it is a parameter `iter`,
  which the theorems take to be any permutation of the entries.
* `float64` enters only through `getListAvg`; its values are modelled by `F64`,
  with the rounding of finite results left as a parameter.
-/

namespace reversiSimulation

/-- Result of running a piece of the program: a value, an index-out-of-range
fault, or fuel exhausted (the loop or recursion did not finish in the given
number of rounds). -/
inductive Res (α : Type) where
  | ok (a : α)
  | fault
  | outOfFuel
  deriving DecidableEq, Repr

/-- Short-circuit disjunction of two results, as Go evaluates `a || b`: the
right operand is only looked at when the left one returned `false`. -/
def Res.or (a b : Res Bool) : Res Bool :=
  match a with
  | .ok true => .ok true
  | .ok false => b
  | .fault => .fault
  | .outOfFuel => .outOfFuel

def blue : Int := 1
def red : Int := -1
def tie : Int := 0
def maxChips : Int := 64

/-- Game struct, with the fields that the engine reads or writes.  Left out are
the two color-assignment fields (`computerTwoColor` and `computerOneColor` here,
`playerColor` and `computerColor` in `src/reversi`), which only `NewGame` and
the turn drivers look at, and the two metric lists (`playOutsPerSecond`,
`mctTime`), which hold floating-point numbers and are kept in `Metrics`.  The
struct with all its fields, as it lies in memory, is `Game`. -/
structure Reversi where
  board : List Int
  turn : Int
  End : Bool
  deriving DecidableEq, Repr

/-- The index expression `board[i]` as a read. -/
def readCell (board : List Int) (i : Int) : Option Int :=
  if 0 ≤ i then board[i.toNat]? else none

/-- The index expression `board[i] = v` as a write. -/
def writeCell (board : List Int) (i : Int) (v : Int) : Option (List Int) :=
  if 0 ≤ i ∧ i.toNat < board.length then some (board.set i.toNat v) else none

/-- Initialize and return a new game instance. -/
def NewGame : Reversi :=
  let board := List.replicate maxChips.toNat (0 : Int)
  let board := board.set 27 red
  let board := board.set 36 red
  let board := board.set 28 blue
  let board := board.set 35 blue
  let computerTwoColor := red
  { board := board
    turn := computerTwoColor
    End := false }

/-- Get the score of a given color. -/
def Reversi.getScore (r : Reversi) (color : Int) : Int :=
  r.board.foldl (fun score elm => if elm = color then score + 1 else score) 0

def Reversi.getBlueScore (r : Reversi) : Int := r.getScore blue

def Reversi.getRedScore (r : Reversi) : Int := r.getScore red

/-- Determine who won based on given scores. -/
def determineWinner (blueScore redScore : Int) : Int :=
  if blueScore > redScore then blue
  else if blueScore < redScore then red
  else tie

/-- If someone has won: -1 red, 0 tie, 1 blue, 2 nobody has won yet. -/
def Reversi.checkWin (r : Reversi) (forceWin : Bool) : Int :=
  let blueScore := r.getBlueScore
  let redScore := r.getRedScore
  if blueScore + redScore = maxChips ∨ forceWin = true then
    determineWinner blueScore redScore
  else 2

/-- The `for isWithinLimit(currPos, dir)` loop of `checkDirection`; one unit of
fuel is spent on every evaluation of the loop condition. -/
def Reversi.checkDirectionLoop (r : Reversi) (dir : Int) (isWithinLimit : Int → Int → Bool) :
    Nat → Int → Bool → Res Bool
  | 0, _, _ => .outOfFuel
  | fuel + 1, currPos, foundOpposite =>
    if isWithinLimit currPos dir = true then
      let currPos := currPos + dir
      match readCell r.board currPos with
      | none => .fault
      | some c =>
        let foundOpposite := if c = r.turn * -1 then true else foundOpposite
        if c = r.turn then
          (if foundOpposite then .ok true else .ok false)
        else if c = 0 then .ok false
        else r.checkDirectionLoop dir isWithinLimit fuel currPos foundOpposite
    else .ok false

/-- Check if the given position is valid within given direction. -/
def Reversi.checkDirection (r : Reversi) (fuel : Nat) (pos : Int) (dir : Int)
    (isWithinLimit : Int → Int → Bool) : Res Bool :=
  r.checkDirectionLoop dir isWithinLimit fuel pos false

/-- Check if a chip can be placed in given position. -/
def Reversi.isValidPosition (r : Reversi) (fuel : Nat) (pos : Int) : Res Bool :=
  match readCell r.board pos with
  | none => .fault
  | some c =>
    if c = 0 then
      -- check up
      (r.checkDirection fuel pos (-8) (fun curr dir => decide (curr + dir ≥ 0))).or <|
      -- check left
      (r.checkDirection fuel pos (-1) (fun curr _ => Int.tmod curr 8 != 0)).or <|
      -- check below
      (r.checkDirection fuel pos 8 (fun curr dir => decide (curr + dir < 64))).or <|
      -- check right
      (r.checkDirection fuel pos 1 (fun curr _ => Int.tmod (curr + 1) 8 != 0)).or <|
      -- check right
      (r.checkDirection fuel pos 1 (fun curr _ => Int.tmod (curr + 1) 8 != 0)).or <|
      -- check up-left
      (r.checkDirection fuel pos (-9)
        (fun curr dir => decide (curr + dir ≥ 0) && (Int.tmod curr 8 != 0))).or <|
      -- check below-left
      (r.checkDirection fuel pos 7
        (fun curr dir => decide (curr + dir < 64) && (Int.tmod curr 8 != 0))).or <|
      -- check below-right
      (r.checkDirection fuel pos 9
        (fun curr dir => decide (curr + dir < 64) && (Int.tmod (curr + 1) 8 != 0))).or <|
      -- check up-right
      (r.checkDirection fuel pos (-7)
        (fun curr dir => decide (curr + dir ≥ 0) && (Int.tmod (curr + 1) 8 != 0)))
    else .ok false

/-- Get a deep copy of the current game. -/
def Reversi.deepCopy (r : Reversi) : Reversi :=
  { board := r.board.take maxChips.toNat ++
      List.replicate (maxChips.toNat - r.board.length) (0 : Int)
    turn := r.turn
    End := r.End }

/-- How the first loop of `flipDirection` is left: by a `return` with a value,
or by falling out of the loop (condition false, or `break`) with the flag
`performFlips`. -/
inductive LoopExit where
  | returned (v : Bool)
  | done (performFlips : Bool)
  deriving DecidableEq, Repr

/-- First loop of `flipDirection`: look for a run of opposite chips closed by a
chip of the current color. -/
def Reversi.flipScanLoop (r : Reversi) (dir : Int) (isWithinLimit : Int → Int → Bool) :
    Nat → Int → Bool → Res LoopExit
  | 0, _, _ => .outOfFuel
  | fuel + 1, currPos, foundOpposite =>
    if isWithinLimit currPos dir = true then
      let currPos := currPos + dir
      match readCell r.board currPos with
      | none => .fault
      | some c =>
        let foundOpposite := if c = r.turn * -1 then true else foundOpposite
        if c = r.turn then
          (if foundOpposite then .ok (.done true) else .ok (.returned false))
        else if c = 0 then .ok (.returned false)
        else r.flipScanLoop dir isWithinLimit fuel currPos foundOpposite
    else .ok (.done false)

/-- Second loop of `flipDirection`: recolor the opposite chips met from `pos`
on, until a chip of the current color or an empty cell. -/
def Reversi.flipLoop (turn : Int) (dir : Int) (isWithinLimit : Int → Int → Bool) :
    Nat → List Int → Int → Res (List Int)
  | 0, _, _ => .outOfFuel
  | fuel + 1, board, currPos =>
    if isWithinLimit currPos dir = true then
      let currPos := currPos + dir
      match readCell board currPos with
      | none => .fault
      | some c =>
        if c = turn * -1 then
          match writeCell board currPos turn with
          | none => .fault
          | some board => Reversi.flipLoop turn dir isWithinLimit fuel board currPos
        else if c = turn ∨ c = 0 then .ok board
        else Reversi.flipLoop turn dir isWithinLimit fuel board currPos
    else .ok board

/-- The Go method `flipDirection`: returns the receiver after the flips together
with the returned boolean. -/
def Reversi.flipDirection (r : Reversi) (fuel : Nat) (pos : Int) (dir : Int)
    (isWithinLimit : Int → Int → Bool) : Res (Reversi × Bool) :=
  match r.flipScanLoop dir isWithinLimit fuel pos false with
  | .fault => .fault
  | .outOfFuel => .outOfFuel
  | .ok (.returned v) => .ok (r, v)
  | .ok (.done performFlips) =>
    if performFlips = true then
      match Reversi.flipLoop r.turn dir isWithinLimit fuel r.board pos with
      | .fault => .fault
      | .outOfFuel => .outOfFuel
      | .ok board => .ok ({ r with board := board }, false)
    else .ok (r, false)

/-- One statement `r.flipDirection(pos, dir, lim)` of `setChip` followed by the
rest of the body: the returned boolean is dropped. -/
def Reversi.thenFlip (s : Res Reversi) (fuel : Nat) (pos : Int) (dir : Int)
    (isWithinLimit : Int → Int → Bool) : Res Reversi :=
  match s with
  | .fault => .fault
  | .outOfFuel => .outOfFuel
  | .ok r =>
    match r.flipDirection fuel pos dir isWithinLimit with
    | .fault => .fault
    | .outOfFuel => .outOfFuel
    | .ok (r, _) => .ok r

/-- Set the given position to the current color chip. -/
def Reversi.setChip (r : Reversi) (fuel : Nat) (pos : Int) : Res Reversi :=
  match readCell r.board pos with
  | none => .fault
  | some c =>
    if c = 0 then
      match writeCell r.board pos r.turn with
      | none => .fault
      | some board =>
        let r : Reversi := { r with board := board }
        -- flip up
        let s := Reversi.thenFlip (.ok r) fuel pos (-8) (fun curr dir => decide (curr + dir ≥ 0))
        -- flip left
        let s := Reversi.thenFlip s fuel pos (-1) (fun curr _ => Int.tmod curr 8 != 0)
        -- flip below
        let s := Reversi.thenFlip s fuel pos 8 (fun curr dir => decide (curr + dir < 64))
        -- flip right
        let s := Reversi.thenFlip s fuel pos 1 (fun curr _ => Int.tmod (curr + 1) 8 != 0)
        -- flip right
        let s := Reversi.thenFlip s fuel pos 1 (fun curr _ => Int.tmod (curr + 1) 8 != 0)
        -- flip up-left
        let s := Reversi.thenFlip s fuel pos (-9)
          (fun curr dir => decide (curr + dir ≥ 0) && (Int.tmod curr 8 != 0))
        -- flip below-left
        let s := Reversi.thenFlip s fuel pos 7
          (fun curr dir => decide (curr + dir < 64) && (Int.tmod curr 8 != 0))
        -- flip below-right
        let s := Reversi.thenFlip s fuel pos 9
          (fun curr dir => decide (curr + dir < 64) && (Int.tmod (curr + 1) 8 != 0))
        -- flip up-right
        Reversi.thenFlip s fuel pos (-7)
          (fun curr dir => decide (curr + dir ≥ 0) && (Int.tmod (curr + 1) 8 != 0))
    else .ok r

def Reversi.switchTurns (r : Reversi) : Reversi :=
  { r with turn := r.turn * -1 }


/-- Sequencing of two steps: the second runs on the value of the first, and a
fault or an exhausted fuel of the first ends the run. -/
def Res.bind {α β : Type} (a : Res α) (f : α → Res β) : Res β :=
  match a with
  | .ok x => f x
  | .fault => .fault
  | .outOfFuel => .outOfFuel

-- Used by MCT heuristic function.  The Go maps hold `true` for every key and are
-- only asked whether a key is present, so each is given by its list of keys.
def corners : List Int := [0, 7, 56, 63]
def badPositions : List Int := [1, 8, 6, 15, 55, 62, 57, 48]
def worstPositions : List Int := [9, 14, 54, 49]

/-- Get a random integer within range of given values.  `draw` is the raw
random number; `rand.Intn n` stops the program when `n` is not positive. -/
def getRandInt (draw : Nat) (min max : Int) : Res Int :=
  if max - min ≤ 0 then .fault else .ok ((draw : Int) % (max - min) + min)

/-- Get a random position from a given list. -/
def getRandPos (positions : List Int) (draw : Nat) : Res Int :=
  (getRandInt draw 0 positions.length).bind fun rndNum =>
    match readCell positions rndNum with
    | none => .fault
    | some p => .ok p

/-- Return best position based on heuristics. -/
def getHeuristicPos (positions : List Int) (draw : Nat) : Res Int :=
  let bestList := positions.filter (fun pos => decide (pos ∈ corners))
  if bestList ≠ [] then getRandPos bestList draw
  else
    let goodList := positions.filter
      (fun pos => decide (pos ∉ badPositions) && decide (pos ∉ worstPositions))
    if goodList ≠ [] then getRandPos goodList draw
    else
      let badList := positions.filter (fun pos => decide (pos ∈ badPositions))
      if badList ≠ [] then getRandPos badList draw
      else getRandPos positions draw

/-- The loop `for pos := range r.board` of `getValidPositions`, over the
indices still to visit. -/
def Reversi.getValidPositionsLoop (r : Reversi) (fuel : Nat) :
    List Nat → List Int → Res (List Int)
  | [], positions => .ok positions
  | pos :: rest, positions =>
    match r.isValidPosition fuel pos with
    | .ok true => r.getValidPositionsLoop fuel rest (positions ++ [(pos : Int)])
    | .ok false => r.getValidPositionsLoop fuel rest positions
    | .fault => .fault
    | .outOfFuel => .outOfFuel

/-- Return slice of valid positions for current turn.  The nil slice of the Go
code is the empty list: a slice that was appended to is never nil. -/
def Reversi.getValidPositions (r : Reversi) (fuel : Nat) : Res (List Int) :=
  r.getValidPositionsLoop fuel (List.range r.board.length) []

/-- What a call of `doPlayOut` leaves behind: the returned value, the receiver
as the call left it, and (as a ghost counter) how many times `setChip` was
called. -/
structure PlayOut where
  result : Int
  final : Reversi
  setChipCalls : Nat
  deriving DecidableEq, Repr

/-- Perform a playout for the given instance of reversi.  `rayFuel` is the fuel
of the ray loops, the first `Nat` bounds the recursion depth, and `draws` is the
stream of raw random numbers, one used per move. -/
def doPlayOut (rayFuel : Nat) (useHeuristics : Bool) : Nat → Reversi → (Nat → Nat) → Res PlayOut
  | 0, _, _ => .outOfFuel
  | fuel + 1, r, draws =>
    let winResult := r.checkWin false
    -- If someone has won or it's a tie, return the result
    if winResult < 2 then .ok { result := winResult, final := r, setChipCalls := 0 }
    else
      (r.getValidPositions rayFuel).bind fun positions =>
        -- If there are no valid positions, pass the turn to the other player
        if positions = [] then
          let r := r.switchTurns
          (r.getValidPositions rayFuel).bind fun positions =>
            -- If the other player also does not have any valid positions, end the game
            if positions = [] then
              .ok { result := r.checkWin true, final := r, setChipCalls := 0 }
            else doPlayOut rayFuel useHeuristics fuel r draws
        else
          (if useHeuristics = true then getHeuristicPos positions (draws 0)
            else getRandPos positions (draws 0)).bind fun pos =>
          (r.setChip rayFuel pos).bind fun r =>
            let r := r.switchTurns
            (doPlayOut rayFuel useHeuristics fuel r (fun n => draws (n + 1))).bind fun out =>
              .ok { out with setChipCalls := out.setChipCalls + 1 }

end reversiSimulation

namespace reversi

open reversiSimulation

/-- Initialize and return a new game instance, as `src/reversi/reversi.go` does
it.  `color` is the token read by the first `fmt.Scan`, after
`strings.ToLower` and `strings.TrimSpace`; `turn` is the token read by the
second one. -/
def NewGame (color turn : String) : Reversi :=
  let board := List.replicate maxChips.toNat (0 : Int)
  let board := board.set 27 red
  let board := board.set 36 red
  let board := board.set 28 blue
  let board := board.set 35 blue
  let playerColor := if color = "b" ∨ color = "blue" then blue else red
  let computerColor := if color = "b" ∨ color = "blue" then red else blue
  { board := board
    turn := if turn = "1" then playerColor else computerColor
    End := false }

end reversi

namespace reversiSimulation

/-- Number of rollouts per candidate move. -/
def playouts : Nat := 500

/-- The statement `scores[pos] = v` on the map `scores`, which is kept as the
list of its key/value pairs, every key once, in the order in which the keys
were first set. -/
def mapSet : List (Int × Int) → Int → Int → List (Int × Int)
  | [], k, v => [(k, v)]
  | (k', v') :: rest, k, v =>
    if k' = k then (k, v) :: rest else (k', v') :: mapSet rest k v

/-- The expression `scores[pos]`: the value stored for the key, and 0 when the
key is absent. -/
def mapGet : List (Int × Int) → Int → Int
  | [], _ => 0
  | (k', v') :: rest, k => if k' = k then v' else mapGet rest k

/-- The local variables of the search loops of `getBestMove`, and (as a ghost
record) the candidate and the result of every `doPlayOut` call made so far,
oldest first. -/
structure Search where
  scores : List (Int × Int)
  numPlayOuts : Nat
  timeLimitExceeded : Bool
  rollouts : List (Int × Int)
  deriving DecidableEq, Repr

/-- The loop `for i := 1; i <= playouts; i++` of `getBestMove` for the candidate
`pos`, with the number of rounds still to go.  `clock k` says whether
`time.Since(startTime).Seconds() > 10` holds at the reading number `k` of the
clock (one reading per round, so `k` is the value of `numPlayOuts` before the
round); `draws k` is the stream of random numbers of rollout number `k`. -/
def Reversi.playoutLoop (r : Reversi) (rayFuel playFuel : Nat) (useHeuristics : Bool)
    (clock : Nat → Bool) (draws : Nat → Nat → Nat) (pos : Int) : Nat → Search → Res Search
  | 0, s => .ok s
  | n + 1, s =>
    let reading := s.numPlayOuts
    -- Increment number of playouts
    let s := { s with numPlayOuts := s.numPlayOuts + 1 }
    -- If more than 10 seconds have elapsed since we started all playouts, end early
    if clock reading = true then .ok { s with timeLimitExceeded := true }
    else
      let cpy := r.deepCopy
      (cpy.setChip rayFuel pos).bind fun cpy =>
        let cpy := cpy.switchTurns
        (doPlayOut rayFuel useHeuristics playFuel cpy (draws s.rollouts.length)).bind fun out =>
          let result := out.result
          -- Add weighted scores based on result
          let scores :=
            if result = r.turn then mapSet s.scores pos (mapGet s.scores pos + 2)
            else if result = r.turn * -1 then mapSet s.scores pos (mapGet s.scores pos - 10)
            else mapSet s.scores pos (mapGet s.scores pos + 1)
          r.playoutLoop rayFuel playFuel useHeuristics clock draws pos n
            { s with scores := scores, rollouts := s.rollouts ++ [(pos, result)] }

/-- The loop `for _, pos := range positions` of `getBestMove`, with `budget`
rollouts per candidate. -/
def Reversi.candidateLoop (r : Reversi) (budget rayFuel playFuel : Nat) (useHeuristics : Bool)
    (clock : Nat → Bool) (draws : Nat → Nat → Nat) : List Int → Search → Res Search
  | [], s => .ok s
  | pos :: rest, s =>
    let s := { s with scores := mapSet s.scores pos 0 }
    if s.timeLimitExceeded = true then .ok s
    else
      (r.playoutLoop rayFuel playFuel useHeuristics clock draws pos budget s).bind fun s =>
        r.candidateLoop budget rayFuel playFuel useHeuristics clock draws rest s

/-- The loop `for pos, score := range scores` of `getBestMove`, over the entries
of the map in the order in which the iteration yields them. -/
def pickBest : List (Int × Int) → Int → Int → Int
  | [], _, bestPos => bestPos
  | (pos, score) :: rest, maxScore, bestPos =>
    if score ≥ maxScore then pickBest rest score pos else pickBest rest maxScore bestPos

/-- What a call of `getBestMove` leaves behind: the returned position; the
board, turn and `End` of the receiver after the call; the playout count that
went into the entry appended to the metric lists (`none` when nothing was
appended); and the final values of the loop variables. -/
structure BestMove where
  bestPos : Int
  receiver : Reversi
  metricsPlayOuts : Option Nat
  search : Search
  deriving DecidableEq, Repr

/-- Return the best move using MCT, with `budget` rollouts per candidate in
place of the constant `playouts`.  `iter` is the order in which the iteration
over the map `scores` yields its entries. -/
def Reversi.getBestMoveWith (r : Reversi) (budget rayFuel playFuel : Nat)
    (useHeuristics : Bool) (clock : Nat → Bool) (draws : Nat → Nat → Nat)
    (iter : List (Int × Int) → List (Int × Int)) : Res BestMove :=
  let start : Search := ⟨[], 0, false, []⟩
  (r.getValidPositions rayFuel).bind fun positions =>
    -- If there are no valid positions
    if positions = [] then
      .ok { bestPos := -1, receiver := r, metricsPlayOuts := none, search := start }
    else
      (r.candidateLoop budget rayFuel playFuel useHeuristics clock draws positions start).bind
        fun s =>
          -- `-int(^uint(0) >> 1)` with 64-bit integers
          let maxScore : Int := -(2 ^ 63 - 1)
          .ok { bestPos := pickBest (iter s.scores) maxScore (-1), receiver := r,
                metricsPlayOuts := some s.numPlayOuts, search := s }

/-- Return the best move using MCT. -/
def Reversi.getBestMove (r : Reversi) (rayFuel playFuel : Nat) (useHeuristics : Bool)
    (clock : Nat → Bool) (draws : Nat → Nat → Nat)
    (iter : List (Int × Int) → List (Int × Int)) : Res BestMove :=
  r.getBestMoveWith playouts rayFuel playFuel useHeuristics clock draws iter

/-- The `float64` values, as far as the averaging of the metrics needs them: a
finite value, given by the rational number it stands for (both zeros are
`fin 0`), an infinity with its sign, or the not-a-number value. -/
inductive F64 where
  | fin (q : ℚ)
  | inf (negative : Bool)
  | nan
  deriving DecidableEq

/-- The sum `x + y` of two `float64` values; `rnd` rounds the exact sum of two
finite values to a `float64`. -/
def F64.add (rnd : ℚ → F64) : F64 → F64 → F64
  | .nan, _ => .nan
  | _, .nan => .nan
  | .inf a, .inf b => if a = b then .inf a else .nan
  | .inf a, .fin _ => .inf a
  | .fin _, .inf b => .inf b
  | .fin x, .fin y => rnd (x + y)

/-- The quotient `x / y` of two `float64` values, a zero divisor being the
positive zero (the divisor in `getListAvg` is `float64(len(list))`); `rnd`
rounds the exact quotient of two finite values to a `float64`.  A division by
zero does not stop a Go program: it gives an infinity, or not-a-number for
`0 / 0`. -/
def F64.div (rnd : ℚ → F64) : F64 → F64 → F64
  | .nan, _ => .nan
  | _, .nan => .nan
  | .inf _, .inf _ => .nan
  | .inf a, .fin y => .inf (xor a (decide (y < 0)))
  | .fin _, .inf _ => .fin 0
  | .fin x, .fin y =>
    if y = 0 then (if x = 0 then .nan else .inf (decide (x < 0))) else rnd (x / y)

/-- The average of a list of `float64` values, as `getListAvg` computes it. -/
def getListAvg (rnd : ℚ → F64) (list : List F64) : F64 :=
  let sum := list.foldl (fun sum avg => F64.add rnd sum avg) (F64.fin 0)
  F64.div rnd sum (F64.fin list.length)

/-- The two metric lists of the game struct. -/
structure Metrics where
  playOutsPerSecond : List F64
  mctTime : List F64

/-- Get the avg number of playouts. -/
def Metrics.getAvgPlayOutsPerSecond (rnd : ℚ → F64) (r : Metrics) : F64 :=
  getListAvg rnd r.playOutsPerSecond

/-- Get the avg time of MCT per turn. -/
def Metrics.getAvgMctTime (rnd : ℚ → F64) (r : Metrics) : F64 :=
  getListAvg rnd r.mctTime

/-- The package variables `blueWins`, `redWins` and `ties` of the simulation,
and (as `log`) what the calls of `PlayTurn` have appended to the file
`results2.log`, oldest first.  Opening, writing and closing the file are taken
to succeed. -/
structure Session where
  blueWins : Int
  redWins : Int
  ties : Int
  log : List String
  deriving DecidableEq, Repr

/-- Play blue computer's turn, which does not use heuristics. -/
def Reversi.playBlueTurn (r : Reversi) (rayFuel playFuel : Nat) (clock : Nat → Bool)
    (draws : Nat → Nat → Nat) (iter : List (Int × Int) → List (Int × Int)) : Res Reversi :=
  -- Get the best move without heuristics (random playouts)
  (r.getBestMove rayFuel playFuel false clock draws iter).bind fun out =>
    let r := out.receiver
    if out.bestPos = -1 then .ok r.switchTurns
    else (r.setChip rayFuel out.bestPos).bind fun r => .ok r.switchTurns

/-- Play red computer's turn, which does uses heuristics. -/
def Reversi.playRedTurn (r : Reversi) (rayFuel playFuel : Nat) (clock : Nat → Bool)
    (draws : Nat → Nat → Nat) (iter : List (Int × Int) → List (Int × Int)) : Res Reversi :=
  -- Get the best move with heuristics
  (r.getBestMove rayFuel playFuel true clock draws iter).bind fun out =>
    let r := out.receiver
    if out.bestPos = -1 then .ok r.switchTurns
    else (r.setChip rayFuel out.bestPos).bind fun r => .ok r.switchTurns

/-- Drives main game loop (simulation): returns the receiver and the package
variables as the call leaves them.  The printing is left out. -/
def Reversi.PlayTurn (r : Reversi) (ss : Session) (rayFuel playFuel : Nat)
    (clock : Nat → Bool) (draws : Nat → Nat → Nat)
    (iter : List (Int × Int) → List (Int × Int)) : Res (Reversi × Session) :=
  let winResult := r.checkWin false
  (r.getValidPositions rayFuel).bind fun currPositions =>
    let r := r.switchTurns
    (r.getValidPositions rayFuel).bind fun nextPositions =>
      let r := r.switchTurns
      -- If there is a winner, tie, or both computers have no remaining moves
      if winResult < 2 ∨ (currPositions = [] ∧ nextPositions = []) then
        let winString := ""
        let counted : Session × String :=
          if winResult = blue then ({ ss with blueWins := ss.blueWins + 1 }, "Blue has won.\n")
          else if winResult = red then ({ ss with redWins := ss.redWins + 1 }, "Red has won.\n")
          else if winResult = tie then ({ ss with ties := ss.ties + 1 }, "It's a tie.\n")
          else (ss, winString)
        -- Write to file, then reset the game
        .ok (NewGame, { counted.1 with log := counted.1.log ++ [counted.2] })
      else if r.turn = blue then
        (r.playBlueTurn rayFuel playFuel clock draws iter).bind fun r => .ok (r, ss)
      else
        (r.playRedTurn rayFuel playFuel clock draws iter).bind fun r => .ok (r, ss)

/-! ## The engine on the program's memory

The Go methods work on a pointer `r *Reversi`, and the field `board` is a slice,
that is, a reference to a backing array: two structs may share one array.  The
definitions of this section keep that visible.  The memory holds the backing
arrays and the structs by address; a method takes the memory and the address of
its receiver and returns the memory it leaves behind.  Every assignment of the
source is an explicit write to the memory.  The methods that contain no
assignment (`checkWin`, `getValidPositions`, `isValidPosition`,
`checkDirection`, and the first loop of `flipDirection`) are run on the contents
read through the receiver, `Heap.load`. -/

/-- The struct `Reversi` as it lies in memory.  The slice `board` is the address
of its backing array: every slice of the program is made by
`make([]int, maxChips)` and never resliced or appended to, so it spans its whole
array.  The two metric slices are kept by their contents: only `getBestMove`
appends to them, and `deepCopy` does not hand them to the clone. -/
structure Game where
  board : Nat
  turn : Int
  End : Bool
  computerTwoColor : Int
  computerOneColor : Int
  playOutsPerSecond : List F64
  mctTime : List F64
  deriving DecidableEq

/-- The memory of the program: the backing arrays of the board slices and the
`Reversi` structs, each by address.  `make` and `new` allocate at the end. -/
structure Heap where
  arrays : List (List Int)
  games : List Game
  deriving DecidableEq

/-- The backing array that `r.board` refers to; `none` when `r` or the slice
refers to nothing. -/
def Heap.boardOf (h : Heap) (r : Nat) : Option (List Int) :=
  match h.games[r]? with
  | none => none
  | some g => h.arrays[g.board]?

/-- The expression `r.board[i]`. -/
def Heap.cell (h : Heap) (r : Nat) (i : Int) : Option Int :=
  match h.boardOf r with
  | none => none
  | some b => readCell b i

/-- The statement `r.board[i] = v`: a write into the backing array. -/
def Heap.setCell (h : Heap) (r : Nat) (i v : Int) : Option Heap :=
  match h.games[r]? with
  | none => none
  | some g =>
    match h.arrays[g.board]? with
    | none => none
    | some b =>
      match writeCell b i v with
      | none => none
      | some b' => some { h with arrays := h.arrays.set g.board b' }

/-- The expression `r.turn`. -/
def Heap.turnOf (h : Heap) (r : Nat) : Option Int :=
  match h.games[r]? with
  | none => none
  | some g => some g.turn

/-- What the engine reads through the pointer `r`: the contents of the board,
the turn and `End`. -/
def Heap.load (h : Heap) (r : Nat) : Option Reversi :=
  match h.games[r]? with
  | none => none
  | some g =>
    match h.arrays[g.board]? with
    | none => none
    | some b => some ⟨b, g.turn, g.End⟩

/-- The method `checkWin` on the pointer `r`; it only reads. -/
def Heap.checkWin (h : Heap) (r : Nat) (forceWin : Bool) : Res Int :=
  match h.load r with
  | none => .fault
  | some v => .ok (v.checkWin forceWin)

/-- The method `getValidPositions` on the pointer `r`; it only reads. -/
def Heap.getValidPositions (h : Heap) (r : Nat) (fuel : Nat) : Res (List Int) :=
  match h.load r with
  | none => .fault
  | some v => v.getValidPositions fuel

/-- Second loop of `flipDirection` on the pointer `r`: every recolored chip is a
write into the backing array of `r.board`. -/
def Heap.flipLoop (r : Nat) (dir : Int) (isWithinLimit : Int → Int → Bool) :
    Nat → Heap → Int → Res Heap
  | 0, _, _ => .outOfFuel
  | fuel + 1, h, currPos =>
    if isWithinLimit currPos dir = true then
      let currPos := currPos + dir
      match h.cell r currPos with
      | none => .fault
      | some c =>
        match h.turnOf r with
        | none => .fault
        | some turn =>
          if c = turn * -1 then
            match h.setCell r currPos turn with
            | none => .fault
            | some h => Heap.flipLoop r dir isWithinLimit fuel h currPos
          else if c = turn ∨ c = 0 then .ok h
          else Heap.flipLoop r dir isWithinLimit fuel h currPos
    else .ok h

/-- The method `flipDirection` on the pointer `r`: the memory after the flips
and the returned boolean.  Its first loop only reads. -/
def Heap.flipDirection (h : Heap) (r : Nat) (fuel : Nat) (pos : Int) (dir : Int)
    (isWithinLimit : Int → Int → Bool) : Res (Heap × Bool) :=
  match h.load r with
  | none => .fault
  | some v =>
    match v.flipScanLoop dir isWithinLimit fuel pos false with
    | .fault => .fault
    | .outOfFuel => .outOfFuel
    | .ok (.returned b) => .ok (h, b)
    | .ok (.done performFlips) =>
      if performFlips = true then
        match Heap.flipLoop r dir isWithinLimit fuel h pos with
        | .fault => .fault
        | .outOfFuel => .outOfFuel
        | .ok h => .ok (h, false)
      else .ok (h, false)

/-- One statement `r.flipDirection(pos, dir, lim)` of `setChip` on the pointer
`r`, followed by the rest of the body. -/
def Heap.thenFlip (s : Res Heap) (r : Nat) (fuel : Nat) (pos : Int) (dir : Int)
    (isWithinLimit : Int → Int → Bool) : Res Heap :=
  match s with
  | .fault => .fault
  | .outOfFuel => .outOfFuel
  | .ok h =>
    match h.flipDirection r fuel pos dir isWithinLimit with
    | .fault => .fault
    | .outOfFuel => .outOfFuel
    | .ok (h, _) => .ok h

/-- The method `setChip` on the pointer `r`. -/
def Heap.setChip (h : Heap) (r : Nat) (fuel : Nat) (pos : Int) : Res Heap :=
  match h.cell r pos with
  | none => .fault
  | some c =>
    if c = 0 then
      match h.turnOf r with
      | none => .fault
      | some turn =>
        match h.setCell r pos turn with
        | none => .fault
        | some h =>
          -- flip up
          let s := Heap.thenFlip (.ok h) r fuel pos (-8) (fun curr dir => decide (curr + dir ≥ 0))
          -- flip left
          let s := Heap.thenFlip s r fuel pos (-1) (fun curr _ => Int.tmod curr 8 != 0)
          -- flip below
          let s := Heap.thenFlip s r fuel pos 8 (fun curr dir => decide (curr + dir < 64))
          -- flip right
          let s := Heap.thenFlip s r fuel pos 1 (fun curr _ => Int.tmod (curr + 1) 8 != 0)
          -- flip right
          let s := Heap.thenFlip s r fuel pos 1 (fun curr _ => Int.tmod (curr + 1) 8 != 0)
          -- flip up-left
          let s := Heap.thenFlip s r fuel pos (-9)
            (fun curr dir => decide (curr + dir ≥ 0) && (Int.tmod curr 8 != 0))
          -- flip below-left
          let s := Heap.thenFlip s r fuel pos 7
            (fun curr dir => decide (curr + dir < 64) && (Int.tmod curr 8 != 0))
          -- flip below-right
          let s := Heap.thenFlip s r fuel pos 9
            (fun curr dir => decide (curr + dir < 64) && (Int.tmod (curr + 1) 8 != 0))
          -- flip up-right
          Heap.thenFlip s r fuel pos (-7)
            (fun curr dir => decide (curr + dir ≥ 0) && (Int.tmod (curr + 1) 8 != 0))
    else .ok h

/-- The method `switchTurns` on the pointer `r`: a write to the field `turn`. -/
def Heap.switchTurns (h : Heap) (r : Nat) : Res Heap :=
  match h.games[r]? with
  | none => .fault
  | some g => .ok { h with games := h.games.set r { g with turn := g.turn * -1 } }

/-- The method `deepCopy` on the pointer `r`: `new(Reversi)` allocates a struct
and `make([]int, maxChips)` a backing array of 64 zeros, both at fresh
addresses; `copy` fills the new array from the receiver's; the two color fields,
`turn` and `End` are assigned; the metric slices of the clone stay nil.  Returns
the memory and the address of the clone. -/
def Heap.deepCopy (h : Heap) (r : Nat) : Res (Heap × Nat) :=
  match h.games[r]? with
  | none => .fault
  | some g =>
    match h.arrays[g.board]? with
    | none => .fault
    | some src =>
      let dst := src.take maxChips.toNat ++
        List.replicate (maxChips.toNat - src.length) (0 : Int)
      let cpy : Game :=
        { board := h.arrays.length
          turn := g.turn
          End := g.End
          computerTwoColor := g.computerTwoColor
          computerOneColor := g.computerOneColor
          playOutsPerSecond := []
          mctTime := [] }
      .ok ({ arrays := h.arrays ++ [dst], games := h.games ++ [cpy] }, h.games.length)

/-- The function `doPlayOut` on the pointer `r`: the memory it leaves behind and
the returned value. -/
def Heap.doPlayOut (rayFuel : Nat) (useHeuristics : Bool) (r : Nat) :
    Nat → Heap → (Nat → Nat) → Res (Heap × Int)
  | 0, _, _ => .outOfFuel
  | fuel + 1, h, draws =>
    (h.checkWin r false).bind fun winResult =>
      -- If someone has won or it's a tie, return the result
      if winResult < 2 then .ok (h, winResult)
      else
        (h.getValidPositions r rayFuel).bind fun positions =>
          -- If there are no valid positions, pass the turn to the other player
          if positions = [] then
            (h.switchTurns r).bind fun h =>
              (h.getValidPositions r rayFuel).bind fun positions =>
                -- If the other player also does not have any valid positions, end the game
                if positions = [] then
                  (h.checkWin r true).bind fun result => .ok (h, result)
                else Heap.doPlayOut rayFuel useHeuristics r fuel h draws
          else
            (if useHeuristics = true then getHeuristicPos positions (draws 0)
              else getRandPos positions (draws 0)).bind fun pos =>
            (h.setChip r rayFuel pos).bind fun h =>
              (h.switchTurns r).bind fun h =>
                Heap.doPlayOut rayFuel useHeuristics r fuel h (fun n => draws (n + 1))

/-- The memory and the local variables of the search loops of `getBestMove`,
and (as a ghost record) the addresses of the clones handed to `doPlayOut`,
oldest first. -/
structure HeapSearch where
  heap : Heap
  search : Search
  clones : List Nat
  deriving DecidableEq

/-- The loop `for i := 1; i <= playouts; i++` of `getBestMove` on the pointer
`r`, for the candidate `pos`. -/
def Heap.playoutLoop (r : Nat) (rayFuel playFuel : Nat) (useHeuristics : Bool)
    (clock : Nat → Bool) (draws : Nat → Nat → Nat) (pos : Int) :
    Nat → HeapSearch → Res HeapSearch
  | 0, hs => .ok hs
  | n + 1, hs =>
    let reading := hs.search.numPlayOuts
    -- Increment number of playouts
    let s : Search := { hs.search with numPlayOuts := hs.search.numPlayOuts + 1 }
    -- If more than 10 seconds have elapsed since we started all playouts, end early
    if clock reading = true then .ok { hs with search := { s with timeLimitExceeded := true } }
    else
      (hs.heap.deepCopy r).bind fun made =>
        let cpy := made.2
        (made.1.setChip cpy rayFuel pos).bind fun h =>
          (h.switchTurns cpy).bind fun h =>
            (Heap.doPlayOut rayFuel useHeuristics cpy playFuel h (draws s.rollouts.length)).bind
              fun played =>
                let h := played.1
                let result := played.2
                match h.turnOf r with
                | none => .fault
                | some turn =>
                  -- Add weighted scores based on result
                  let scores :=
                    if result = turn then mapSet s.scores pos (mapGet s.scores pos + 2)
                    else if result = turn * -1 then
                      mapSet s.scores pos (mapGet s.scores pos - 10)
                    else mapSet s.scores pos (mapGet s.scores pos + 1)
                  Heap.playoutLoop r rayFuel playFuel useHeuristics clock draws pos n
                    ⟨h, { s with scores := scores, rollouts := s.rollouts ++ [(pos, result)] },
                      hs.clones ++ [cpy]⟩

/-- The loop `for _, pos := range positions` of `getBestMove` on the pointer
`r`. -/
def Heap.candidateLoop (r : Nat) (budget rayFuel playFuel : Nat) (useHeuristics : Bool)
    (clock : Nat → Bool) (draws : Nat → Nat → Nat) : List Int → HeapSearch → Res HeapSearch
  | [], hs => .ok hs
  | pos :: rest, hs =>
    let hs : HeapSearch :=
      { hs with search := { hs.search with scores := mapSet hs.search.scores pos 0 } }
    if hs.search.timeLimitExceeded = true then .ok hs
    else
      (Heap.playoutLoop r rayFuel playFuel useHeuristics clock draws pos budget hs).bind fun hs =>
        Heap.candidateLoop r budget rayFuel playFuel useHeuristics clock draws rest hs

/-- What a call of `getBestMove` on the pointer `r` leaves behind: the returned
position, the memory, and the final values of the loop variables with the ghost
record of the clones. -/
structure HeapBestMove where
  bestPos : Int
  heap : Heap
  search : Search
  clones : List Nat
  deriving DecidableEq

/-- The method `getBestMove` on the pointer `r`.  `elapsedSeconds` is the value
of `time.Since(startTime).Seconds()` after the loops, and `rnd` rounds the exact
quotient to a `float64`. -/
def Heap.getBestMove (h : Heap) (r : Nat) (rayFuel playFuel : Nat) (useHeuristics : Bool)
    (clock : Nat → Bool) (draws : Nat → Nat → Nat)
    (iter : List (Int × Int) → List (Int × Int)) (rnd : ℚ → F64) (elapsedSeconds : F64) :
    Res HeapBestMove :=
  let start : Search := ⟨[], 0, false, []⟩
  (h.getValidPositions r rayFuel).bind fun positions =>
    -- If there are no valid positions
    if positions = [] then .ok ⟨-1, h, start, []⟩
    else
      (Heap.candidateLoop r playouts rayFuel playFuel useHeuristics clock draws positions
          ⟨h, start, []⟩).bind fun hs =>
        match hs.heap.games[r]? with
        | none => .fault
        | some g =>
          -- Keep track of the average number of playouts per second
          let g : Game :=
            { g with
              playOutsPerSecond := g.playOutsPerSecond ++
                [F64.div rnd (F64.fin hs.search.numPlayOuts) elapsedSeconds]
              mctTime := g.mctTime ++ [elapsedSeconds] }
          let h : Heap := { hs.heap with games := hs.heap.games.set r g }
          -- `-int(^uint(0) >> 1)` with 64-bit integers
          let maxScore : Int := -(2 ^ 63 - 1)
          .ok ⟨pickBest (iter hs.search.scores) maxScore (-1), h, hs.search, hs.clones⟩

end reversiSimulation

/-! ## The engine of `src/reversi/reversi.go`

The interactive program has its own copy of the engine.  Its functions are
translated here from that file, over the same `Reversi`, `Res`, `readCell`,
`writeCell`, `LoopExit` and `PlayOut` as above. -/

namespace reversi

def blue : Int := 1
def red : Int := -1
def tie : Int := 0
def maxChips : Int := 64

-- Used by MCT heuristic function
def corners : List Int := [0, 7, 56, 63]
def badPositions : List Int := [1, 8, 6, 15, 55, 62, 57, 48]
def worstPositions : List Int := [9, 14, 54, 49]

/-- Get the score of a given color. -/
def getScore (r : reversiSimulation.Reversi) (color : Int) : Int :=
  r.board.foldl (fun score elm => if elm = color then score + 1 else score) 0

/-- Get the score of blue. -/
def getBlueScore (r : reversiSimulation.Reversi) : Int := getScore r blue

/-- Get the score of red. -/
def getRedScore (r : reversiSimulation.Reversi) : Int := getScore r red

/-- Determine who won based on given scores. -/
def determineWinner (blueScore redScore : Int) : Int :=
  if blueScore > redScore then blue
  else if blueScore < redScore then red
  else tie

/-- If someone has won: -1 red has won, 0 it's a tie, 1 blue has won, 2 nobody
has won yet. -/
def checkWin (r : reversiSimulation.Reversi) (forceWin : Bool) : Int :=
  -- Get scores for each color
  let blueScore := getBlueScore r
  let redScore := getRedScore r
  if blueScore + redScore = maxChips ∨ forceWin = true then
    determineWinner blueScore redScore
  else 2

/-- The loop of `checkDirection`: loop while still within board limits. -/
def checkDirectionLoop (r : reversiSimulation.Reversi) (dir : Int)
    (isWithinLimit : Int → Int → Bool) : Nat → Int → Bool → reversiSimulation.Res Bool
  | 0, _, _ => .outOfFuel
  | fuel + 1, currPos, foundOpposite =>
    if isWithinLimit currPos dir = true then
      let currPos := currPos + dir
      match reversiSimulation.readCell r.board currPos with
      | none => .fault
      | some c =>
        -- If chip is not empty and is opposite color
        let foundOpposite := if c = r.turn * -1 then true else foundOpposite
        -- If chip is not empty and is current color
        if c = r.turn then
          (if foundOpposite then .ok true else .ok false)
        -- If it's empty
        else if c = 0 then .ok false
        else checkDirectionLoop r dir isWithinLimit fuel currPos foundOpposite
    else .ok false

/-- Check if the given position is valid within given direction. -/
def checkDirection (r : reversiSimulation.Reversi) (fuel : Nat) (pos : Int) (dir : Int)
    (isWithinLimit : Int → Int → Bool) : reversiSimulation.Res Bool :=
  checkDirectionLoop r dir isWithinLimit fuel pos false

/-- Check if the a chip can be placed in given position. -/
def isValidPosition (r : reversiSimulation.Reversi) (fuel : Nat) (pos : Int) :
    reversiSimulation.Res Bool :=
  match reversiSimulation.readCell r.board pos with
  | none => .fault
  | some c =>
    -- If position is empty
    if c = 0 then
      -- check up
      (checkDirection r fuel pos (-8) (fun curr dir => decide (curr + dir ≥ 0))).or <|
      -- check left
      (checkDirection r fuel pos (-1) (fun curr _ => Int.tmod curr 8 != 0)).or <|
      -- check below
      (checkDirection r fuel pos 8 (fun curr dir => decide (curr + dir < 64))).or <|
      -- check right
      (checkDirection r fuel pos 1 (fun curr _ => Int.tmod (curr + 1) 8 != 0)).or <|
      -- check right
      (checkDirection r fuel pos 1 (fun curr _ => Int.tmod (curr + 1) 8 != 0)).or <|
      -- check up-left
      (checkDirection r fuel pos (-9)
        (fun curr dir => decide (curr + dir ≥ 0) && (Int.tmod curr 8 != 0))).or <|
      -- check below-left
      (checkDirection r fuel pos 7
        (fun curr dir => decide (curr + dir < 64) && (Int.tmod curr 8 != 0))).or <|
      -- check below-right
      (checkDirection r fuel pos 9
        (fun curr dir => decide (curr + dir < 64) && (Int.tmod (curr + 1) 8 != 0))).or <|
      -- check up-right
      (checkDirection r fuel pos (-7)
        (fun curr dir => decide (curr + dir ≥ 0) && (Int.tmod (curr + 1) 8 != 0)))
    else .ok false

/-- First loop of `flipDirection`: loop while still within physical limits of
board. -/
def flipScanLoop (r : reversiSimulation.Reversi) (dir : Int)
    (isWithinLimit : Int → Int → Bool) :
    Nat → Int → Bool → reversiSimulation.Res reversiSimulation.LoopExit
  | 0, _, _ => .outOfFuel
  | fuel + 1, currPos, foundOpposite =>
    if isWithinLimit currPos dir = true then
      let currPos := currPos + dir
      match reversiSimulation.readCell r.board currPos with
      | none => .fault
      | some c =>
        let foundOpposite := if c = r.turn * -1 then true else foundOpposite
        if c = r.turn then
          (if foundOpposite then .ok (.done true) else .ok (.returned false))
        else if c = 0 then .ok (.returned false)
        else flipScanLoop r dir isWithinLimit fuel currPos foundOpposite
    else .ok (.done false)

/-- Second loop of `flipDirection`, run if some enemy chips have been
"captured". -/
def flipLoop (turn : Int) (dir : Int) (isWithinLimit : Int → Int → Bool) :
    Nat → List Int → Int → reversiSimulation.Res (List Int)
  | 0, _, _ => .outOfFuel
  | fuel + 1, board, currPos =>
    if isWithinLimit currPos dir = true then
      let currPos := currPos + dir
      match reversiSimulation.readCell board currPos with
      | none => .fault
      | some c =>
        if c = turn * -1 then
          match reversiSimulation.writeCell board currPos turn with
          | none => .fault
          | some board => flipLoop turn dir isWithinLimit fuel board currPos
        else if c = turn ∨ c = 0 then .ok board
        else flipLoop turn dir isWithinLimit fuel board currPos
    else .ok board

/-- The method `flipDirection` of `src/reversi`: the receiver after the flips,
and the returned boolean. -/
def flipDirection (r : reversiSimulation.Reversi) (fuel : Nat) (pos : Int) (dir : Int)
    (isWithinLimit : Int → Int → Bool) :
    reversiSimulation.Res (reversiSimulation.Reversi × Bool) :=
  match flipScanLoop r dir isWithinLimit fuel pos false with
  | .fault => .fault
  | .outOfFuel => .outOfFuel
  | .ok (.returned v) => .ok (r, v)
  | .ok (.done performFlips) =>
    if performFlips = true then
      match flipLoop r.turn dir isWithinLimit fuel r.board pos with
      | .fault => .fault
      | .outOfFuel => .outOfFuel
      | .ok board => .ok ({ r with board := board }, false)
    else .ok (r, false)

/-- One statement `r.flipDirection(pos, dir, lim)` of `setChip` followed by the
rest of the body. -/
def thenFlip (s : reversiSimulation.Res reversiSimulation.Reversi) (fuel : Nat) (pos : Int)
    (dir : Int) (isWithinLimit : Int → Int → Bool) :
    reversiSimulation.Res reversiSimulation.Reversi :=
  match s with
  | .fault => .fault
  | .outOfFuel => .outOfFuel
  | .ok r =>
    match flipDirection r fuel pos dir isWithinLimit with
    | .fault => .fault
    | .outOfFuel => .outOfFuel
    | .ok (r, _) => .ok r

/-- Set the given position to the current color chip. -/
def setChip (r : reversiSimulation.Reversi) (fuel : Nat) (pos : Int) :
    reversiSimulation.Res reversiSimulation.Reversi :=
  match reversiSimulation.readCell r.board pos with
  | none => .fault
  | some c =>
    -- If position is empty
    if c = 0 then
      match reversiSimulation.writeCell r.board pos r.turn with
      | none => .fault
      | some board =>
        let r : reversiSimulation.Reversi := { r with board := board }
        -- flip up
        let s := thenFlip (.ok r) fuel pos (-8) (fun curr dir => decide (curr + dir ≥ 0))
        -- flip left
        let s := thenFlip s fuel pos (-1) (fun curr _ => Int.tmod curr 8 != 0)
        -- flip below
        let s := thenFlip s fuel pos 8 (fun curr dir => decide (curr + dir < 64))
        -- flip right
        let s := thenFlip s fuel pos 1 (fun curr _ => Int.tmod (curr + 1) 8 != 0)
        -- flip right
        let s := thenFlip s fuel pos 1 (fun curr _ => Int.tmod (curr + 1) 8 != 0)
        -- flip up-left
        let s := thenFlip s fuel pos (-9)
          (fun curr dir => decide (curr + dir ≥ 0) && (Int.tmod curr 8 != 0))
        -- flip below-left
        let s := thenFlip s fuel pos 7
          (fun curr dir => decide (curr + dir < 64) && (Int.tmod curr 8 != 0))
        -- flip below-right
        let s := thenFlip s fuel pos 9
          (fun curr dir => decide (curr + dir < 64) && (Int.tmod (curr + 1) 8 != 0))
        -- flip up-right
        thenFlip s fuel pos (-7)
          (fun curr dir => decide (curr + dir ≥ 0) && (Int.tmod (curr + 1) 8 != 0))
    else .ok r

/-- Get a random integer within range of given values. -/
def getRandInt (draw : Nat) (min max : Int) : reversiSimulation.Res Int :=
  if max - min ≤ 0 then .fault else .ok ((draw : Int) % (max - min) + min)

/-- Get a random position from a given list. -/
def getRandPos (positions : List Int) (draw : Nat) : reversiSimulation.Res Int :=
  (getRandInt draw 0 positions.length).bind fun rndNum =>
    match reversiSimulation.readCell positions rndNum with
    | none => .fault
    | some p => .ok p

/-- Return best position based on heuristics.  The list of best, good, bad, and
worst positions is defined at the top of the file. -/
def getHeuristicPos (positions : List Int) (draw : Nat) : reversiSimulation.Res Int :=
  -- Build a "best" list
  let bestList := positions.filter (fun pos => decide (pos ∈ corners))
  -- Return a random position from the best list if not empty
  if bestList ≠ [] then getRandPos bestList draw
  else
    -- Build a "good" list
    let goodList := positions.filter
      (fun pos => decide (pos ∉ badPositions) && decide (pos ∉ worstPositions))
    if goodList ≠ [] then getRandPos goodList draw
    else
      -- Build a "bad" list
      let badList := positions.filter (fun pos => decide (pos ∈ badPositions))
      if badList ≠ [] then getRandPos badList draw
      -- If all of the above failed, return a random position
      else getRandPos positions draw

/-- The loop `for pos := range r.board` of `getValidPositions`. -/
def getValidPositionsLoop (r : reversiSimulation.Reversi) (fuel : Nat) :
    List Nat → List Int → reversiSimulation.Res (List Int)
  | [], positions => .ok positions
  | pos :: rest, positions =>
    match isValidPosition r fuel pos with
    | .ok true => getValidPositionsLoop r fuel rest (positions ++ [(pos : Int)])
    | .ok false => getValidPositionsLoop r fuel rest positions
    | .fault => .fault
    | .outOfFuel => .outOfFuel

/-- Return slice of valid positions for current turn. -/
def getValidPositions (r : reversiSimulation.Reversi) (fuel : Nat) :
    reversiSimulation.Res (List Int) :=
  getValidPositionsLoop r fuel (List.range r.board.length) []

def switchTurns (r : reversiSimulation.Reversi) : reversiSimulation.Reversi :=
  { r with turn := r.turn * -1 }

/-- Perform a playout for the given instance of reversi. -/
def doPlayOut (rayFuel : Nat) :
    Nat → reversiSimulation.Reversi → (Nat → Nat) → reversiSimulation.Res reversiSimulation.PlayOut
  | 0, _, _ => .outOfFuel
  | fuel + 1, r, draws =>
    let winResult := checkWin r false
    -- If someone has won or it's a tie, return the result
    if winResult < 2 then .ok { result := winResult, final := r, setChipCalls := 0 }
    else
      (getValidPositions r rayFuel).bind fun positions =>
        -- If there are no valid positions, pass the turn to the other player
        if positions = [] then
          let r := switchTurns r
          (getValidPositions r rayFuel).bind fun positions =>
            -- If the other player also does not have any valid positions, end the game
            if positions = [] then
              .ok { result := checkWin r true, final := r, setChipCalls := 0 }
            else doPlayOut rayFuel fuel r draws
        else
          -- Get the best move based on heuristics
          (getHeuristicPos positions (draws 0)).bind fun pos =>
          (setChip r rayFuel pos).bind fun r =>
            let r := switchTurns r
            (doPlayOut rayFuel fuel r (fun n => draws (n + 1))).bind fun out =>
              .ok { out with setChipCalls := out.setChipCalls + 1 }

end reversi

namespace reversiSimulation


/-! ## Notions used to state the properties -/

/-- Valid states: the board has 64 cells, each -1, 0 or 1, and the turn is 1 or
-1. -/
def Reversi.Valid (r : Reversi) : Prop :=
  r.board.length = 64 ∧ (∀ c ∈ r.board, c = -1 ∨ c = 0 ∨ c = 1) ∧ (r.turn = 1 ∨ r.turn = -1)

instance (r : Reversi) : Decidable r.Valid := by
  unfold Reversi.Valid; infer_instance

/-- The pair (row, col) names a cell of the 8x8 grid. -/
def onGrid (row col : Int) : Prop := 0 ≤ row ∧ row < 8 ∧ 0 ≤ col ∧ col < 8

instance (row col : Int) : Decidable (onGrid row col) := by
  unfold onGrid; infer_instance

/-- The 8 compass directions as (row step, column step). -/
def compass : List (Int × Int) :=
  [(-1, 0), (0, -1), (1, 0), (0, 1), (-1, -1), (1, -1), (1, 1), (-1, 1)]

/-- The cell in row `row` and column `col` of the row-major board. -/
def Reversi.cellAt (r : Reversi) (row col : Int) : Option Int :=
  readCell r.board (8 * row + col)

/-- Seen from `pos` in direction `(dr, dc)`: cells 1..k are on the grid and hold
the opponent's color, and cell k+1 is on the grid and holds the mover's color. -/
def Reversi.Sandwich (r : Reversi) (pos dr dc : Int) (k : Nat) : Prop :=
  1 ≤ k ∧
  (∀ i : Nat, 1 ≤ i → i ≤ k →
    onGrid (pos / 8 + i * dr) (pos % 8 + i * dc) ∧
    r.cellAt (pos / 8 + i * dr) (pos % 8 + i * dc) = some (-r.turn)) ∧
  onGrid (pos / 8 + (k + 1 : Nat) * dr) (pos % 8 + (k + 1 : Nat) * dc) ∧
  r.cellAt (pos / 8 + (k + 1 : Nat) * dr) (pos % 8 + (k + 1 : Nat) * dc) = some r.turn

/-- The legality condition of the specification. -/
def Reversi.Legal (r : Reversi) (pos : Int) : Prop :=
  readCell r.board pos = some 0 ∧ ∃ d ∈ compass, ∃ k, r.Sandwich pos d.1 d.2 k

/-- The boundary predicate `lim` passed with step `dir` says, at every cell of
the board, whether the neighbour in direction `(dr, dc)` is on the grid. -/
def LimOK (dir : Int) (lim : Int → Int → Bool) (dr dc : Int) : Prop :=
  dir = 8 * dr + dc ∧
  ∀ curr : Int, 0 ≤ curr → curr < 64 →
    (lim curr dir = true ↔ onGrid (curr / 8 + dr) (curr % 8 + dc))

/-- Cell `q` is one of the opponent chips that the sandwich seen from `pos` in
direction `(dr, dc)` encloses. -/
def Reversi.CapturedDir (r : Reversi) (pos dr dc : Int) (q : Int) : Prop :=
  ∃ k, r.Sandwich pos dr dc k ∧
    ∃ i : Nat, 1 ≤ i ∧ i ≤ k ∧ q = 8 * (pos / 8 + i * dr) + (pos % 8 + i * dc)

/-- Cell `q` is captured along one of the 8 compass directions. -/
def Reversi.Captured (r : Reversi) (pos : Int) (q : Int) : Prop :=
  ∃ d ∈ compass, r.CapturedDir pos d.1 d.2 q

/-- State `s` is what `setChip` has made of `r` once the chip is placed at `pos`
and the rays in the directions `D` have been flipped: only the board differs,
`pos` and the cells captured along a direction of `D` hold the mover's color,
and every other cell is as in `r`. -/
def Reversi.FlipInv (r : Reversi) (pos : Int) (D : List (Int × Int)) (s : Reversi) : Prop :=
  s = { r with board := s.board } ∧ s.board.length = 64 ∧
  ∀ q : Int,
    (q = pos → readCell s.board q = some r.turn) ∧
    ((∃ d ∈ D, r.CapturedDir pos d.1 d.2 q) → readCell s.board q = some r.turn) ∧
    (q ≠ pos → (¬ ∃ d ∈ D, r.CapturedDir pos d.1 d.2 q) →
      readCell s.board q = readCell r.board q)

/-- Run a sequence of moves: each move is a `setChip` followed by
`switchTurns`. -/
def Reversi.playMoves (fuel : Nat) : Reversi → List Int → Res Reversi
  | r, [] => .ok r
  | r, pos :: rest =>
    (r.setChip fuel pos).bind fun r' => Reversi.playMoves fuel r'.switchTurns rest

/-- Every move of the sequence is legal (`isValidPosition` returns true) in the
state in which it is made.  Moves after a `setChip` that does not return are not
looked at. -/
def Reversi.allLegal (fuel : Nat) : Reversi → List Int → Bool
  | _, [] => true
  | r, pos :: rest =>
    decide (r.isValidPosition fuel pos = .ok true) &&
    match r.setChip fuel pos with
    | .ok r' => Reversi.allLegal fuel r'.switchTurns rest
    | _ => true

/-- Number of empty cells of the board. -/
def Reversi.empties (r : Reversi) : Nat := r.board.count 0

/-- Neither color has a legal position on the board of `r`. -/
def Reversi.NoMoves (r : Reversi) (fuel : Nat) : Prop :=
  r.getValidPositions fuel = .ok [] ∧ r.switchTurns.getValidPositions fuel = .ok []

/-- The eight pairs of step and boundary predicate that `isValidPosition` and
`setChip` pass to `checkDirection` and `flipDirection`: up, left, below, right,
up-left, below-left, below-right, up-right. -/
def rayTable : List (Int × (Int → Int → Bool)) :=
  [(-8, fun curr dir => decide (curr + dir ≥ 0)),
   (-1, fun curr _ => Int.tmod curr 8 != 0),
   (8, fun curr dir => decide (curr + dir < 64)),
   (1, fun curr _ => Int.tmod (curr + 1) 8 != 0),
   (-9, fun curr dir => decide (curr + dir ≥ 0) && (Int.tmod curr 8 != 0)),
   (7, fun curr dir => decide (curr + dir < 64) && (Int.tmod curr 8 != 0)),
   (9, fun curr dir => decide (curr + dir < 64) && (Int.tmod (curr + 1) 8 != 0)),
   (-7, fun curr dir => decide (curr + dir ≥ 0) && (Int.tmod (curr + 1) 8 != 0))]

/-- The keys of the map `scores`. -/
def mapKeys (m : List (Int × Int)) : List Int := m.map Prod.fst

/-- What one rollout with the given result adds to the score of its candidate,
seen from the side `turn` that is to move in the searched state. -/
def weight (turn result : Int) : Int :=
  if result = turn then 2 else if result = turn * -1 then -10 else 1

/-- Sum of the weights of the recorded rollouts of candidate `pos`. -/
def tally (turn : Int) (rollouts : List (Int × Int)) (pos : Int) : Int :=
  ((rollouts.filter (fun e => decide (e.1 = pos))).map (fun e => weight turn e.2)).sum

/-- Number of recorded rollouts of candidate `pos`. -/
def rolloutCount (rollouts : List (Int × Int)) (pos : Int) : Nat :=
  (rollouts.filter (fun e => decide (e.1 = pos))).length

/-- Invariant of the search loops of `getBestMove`, with `done` the candidates
taken up so far: the map has every key once and only keys of `done`; the score
stored for a position is the sum of the weights of its rollouts; no position has
more than `budget` rollouts; and every recorded rollout belongs to a candidate
of `done`, gave -1, 0 or 1, and is the result of `doPlayOut` on a clone of `r`
on which the candidate was played and the turn switched. -/
def Reversi.SearchInv (r : Reversi) (budget rayFuel playFuel : Nat) (useHeuristics : Bool)
    (draws : Nat → Nat → Nat) (done : List Int) (s : Search) : Prop :=
  (mapKeys s.scores).Nodup ∧
  (∀ k ∈ mapKeys s.scores, k ∈ done) ∧
  (∀ p, mapGet s.scores p = tally r.turn s.rollouts p) ∧
  (∀ p, rolloutCount s.rollouts p ≤ budget) ∧
  (∀ e ∈ s.rollouts, e.1 ∈ done ∧ (e.2 = -1 ∨ e.2 = 0 ∨ e.2 = 1) ∧
    ∃ cpy k out, r.deepCopy.setChip rayFuel e.1 = .ok cpy ∧
      doPlayOut rayFuel useHeuristics playFuel cpy.switchTurns (draws k) = .ok out ∧
      out.result = e.2)

/-- Following the words of the specification: the first non-empty tier of a list
of positions, the tiers being (1) the corners, (2) the positions in neither
`badPositions` nor `worstPositions`, (3) the positions in `badPositions`,
(4) all positions. -/
def firstTier (positions : List Int) : List Int :=
  let tier1 := positions.filter (fun p => decide (p ∈ corners))
  let tier2 := positions.filter (fun p => decide (p ∉ badPositions ∧ p ∉ worstPositions))
  let tier3 := positions.filter (fun p => decide (p ∈ badPositions))
  if tier1 ≠ [] then tier1 else if tier2 ≠ [] then tier2 else if tier3 ≠ [] then tier3
  else positions

/-- Following the words of the specification: the state with the two colors
exchanged, every cell and the turn negated. -/
def Reversi.neg (r : Reversi) : Reversi :=
  { r with board := r.board.map (fun c => -c), turn := -r.turn }

/-- A run of statements `r.flipDirection(pos, dir, lim)`, one after another on
the receiver as the statement before left it, as in the body of `setChip`. -/
def Reversi.flipRays (s : Res Reversi) (fuel : Nat) (pos : Int)
    (rays : List (Int × (Int → Int → Bool))) : Res Reversi :=
  rays.foldl (fun s ray => Reversi.thenFlip s fuel pos ray.1 ray.2) s

/-- Following the words of the specification: each ray of `rays` evaluated by
`flipDirection` on the same state `r`; the boards that the calls give. -/
def Reversi.evalRays (r : Reversi) (fuel : Nat) (pos : Int) :
    List (Int × (Int → Int → Bool)) → Res (List (List Int))
  | [] => .ok []
  | ray :: rest =>
    (r.flipDirection fuel pos ray.1 ray.2).bind fun p =>
      (r.evalRays fuel pos rest).bind fun boards => .ok (p.1.board :: boards)

/-- Following the words of the specification: all flips applied at once.  A
cell that one of `boards` shows changed gets the mover's color, every other
cell stays as it is on `board`. -/
def mergeFlips (turn : Int) (board : List Int) (boards : List (List Int)) : List Int :=
  (List.range board.length).map fun i : Nat =>
    if boards.any (fun b => decide (readCell b i ≠ readCell board i)) then turn
    else (readCell board i).getD 0

/-- Following the words of the specification: place the chip, evaluate each of
the 8 distinct rays on the board as it stands right after the chip was placed,
and apply all their flips at once. -/
def Reversi.setChipAtOnce (r : Reversi) (fuel : Nat) (pos : Int) : Res Reversi :=
  match readCell r.board pos with
  | none => .fault
  | some c =>
    if c = 0 then
      match writeCell r.board pos r.turn with
      | none => .fault
      | some board =>
        let r0 : Reversi := { r with board := board }
        (r0.evalRays fuel pos rayTable).bind fun boards =>
          .ok { r0 with board := mergeFlips r0.turn r0.board boards }
    else .ok r

/-- The memory with the contents `v` written through the pointer `r`: the board
into the backing array of `r.board`, turn and `End` into the struct. -/
def Heap.store (h : Heap) (r : Nat) (v : Reversi) : Heap :=
  match h.games[r]? with
  | none => h
  | some g =>
    { arrays := h.arrays.set g.board v.board
      games := h.games.set r { g with turn := v.turn, End := v.End } }

/-- Every backing array and every struct of `h` is still in `h'`, at its address
and with its contents: `h'` is `h` with further allocations. -/
def Heap.Extends (h h' : Heap) : Prop :=
  List.IsPrefix h.arrays h'.arrays ∧ List.IsPrefix h.games h'.games

/-- The address `c` holds a clone made after `h`: it is not an address of `h`,
and neither is the backing array of its board. -/
def Heap.FreshClone (h h' : Heap) (c : Nat) : Prop :=
  h.games.length ≤ c ∧ ∃ g, h'.games[c]? = some g ∧ h.arrays.length ≤ g.board

/-- The run of a search loop on memory follows the run on values: both fail in
the same way, or both return, with the same loop variables, a memory that only
has further allocations, one fresh clone recorded per rollout. -/
def Heap.Tracks (h : Heap) (x : Res Search) (y : Res HeapSearch) : Prop :=
  match x, y with
  | .ok s, .ok hs =>
    hs.search = s ∧ h.Extends hs.heap ∧ (∀ c ∈ hs.clones, h.FreshClone hs.heap c) ∧
      hs.clones.length = s.rollouts.length
  | .fault, .fault => True
  | .outOfFuel, .outOfFuel => True
  | _, _ => False

/-! ## Theorems -/

theorem limOK_up : LimOK (-8) (fun curr dir => decide (curr + dir ≥ 0)) (-1) 0 := by
  refine ⟨by norm_num, fun curr h0 h1 => ?_⟩
  simp only [onGrid, decide_eq_true_eq]
  omega

theorem limOK_left : LimOK (-1) (fun curr _ => Int.tmod curr 8 != 0) 0 (-1) := by
  refine ⟨by norm_num, fun curr h0 h1 => ?_⟩
  simp only [onGrid, Int.tmod_eq_emod h0 (by norm_num : (0:Int) ≤ 8), bne_iff_ne, ne_eq]
  omega

theorem limOK_below : LimOK 8 (fun curr dir => decide (curr + dir < 64)) 1 0 := by
  refine ⟨by norm_num, fun curr h0 h1 => ?_⟩
  simp only [onGrid, decide_eq_true_eq]
  omega

theorem limOK_right : LimOK 1 (fun curr _ => Int.tmod (curr + 1) 8 != 0) 0 1 := by
  refine ⟨by norm_num, fun curr h0 h1 => ?_⟩
  simp only [onGrid, Int.tmod_eq_emod (by omega : (0:Int) ≤ curr + 1) (by norm_num : (0:Int) ≤ 8),
    bne_iff_ne, ne_eq]
  omega

theorem limOK_upLeft :
    LimOK (-9) (fun curr dir => decide (curr + dir ≥ 0) && (Int.tmod curr 8 != 0)) (-1) (-1) := by
  refine ⟨by norm_num, fun curr h0 h1 => ?_⟩
  simp only [onGrid, Int.tmod_eq_emod h0 (by norm_num : (0:Int) ≤ 8), bne_iff_ne, ne_eq,
    Bool.and_eq_true, decide_eq_true_eq]
  omega

theorem limOK_belowLeft :
    LimOK 7 (fun curr dir => decide (curr + dir < 64) && (Int.tmod curr 8 != 0)) 1 (-1) := by
  refine ⟨by norm_num, fun curr h0 h1 => ?_⟩
  simp only [onGrid, Int.tmod_eq_emod h0 (by norm_num : (0:Int) ≤ 8), bne_iff_ne, ne_eq,
    Bool.and_eq_true, decide_eq_true_eq]
  omega

theorem limOK_belowRight :
    LimOK 9 (fun curr dir => decide (curr + dir < 64) && (Int.tmod (curr + 1) 8 != 0)) 1 1 := by
  refine ⟨by norm_num, fun curr h0 h1 => ?_⟩
  simp only [onGrid, Int.tmod_eq_emod (by omega : (0:Int) ≤ curr + 1) (by norm_num : (0:Int) ≤ 8),
    bne_iff_ne, ne_eq, Bool.and_eq_true, decide_eq_true_eq]
  omega

theorem limOK_upRight :
    LimOK (-7) (fun curr dir => decide (curr + dir ≥ 0) && (Int.tmod (curr + 1) 8 != 0)) (-1) 1 := by
  refine ⟨by norm_num, fun curr h0 h1 => ?_⟩
  simp only [onGrid, Int.tmod_eq_emod (by omega : (0:Int) ≤ curr + 1) (by norm_num : (0:Int) ≤ 8),
    bne_iff_ne, ne_eq, Bool.and_eq_true, decide_eq_true_eq]
  omega

/-- Index of the cell `i` steps from `pos` in direction `(dr, dc)`. -/
theorem cell_index (pos dr dc : Int) (i : Nat) :
    8 * (pos / 8 + i * dr) + (pos % 8 + i * dc) = pos + i * (8 * dr + dc) := by
  have := Int.ediv_add_emod pos 8
  linear_combination this

/-- Along a compass direction, a cell `j` steps away that is on the grid is at
most 7 steps away, and its index splits back into its row and column. -/
theorem ray_geometry {pos dr dc : Int} (hd : (dr, dc) ∈ compass) (h0 : 0 ≤ pos) (h1 : pos < 64)
    (j : Nat) (hg : onGrid (pos / 8 + j * dr) (pos % 8 + j * dc)) :
    j ≤ 7 ∧ 0 ≤ pos + j * (8 * dr + dc) ∧ pos + j * (8 * dr + dc) < 64 ∧
    (pos + j * (8 * dr + dc)) / 8 = pos / 8 + j * dr ∧
    (pos + j * (8 * dr + dc)) % 8 = pos % 8 + j * dc := by
  simp only [compass, List.mem_cons, Prod.mk.injEq, List.mem_singleton, List.not_mem_nil,
    or_false] at hd
  unfold onGrid at hg
  rcases hd with h | h | h | h | h | h | h | h <;> obtain ⟨rfl, rfl⟩ := h <;> omega


theorem readCell_of_range {board : List Int} (hlen : board.length = 64) {q : Int}
    (h0 : 0 ≤ q) (h1 : q < 64) : ∃ c, readCell board q = some c ∧ c ∈ board := by
  have hq : q.toNat < board.length := by omega
  refine ⟨board[q.toNat], ?_, List.getElem_mem _⟩
  simp [readCell, h0, List.getElem?_eq_getElem hq]

theorem valid_cell {r : Reversi} (hv : r.Valid) {q : Int} (h0 : 0 ≤ q) (h1 : q < 64) :
    ∃ c, readCell r.board q = some c ∧ (c = -1 ∨ c = 0 ∨ c = 1) := by
  obtain ⟨c, hc, hm⟩ := readCell_of_range hv.1 h0 h1
  exact ⟨c, hc, hv.2.1 c hm⟩

/-- The sandwich condition with the cells named by their board index. -/
theorem sandwich_index (r : Reversi) (pos dr dc : Int) (k : Nat) :
    r.Sandwich pos dr dc k ↔
      1 ≤ k ∧
      (∀ i : Nat, 1 ≤ i → i ≤ k →
        onGrid (pos / 8 + i * dr) (pos % 8 + i * dc) ∧
        readCell r.board (pos + i * (8 * dr + dc)) = some (-r.turn)) ∧
      onGrid (pos / 8 + (k + 1 : Nat) * dr) (pos % 8 + (k + 1 : Nat) * dc) ∧
      readCell r.board (pos + (k + 1 : Nat) * (8 * dr + dc)) = some r.turn := by
  simp only [Reversi.Sandwich, Reversi.cellAt, cell_index]

theorem checkDirectionLoop_spec {r : Reversi} (hv : r.Valid) {pos dr dc dir : Int}
    {lim : Int → Int → Bool} (hd : (dr, dc) ∈ compass) (hl : LimOK dir lim dr dc)
    (h0 : 0 ≤ pos) (h1 : pos < 64) :
    ∀ (fuel j : Nat), 8 ≤ fuel + j →
      (∀ i : Nat, i ≤ j → onGrid (pos / 8 + i * dr) (pos % 8 + i * dc)) →
      (∀ i : Nat, 1 ≤ i → i ≤ j → readCell r.board (pos + i * dir) = some (-r.turn)) →
      ∃ b, r.checkDirectionLoop dir lim fuel (pos + j * dir) (decide (1 ≤ j)) = .ok b ∧
        (b = true ↔ ∃ k, r.Sandwich pos dr dc k) := by
  obtain ⟨hdir, hlim⟩ := hl
  subst hdir
  have ht : r.turn = 1 ∨ r.turn = -1 := hv.2.2
  have hne1 : ¬ (r.turn = -r.turn) := by omega
  have hne2 : ¬ (-r.turn = r.turn) := by omega
  have hne3 : ¬ (r.turn = 0) := by omega
  have hne4 : ¬ ((0 : Int) = r.turn) := by omega
  intro fuel
  induction fuel with
  | zero =>
    intro j hj hg _
    have := (ray_geometry hd h0 h1 j (hg j le_rfl)).1
    omega
  | succ f ih =>
    intro j hj hg hc
    obtain ⟨hj7, hq0, hq1, hrow, hcol⟩ := ray_geometry hd h0 h1 j (hg j le_rfl)
    have hnext : lim (pos + j * (8 * dr + dc)) (8 * dr + dc) = true ↔
        onGrid (pos / 8 + (j + 1 : Nat) * dr) (pos % 8 + (j + 1 : Nat) * dc) := by
      rw [hlim _ hq0 hq1, hrow, hcol]
      have e1 : pos / 8 + (j : Int) * dr + dr = pos / 8 + ((j + 1 : Nat) : Int) * dr := by
        push_cast; ring
      have e2 : pos % 8 + (j : Int) * dc + dc = pos % 8 + ((j + 1 : Nat) : Int) * dc := by
        push_cast; ring
      rw [e1, e2]
    have hidx : pos + (j : Int) * (8 * dr + dc) + (8 * dr + dc) =
        pos + ((j + 1 : Nat) : Int) * (8 * dr + dc) := by push_cast; ring
    -- no sandwich can end at or before cell `j`, nor pass an off-grid cell
    have hshort : ∀ k, r.Sandwich pos dr dc k → j ≤ k := by
      intro k hk
      rw [sandwich_index] at hk
      by_contra hlt
      have := hc (k + 1) (by omega) (by omega)
      rw [hk.2.2.2] at this
      simp only [Option.some.injEq] at this
      omega
    unfold Reversi.checkDirectionLoop
    by_cases hw : lim (pos + j * (8 * dr + dc)) (8 * dr + dc) = true
    · have hg1 := hnext.1 hw
      obtain ⟨_, hn0, hn1, _, _⟩ := ray_geometry hd h0 h1 (j + 1) hg1
      obtain ⟨c, hcell, hcv⟩ := valid_cell hv hn0 hn1
      simp only [hw, if_true, hidx, hcell]
      by_cases hct : c = r.turn
      · -- own color: the ray is legal iff an opposite chip was seen
        by_cases hj1 : 1 ≤ j
        · refine ⟨true, ?_, ?_⟩
          · simp [hct, hj1]
          · simp only [true_iff]
            refine ⟨j, (sandwich_index _ _ _ _ _).2 ⟨hj1, fun i hi1 hi2 => ⟨hg i hi2, hc i hi1 hi2⟩,
              hg1, ?_⟩⟩
            rw [hcell, hct]
        · refine ⟨false, ?_, ?_⟩
          · simp [hct, hj1, hne1]
          · simp only [Bool.false_eq_true, false_iff, not_exists]
            intro k hk
            rw [sandwich_index] at hk
            have hj0 : j = 0 := by omega
            subst hj0
            have := (hk.2.1 1 le_rfl hk.1).2
            rw [hcell] at this
            simp only [Option.some.injEq] at this
            omega
      · by_cases hc0 : c = 0
        · refine ⟨false, ?_, ?_⟩
          · simp [hc0, hne3, hne4]
          · simp only [Bool.false_eq_true, false_iff, not_exists]
            intro k hk
            have hjk := hshort k hk
            rw [sandwich_index] at hk
            rcases Nat.eq_or_lt_of_le hjk with hjk | hjk
            · subst hjk
              have := hk.2.2.2
              rw [hcell] at this
              simp only [Option.some.injEq] at this
              omega
            · have := (hk.2.1 (j + 1) (by omega) (by omega)).2
              rw [hcell] at this
              simp only [Option.some.injEq] at this
              omega
        · -- opposite color: go on
          have hopp : c = r.turn * -1 := by omega
          have hstep := ih (j + 1) (by omega)
            (fun i hi => by
              rcases Nat.eq_or_lt_of_le hi with hi | hi
              · subst hi; exact hg1
              · exact hg i (by omega))
            (fun i hi1 hi2 => by
              rcases Nat.eq_or_lt_of_le hi2 with hi | hi
              · subst hi; rw [hcell, hopp]; congr 1; ring
              · exact hc i hi1 (by omega))
          obtain ⟨b, hb, hbs⟩ := hstep
          refine ⟨b, ?_, hbs⟩
          simpa [hopp, hne2, hne3] using hb
    · refine ⟨false, ?_, ?_⟩
      · simp [hw]
      · simp only [Bool.false_eq_true, false_iff, not_exists]
        intro k hk
        have hjk := hshort k hk
        rw [sandwich_index] at hk
        apply hw
        rw [hnext]
        rcases Nat.eq_or_lt_of_le hjk with hjk | hjk
        · subst hjk; exact hk.2.2.1
        · exact (hk.2.1 (j + 1) (by omega) (by omega)).1


theorem checkDirection_spec {r : Reversi} (hv : r.Valid) {pos dr dc dir : Int}
    {lim : Int → Int → Bool} (hd : (dr, dc) ∈ compass) (hl : LimOK dir lim dr dc)
    (h0 : 0 ≤ pos) (h1 : pos < 64) {fuel : Nat} (hf : 8 ≤ fuel) :
    ∃ b, r.checkDirection fuel pos dir lim = .ok b ∧
      (b = true ↔ ∃ k, r.Sandwich pos dr dc k) := by
  have h := checkDirectionLoop_spec hv hd hl h0 h1 fuel 0 (by omega)
    (fun i hi => by
      have : i = 0 := by omega
      subst this
      simp only [onGrid, Nat.cast_zero, zero_mul, add_zero]
      omega)
    (fun i hi1 hi2 => by omega)
  simpa [Reversi.checkDirection] using h

theorem Res.or_ok (a b : Bool) : (Res.ok a).or (Res.ok b) = Res.ok (a || b) := by
  cases a <;> rfl

/-- The answer of `isValidPosition` on a valid state, ray by ray, in the order
in which the rays are tried. -/
theorem isValidPosition_rays {r : Reversi} (hv : r.Valid) {fuel : Nat} (hf : 8 ≤ fuel)
    {pos : Int} (h0 : 0 ≤ pos) (h1 : pos < 64) :
    ∃ b, r.isValidPosition fuel pos = .ok b ∧
      (b = true ↔ readCell r.board pos = some 0 ∧
        ((∃ k, r.Sandwich pos (-1) 0 k) ∨ (∃ k, r.Sandwich pos 0 (-1) k) ∨
          (∃ k, r.Sandwich pos 1 0 k) ∨ (∃ k, r.Sandwich pos 0 1 k) ∨
          (∃ k, r.Sandwich pos (-1) (-1) k) ∨ (∃ k, r.Sandwich pos 1 (-1) k) ∨
          (∃ k, r.Sandwich pos 1 1 k) ∨ ∃ k, r.Sandwich pos (-1) 1 k)) := by
  obtain ⟨c, hcell, -⟩ := valid_cell hv h0 h1
  unfold Reversi.isValidPosition
  rw [hcell]
  by_cases hc : c = 0
  · subst hc
    obtain ⟨b1, e1, i1⟩ := checkDirection_spec hv (by decide) limOK_up h0 h1 hf
    obtain ⟨b2, e2, i2⟩ := checkDirection_spec hv (by decide) limOK_left h0 h1 hf
    obtain ⟨b3, e3, i3⟩ := checkDirection_spec hv (by decide) limOK_below h0 h1 hf
    obtain ⟨b4, e4, i4⟩ := checkDirection_spec hv (by decide) limOK_right h0 h1 hf
    obtain ⟨b5, e5, i5⟩ := checkDirection_spec hv (by decide) limOK_upLeft h0 h1 hf
    obtain ⟨b6, e6, i6⟩ := checkDirection_spec hv (by decide) limOK_belowLeft h0 h1 hf
    obtain ⟨b7, e7, i7⟩ := checkDirection_spec hv (by decide) limOK_belowRight h0 h1 hf
    obtain ⟨b8, e8, i8⟩ := checkDirection_spec hv (by decide) limOK_upRight h0 h1 hf
    refine ⟨b1 || (b2 || (b3 || (b4 || (b4 || (b5 || (b6 || (b7 || b8))))))), ?_, ?_⟩
    · simp only [if_true, e1, e2, e3, e4, e5, e6, e7, e8, Res.or_ok]
    · simp only [Bool.or_eq_true, i1, i2, i3, i4, i5, i6, i7, i8, true_and]
      constructor
      · rintro (h | h | h | h | h | h | h | h | h) <;> simp [h]
      · rintro (h | h | h | h | h | h | h | h) <;> simp [h]
  · refine ⟨false, by simp [hc], ?_⟩
    simp only [Bool.false_eq_true, Option.some.injEq, false_iff, not_and]
    intro h
    exact absurd h hc

/-- C1: on a valid state and for a position on the board, `isValidPosition`
returns (with fuel 8 or more), and it returns true exactly when the cell is
empty and some compass direction holds a run of one or more opponent chips on
the grid closed by a chip of the mover on the grid. -/
theorem isValidPosition_iff_legal (r : Reversi) (fuel : Nat) (pos : Int) (hv : r.Valid)
    (hf : 8 ≤ fuel) (h0 : 0 ≤ pos) (h1 : pos < 64) :
    ∃ b, r.isValidPosition fuel pos = .ok b ∧ (b = true ↔ r.Legal pos) := by
  obtain ⟨b, hb, hrays⟩ := isValidPosition_rays hv hf h0 h1
  refine ⟨b, hb, ?_⟩
  rw [hrays]
  unfold Reversi.Legal
  simp only [compass, List.mem_cons, List.mem_singleton, List.not_mem_nil, or_false,
    exists_eq_or_imp, exists_eq_left]

theorem isValidPosition_iff_legal_witness :
    NewGame.Valid ∧ 8 ≤ 8 ∧ (0 : Int) ≤ 20 ∧ (20 : Int) < 64 ∧
      ∃ b, NewGame.isValidPosition 8 20 = .ok b ∧ (b = true ↔ NewGame.Legal 20) := by
  have hv : NewGame.Valid := by decide
  exact ⟨hv, le_refl 8, by decide, by decide,
    isValidPosition_iff_legal NewGame 8 20 hv (le_refl 8) (by decide) (by decide)⟩


theorem writeCell_of_range {board : List Int} (hlen : board.length = 64) {q : Int}
    (h0 : 0 ≤ q) (h1 : q < 64) (v : Int) :
    writeCell board q v = some (board.set q.toNat v) := by
  have hq : q.toNat < board.length := by omega
  simp [writeCell, h0, hq]

theorem readCell_set {board : List Int} (hlen : board.length = 64) {q : Int}
    (h0 : 0 ≤ q) (h1 : q < 64) (v : Int) (x : Int) :
    readCell (board.set q.toNat v) x = if x = q then some v else readCell board x := by
  unfold readCell
  by_cases hx : 0 ≤ x
  · simp only [hx, if_true, List.getElem?_set]
    by_cases hxq : x = q
    · subst hxq
      have : x.toNat < board.length := by omega
      simp [this]
    · have : q.toNat ≠ x.toNat := by omega
      simp [this, hxq]
  · have : x ≠ q := by omega
    simp [hx, this]

/-- Positions on the ray that are on the grid: the boundary predicate at step
`j` says whether step `j + 1` is on the grid. -/
theorem lim_iff_next {pos dr dc : Int} {lim : Int → Int → Bool} (hd : (dr, dc) ∈ compass)
    (hl : LimOK (8 * dr + dc) lim dr dc) (h0 : 0 ≤ pos) (h1 : pos < 64) (j : Nat)
    (hg : onGrid (pos / 8 + j * dr) (pos % 8 + j * dc)) :
    lim (pos + j * (8 * dr + dc)) (8 * dr + dc) = true ↔
      onGrid (pos / 8 + (j + 1 : Nat) * dr) (pos % 8 + (j + 1 : Nat) * dc) := by
  obtain ⟨_, hq0, hq1, hrow, hcol⟩ := ray_geometry hd h0 h1 j hg
  rw [hl.2 _ hq0 hq1, hrow, hcol]
  have e1 : pos / 8 + (j : Int) * dr + dr = pos / 8 + ((j + 1 : Nat) : Int) * dr := by
    push_cast; ring
  have e2 : pos % 8 + (j : Int) * dc + dc = pos % 8 + ((j + 1 : Nat) : Int) * dc := by
    push_cast; ring
  rw [e1, e2]

theorem onGrid_zero {pos : Int} (h0 : 0 ≤ pos) (h1 : pos < 64) (dr dc : Int) :
    onGrid (pos / 8 + (0 : Nat) * dr) (pos % 8 + (0 : Nat) * dc) := by
  simp only [onGrid, Nat.cast_zero, zero_mul, add_zero]
  omega

theorem sandwich_onGrid {r : Reversi} {pos dr dc : Int} {k : Nat}
    (hs : r.Sandwich pos dr dc k) (h0 : 0 ≤ pos) (h1 : pos < 64) (i : Nat) (hi : i ≤ k + 1) :
    onGrid (pos / 8 + i * dr) (pos % 8 + i * dc) := by
  rcases Nat.eq_zero_or_pos i with hz | hp
  · subst hz; exact onGrid_zero h0 h1 dr dc
  · rcases Nat.eq_or_lt_of_le hi with he | hlt
    · subst he; exact hs.2.2.1
    · exact (hs.2.1 i hp (by omega)).1

/-- Two sandwiches along the same ray of the same board have the same length. -/
theorem sandwich_unique {r : Reversi} (hv : r.Valid) {pos dr dc : Int} {k k' : Nat}
    (hs : r.Sandwich pos dr dc k) (hs' : r.Sandwich pos dr dc k') : k = k' := by
  have ht : r.turn = 1 ∨ r.turn = -1 := hv.2.2
  by_contra hne
  rcases Nat.lt_or_gt_of_ne hne with h | h
  · have a := (hs'.2.1 (k + 1) (by omega) (by omega)).2
    rw [hs.2.2.2] at a
    simp only [Option.some.injEq] at a
    omega
  · have a := (hs.2.1 (k' + 1) (by omega) (by omega)).2
    rw [hs'.2.2.2] at a
    simp only [Option.some.injEq] at a
    omega

/-- Distinct steps along a compass direction are distinct cells. -/
theorem ray_injective {dr dc : Int} (hd : (dr, dc) ∈ compass) (pos : Int) {i i' : Nat}
    (h : pos + i * (8 * dr + dc) = pos + i' * (8 * dr + dc)) : i = i' := by
  simp only [compass, List.mem_cons, Prod.mk.injEq, List.mem_singleton, List.not_mem_nil,
    or_false] at hd
  rcases hd with h' | h' | h' | h' | h' | h' | h' | h' <;> obtain ⟨rfl, rfl⟩ := h' <;> omega

theorem flipScanLoop_of_check (r : Reversi) (dir : Int) (lim : Int → Int → Bool) :
    ∀ (fuel : Nat) (cur : Int) (found : Bool),
      (r.checkDirectionLoop dir lim fuel cur found = .ok true →
        r.flipScanLoop dir lim fuel cur found = .ok (.done true)) ∧
      (r.checkDirectionLoop dir lim fuel cur found = .ok false →
        r.flipScanLoop dir lim fuel cur found = .ok (.returned false) ∨
        r.flipScanLoop dir lim fuel cur found = .ok (.done false)) := by
  intro fuel
  induction fuel with
  | zero => intro cur found; simp [Reversi.checkDirectionLoop]
  | succ f ih =>
    intro cur found
    unfold Reversi.checkDirectionLoop Reversi.flipScanLoop
    by_cases hw : lim cur dir = true
    · simp only [hw, if_true]
      cases hcell : readCell r.board (cur + dir) with
      | none => simp
      | some c =>
        simp only
        by_cases hct : c = r.turn
        · simp only [hct, if_true]
          cases found <;> by_cases hp : r.turn = r.turn * -1
          · rw [if_pos hp]; simp
          · rw [if_neg hp]; simp
          · rw [if_pos hp]; simp
          · rw [if_neg hp]; simp
        · simp only [hct, if_false]
          by_cases hc0 : c = 0
          · simp [hc0]
          · simp only [hc0, if_false]
            exact ih _ _
    · simp [hw]


theorem flipLoop_spec {r : Reversi} (hv : r.Valid) {pos dr dc : Int} {lim : Int → Int → Bool}
    (hd : (dr, dc) ∈ compass) (hl : LimOK (8 * dr + dc) lim dr dc) (h0 : 0 ≤ pos)
    (h1 : pos < 64) {k : Nat} (hs : r.Sandwich pos dr dc k) :
    ∀ (fuel j : Nat) (board : List Int), 8 ≤ fuel + j → j ≤ k → board.length = 64 →
      (∀ i : Nat, j < i → i ≤ k + 1 →
        readCell board (pos + i * (8 * dr + dc)) = readCell r.board (pos + i * (8 * dr + dc))) →
      ∃ b', Reversi.flipLoop r.turn (8 * dr + dc) lim fuel board (pos + j * (8 * dr + dc)) = .ok b' ∧
        b'.length = 64 ∧
        (∀ q : Int, (∃ i : Nat, j < i ∧ i ≤ k ∧ q = pos + i * (8 * dr + dc)) →
          readCell b' q = some r.turn) ∧
        (∀ q : Int, (¬ ∃ i : Nat, j < i ∧ i ≤ k ∧ q = pos + i * (8 * dr + dc)) →
          readCell b' q = readCell board q) := by
  have ht : r.turn = 1 ∨ r.turn = -1 := hv.2.2
  have hne2 : ¬ (-r.turn = r.turn) := by omega
  have hne1 : ¬ (r.turn = -r.turn) := by omega
  have hsi := (sandwich_index r pos dr dc k).1 hs
  intro fuel
  induction fuel with
  | zero =>
    intro j board hj hjk _ _
    have := (ray_geometry hd h0 h1 j (sandwich_onGrid hs h0 h1 j (by omega))).1
    omega
  | succ f ih =>
    intro j board hj hjk hlen hag
    have hg1 := sandwich_onGrid hs h0 h1 (j + 1) (by omega)
    have hw := (lim_iff_next hd hl h0 h1 j (sandwich_onGrid hs h0 h1 j (by omega))).2 hg1
    obtain ⟨_, hn0, hn1, _, _⟩ := ray_geometry hd h0 h1 (j + 1) hg1
    have hidx : pos + (j : Int) * (8 * dr + dc) + (8 * dr + dc) =
        pos + ((j + 1 : Nat) : Int) * (8 * dr + dc) := by push_cast; ring
    unfold Reversi.flipLoop
    simp only [hw, if_true, hidx]
    rcases Nat.eq_or_lt_of_le hjk with hjk' | hjk'
    · -- the closing chip of the mover: stop
      subst hjk'
      have hcell := hag (j + 1) (by omega) le_rfl
      rw [hsi.2.2.2] at hcell
      refine ⟨board, ?_, hlen, ?_, fun q _ => rfl⟩
      · rw [hcell]; simp [hne1]
      · rintro q ⟨i, hi1, hi2, -⟩
        omega
    · -- an opponent chip: recolor it and go on
      have hcell := hag (j + 1) (by omega) (by omega)
      rw [(hsi.2.1 (j + 1) (by omega) (by omega)).2] at hcell
      have hwr := writeCell_of_range hlen hn0 hn1 r.turn
      have hlen' : (board.set (pos + ((j + 1 : Nat) : Int) * (8 * dr + dc)).toNat r.turn).length
          = 64 := by rw [List.length_set]; exact hlen
      obtain ⟨b', hb', hl', hin, hout⟩ := ih (j + 1) _ (by omega) (by omega) hlen'
        (fun i hi1 hi2 => by
          rw [readCell_set hlen hn0 hn1, if_neg]
          · exact hag i (by omega) hi2
          · intro h
            have := ray_injective hd pos h
            omega)
      refine ⟨b', ?_, hl', ?_, ?_⟩
      · simp only [hcell, mul_neg, mul_one, if_true, hwr]
        exact hb'
      · rintro q ⟨i, hi1, hi2, rfl⟩
        rcases Nat.eq_or_lt_of_le (Nat.succ_le_of_lt hi1) with he | hlt
        · rw [← he, hout]
          · rw [readCell_set hlen hn0 hn1, if_pos rfl]
          · rintro ⟨i', hi1', _, h⟩
            have := ray_injective hd pos h
            omega
        · exact hin _ ⟨i, hlt, hi2, rfl⟩
      · intro q hq
        rw [hout]
        · rw [readCell_set hlen hn0 hn1, if_neg]
          intro h
          exact hq ⟨j + 1, by omega, by omega, h⟩
        · rintro ⟨i, hi1, hi2, h⟩
          exact hq ⟨i, by omega, hi2, h⟩

theorem capturedDir_index (r : Reversi) (pos dr dc q : Int) :
    r.CapturedDir pos dr dc q ↔
      ∃ k, r.Sandwich pos dr dc k ∧ ∃ i : Nat, 1 ≤ i ∧ i ≤ k ∧ q = pos + i * (8 * dr + dc) := by
  simp only [Reversi.CapturedDir, cell_index]

/-- What one call of `flipDirection` does on a valid state: it returns false,
recolors exactly the cells enclosed by the sandwich along its ray, and leaves
everything else alone. -/
theorem flipDirection_spec {r : Reversi} (hv : r.Valid) {pos dr dc dir : Int}
    {lim : Int → Int → Bool} (hd : (dr, dc) ∈ compass) (hl : LimOK dir lim dr dc)
    (h0 : 0 ≤ pos) (h1 : pos < 64) {fuel : Nat} (hf : 8 ≤ fuel) :
    ∃ board', r.flipDirection fuel pos dir lim = .ok ({ r with board := board' }, false) ∧
      board'.length = 64 ∧
      (∀ q, r.CapturedDir pos dr dc q → readCell board' q = some r.turn) ∧
      (∀ q, ¬ r.CapturedDir pos dr dc q → readCell board' q = readCell r.board q) := by
  obtain ⟨b, hb, hbs⟩ := checkDirection_spec hv hd hl h0 h1 hf
  have hdir := hl.1
  subst hdir
  unfold Reversi.checkDirection at hb
  have hscan := flipScanLoop_of_check r (8 * dr + dc) lim fuel pos false
  unfold Reversi.flipDirection
  cases b with
  | false =>
    have hno : ∀ q, ¬ r.CapturedDir pos dr dc q := by
      rintro q ⟨k, hk, -⟩
      have := hbs.2 ⟨k, hk⟩
      exact absurd this (by decide)
    refine ⟨r.board, ?_, hv.1, fun q hq => absurd hq (hno q), fun q _ => rfl⟩
    rcases hscan.2 hb with h | h <;> simp [h]
  | true =>
    obtain ⟨k, hk⟩ := hbs.1 rfl
    obtain ⟨b', hb', hl', hin, hout⟩ := flipLoop_spec hv hd hl h0 h1 hk fuel 0 r.board
      (by omega) (by omega) hv.1 (fun i _ _ => rfl)
    refine ⟨b', ?_, hl', ?_, ?_⟩
    · simp only [Nat.cast_zero, zero_mul, add_zero] at hb'
      simp [hscan.1 hb, hb']
    · intro q hq
      rw [capturedDir_index] at hq
      obtain ⟨k', hk', i, hi1, hi2, hqi⟩ := hq
      have := sandwich_unique hv hk hk'
      subst this
      exact hin q ⟨i, by omega, hi2, hqi⟩
    · intro q hq
      apply hout
      rintro ⟨i, hi1, hi2, hqi⟩
      exact hq ((capturedDir_index _ _ _ _ _).2 ⟨k, hk, i, by omega, hi2, hqi⟩)


/-- Rays that leave `pos` in different compass directions share no cell. -/
theorem ray_disjoint {d d' : Int × Int} (hd : d ∈ compass) (hd' : d' ∈ compass) {pos : Int}
    {i i' : Nat} (hi : 1 ≤ i) (hi' : 1 ≤ i')
    (hg : onGrid (pos / 8 + i * d.1) (pos % 8 + i * d.2))
    (hg' : onGrid (pos / 8 + i' * d'.1) (pos % 8 + i' * d'.2))
    (h : pos + i * (8 * d.1 + d.2) = pos + i' * (8 * d'.1 + d'.2)) : d = d' := by
  obtain ⟨dr, dc⟩ := d
  obtain ⟨dr', dc'⟩ := d'
  simp only [compass, List.mem_cons, Prod.mk.injEq, List.mem_singleton, List.not_mem_nil,
    or_false] at hd hd'
  unfold onGrid at hg hg'
  simp only at hg hg' h
  rcases hd with h1 | h1 | h1 | h1 | h1 | h1 | h1 | h1 <;> obtain ⟨rfl, rfl⟩ := h1 <;>
    rcases hd' with h2 | h2 | h2 | h2 | h2 | h2 | h2 | h2 <;> obtain ⟨rfl, rfl⟩ := h2 <;>
    first | rfl | (exfalso; omega)

theorem valid_of_cells {s : Reversi} (hlen : s.board.length = 64)
    (hc : ∀ q : Int, ∀ c, readCell s.board q = some c → c = -1 ∨ c = 0 ∨ c = 1)
    (ht : s.turn = 1 ∨ s.turn = -1) : s.Valid := by
  refine ⟨hlen, fun c hm => ?_, ht⟩
  obtain ⟨n, hn, rfl⟩ := List.getElem_of_mem hm
  apply hc (n : Int)
  simp [readCell, List.getElem?_eq_getElem hn]

theorem readCell_range {board : List Int} (hlen : board.length = 64) {q c : Int}
    (h : readCell board q = some c) : 0 ≤ q ∧ q < 64 := by
  unfold readCell at h
  by_cases hq : 0 ≤ q
  · simp only [hq, if_true] at h
    have := (List.getElem?_eq_some.1 h).1
    omega
  · simp [hq] at h

theorem flipInv_valid {r s : Reversi} {pos : Int} {D : List (Int × Int)}
    (hv : r.Valid) (hinv : r.FlipInv pos D s) : s.Valid := by
  obtain ⟨hs, hlen, hq⟩ := hinv
  have ht : r.turn = 1 ∨ r.turn = -1 := hv.2.2
  have hst : s.turn = r.turn := by rw [hs]
  refine valid_of_cells hlen (fun q c hc => ?_) (by rw [hst]; exact ht)
  obtain ⟨hq1, hq2, hq3⟩ := hq q
  by_cases hp : q = pos
  · rw [hq1 hp] at hc
    simp only [Option.some.injEq] at hc
    omega
  · by_cases hcap : ∃ d ∈ D, r.CapturedDir pos d.1 d.2 q
    · rw [hq2 hcap] at hc
      simp only [Option.some.injEq] at hc
      omega
    · rw [hq3 hp hcap] at hc
      obtain ⟨hr0, hr1⟩ := readCell_range hv.1 hc
      obtain ⟨c', hc', hcv⟩ := valid_cell hv hr0 hr1
      rw [hc'] at hc
      simp only [Option.some.injEq] at hc
      omega


/-- A sandwich seen on the intermediate state lies inside a sandwich of the
starting state along the same ray. -/
theorem flipInv_sandwich_mono {r s : Reversi} {pos : Int} {D : List (Int × Int)}
    (hv : r.Valid) (hD : ∀ d ∈ D, d ∈ compass)
    (hinv : r.FlipInv pos D s) {dr dc : Int} (hd : (dr, dc) ∈ compass) {k : Nat}
    (hk : s.Sandwich pos dr dc k) : ∃ k', k ≤ k' ∧ r.Sandwich pos dr dc k' := by
  obtain ⟨hs, hlen, hq⟩ := hinv
  have ht : r.turn = 1 ∨ r.turn = -1 := hv.2.2
  have hst : s.turn = r.turn := by rw [hs]
  have hksi := (sandwich_index s pos dr dc k).1 hk
  rw [hst] at hksi
  -- the opponent chips of `s` along the ray are opponent chips of `r`
  have hopp : ∀ i : Nat, 1 ≤ i → i ≤ k →
      readCell r.board (pos + i * (8 * dr + dc)) = some (-r.turn) := by
    intro i hi1 hi2
    have hc := (hksi.2.1 i hi1 hi2).2
    obtain ⟨hq1, hq2, hq3⟩ := hq (pos + i * (8 * dr + dc))
    by_cases hp : pos + (i : Int) * (8 * dr + dc) = pos
    · rw [hq1 hp] at hc
      simp only [Option.some.injEq] at hc
      omega
    · by_cases hcap : ∃ d ∈ D, r.CapturedDir pos d.1 d.2 (pos + i * (8 * dr + dc))
      · rw [hq2 hcap] at hc
        simp only [Option.some.injEq] at hc
        omega
      · rw [← hq3 hp hcap]; exact hc
  have hc := hksi.2.2.2
  obtain ⟨hq1, hq2, hq3⟩ := hq (pos + (k + 1 : Nat) * (8 * dr + dc))
  have hp : pos + ((k + 1 : Nat) : Int) * (8 * dr + dc) ≠ pos := by
    intro h
    have : pos + ((k + 1 : Nat) : Int) * (8 * dr + dc) = pos + ((0 : Nat) : Int) * (8 * dr + dc) := by
      rw [h]; simp
    have := ray_injective hd pos this
    omega
  by_cases hcap : ∃ d ∈ D, r.CapturedDir pos d.1 d.2 (pos + (k + 1 : Nat) * (8 * dr + dc))
  · obtain ⟨d', hd', hcd⟩ := hcap
    rw [capturedDir_index] at hcd
    obtain ⟨k', hk', i', hi1, hi2, heq⟩ := hcd
    have hdd : (dr, dc) = d' := ray_disjoint hd (hD d' hd') (Nat.succ_le_succ (Nat.zero_le k)) hi1
      hksi.2.2.1 (hk'.2.1 i' hi1 hi2).1 heq
    subst hdd
    have := ray_injective hd pos heq
    exact ⟨k', by omega, hk'⟩
  · rw [hq3 hp hcap] at hc
    exact ⟨k, le_rfl, (sandwich_index r pos dr dc k).2
      ⟨hksi.1, fun i hi1 hi2 => ⟨(hksi.2.1 i hi1 hi2).1, hopp i hi1 hi2⟩, hksi.2.2.1, hc⟩⟩

/-- A cell captured in the starting state along a ray is, in the intermediate
state, either still to be captured along that ray or already recolored. -/
theorem flipInv_captured_keep {r s : Reversi} {pos : Int} {D : List (Int × Int)}
    (h0 : 0 ≤ pos) (h1 : pos < 64) (hD : ∀ d ∈ D, d ∈ compass)
    (hinv : r.FlipInv pos D s) {dr dc : Int} (hd : (dr, dc) ∈ compass) {q : Int}
    (hcap : r.CapturedDir pos dr dc q) :
    s.CapturedDir pos dr dc q ∨ readCell s.board q = some r.turn := by
  obtain ⟨hs, hlen, hq⟩ := hinv
  have hst : s.turn = r.turn := by rw [hs]
  by_cases hdone : ∃ d ∈ D, r.CapturedDir pos d.1 d.2 q
  · exact Or.inr ((hq q).2.1 hdone)
  · left
    have hcap' := hcap
    rw [capturedDir_index] at hcap
    obtain ⟨k, hk, i, hi1, hi2, hqi⟩ := hcap
    have hnd : (dr, dc) ∉ D := fun hm => hdone ⟨(dr, dc), hm, hcap'⟩
    have hksi := (sandwich_index r pos dr dc k).1 hk
    -- along this ray the intermediate state still shows the cells of `r`
    have hsame : ∀ j : Nat, 1 ≤ j → j ≤ k + 1 →
        readCell s.board (pos + j * (8 * dr + dc)) = readCell r.board (pos + j * (8 * dr + dc)) := by
      intro j hj1 hj2
      apply (hq _).2.2
      · intro h
        have : pos + (j : Int) * (8 * dr + dc) = pos + ((0 : Nat) : Int) * (8 * dr + dc) := by
          rw [h]; simp
        have := ray_injective hd pos this
        omega
      · rintro ⟨d', hd', hcd⟩
        rw [capturedDir_index] at hcd
        obtain ⟨k', hk', i', hi1', hi2', heq⟩ := hcd
        have hdd : (dr, dc) = d' := ray_disjoint hd (hD d' hd') hj1 hi1'
          (sandwich_onGrid hk h0 h1 j hj2) (hk'.2.1 i' hi1' hi2').1 heq
        subst hdd
        exact hnd hd'
    rw [capturedDir_index]
    refine ⟨k, (sandwich_index s pos dr dc k).2 ⟨hksi.1, fun j hj1 hj2 => ?_, hksi.2.2.1, ?_⟩,
      i, hi1, hi2, hqi⟩
    · rw [hst, hsame j hj1 (by omega)]
      exact hksi.2.1 j hj1 hj2
    · rw [hst, hsame (k + 1) (by omega) le_rfl]
      exact hksi.2.2.2

/-- One `flipDirection` statement of `setChip` carries the invariant on. -/
theorem thenFlip_step {r s : Reversi} {pos : Int} {D : List (Int × Int)} (hv : r.Valid)
    (h0 : 0 ≤ pos) (h1 : pos < 64) (hD : ∀ d ∈ D, d ∈ compass) (hinv : r.FlipInv pos D s)
    {dr dc dir : Int} {lim : Int → Int → Bool} (hd : (dr, dc) ∈ compass)
    (hl : LimOK dir lim dr dc) {fuel : Nat} (hf : 8 ≤ fuel) :
    ∃ s', Reversi.thenFlip (.ok s) fuel pos dir lim = .ok s' ∧
      r.FlipInv pos ((dr, dc) :: D) s' := by
  have hsv : s.Valid := flipInv_valid hv hinv
  obtain ⟨b', hb', hlen', hin, hout⟩ := flipDirection_spec hsv hd hl h0 h1 hf
  have hst : s.turn = r.turn := by rw [hinv.1]
  refine ⟨{ s with board := b' }, by simp [Reversi.thenFlip, hb'], ?_, hlen', fun q => ⟨?_, ?_, ?_⟩⟩
  · have := hinv.1
    rw [this]
  · intro hp
    by_cases hc : s.CapturedDir pos dr dc q
    · rw [← hst]; exact hin q hc
    · simp only
      rw [hout q hc]; exact (hinv.2.2 q).1 hp
  · rintro ⟨d'', hm, hcap⟩
    simp only
    by_cases hc : s.CapturedDir pos dr dc q
    · rw [← hst]; exact hin q hc
    · rw [hout q hc]
      rcases List.mem_cons.1 hm with he | hm'
      · subst he
        rcases flipInv_captured_keep h0 h1 hD hinv hd hcap with h | h
        · exact absurd h hc
        · exact h
      · exact (hinv.2.2 q).2.1 ⟨d'', hm', hcap⟩
  · intro hp hno
    simp only
    have hc : ¬ s.CapturedDir pos dr dc q := by
      intro hc
      rw [capturedDir_index] at hc
      obtain ⟨k, hk, i, hi1, hi2, hqi⟩ := hc
      obtain ⟨k', hkk, hk'⟩ := flipInv_sandwich_mono hv hD hinv hd hk
      exact hno ⟨(dr, dc), List.mem_cons_self _ _,
        (capturedDir_index _ _ _ _ _).2 ⟨k', hk', i, hi1, by omega, hqi⟩⟩
    rw [hout q hc]
    exact (hinv.2.2 q).2.2 hp (fun ⟨d'', hm, hcap⟩ => hno ⟨d'', List.mem_cons_of_mem _ hm, hcap⟩)


theorem captured_iff_mem (r : Reversi) (pos q : Int) :
    (∃ d ∈ [((-1 : Int), (1 : Int)), (1, 1), (1, -1), (-1, -1), (0, 1), (0, 1), (1, 0), (0, -1),
      (-1, 0)], r.CapturedDir pos d.1 d.2 q) ↔ r.Captured pos q := by
  simp only [Reversi.Captured, compass, List.mem_cons, List.mem_singleton, List.not_mem_nil,
    or_false, exists_eq_or_imp, exists_eq_left]
  constructor
  · rintro (h | h | h | h | h | h | h | h | h) <;> simp [h]
  · rintro (h | h | h | h | h | h | h | h) <;> simp [h]

/-- The state `setChip` returns at an empty cell of a valid state, described by
the invariant of its nine `flipDirection` statements. -/
theorem setChip_flipInv {r : Reversi} (hv : r.Valid) {fuel : Nat} (hf : 8 ≤ fuel) {pos : Int}
    (h0 : 0 ≤ pos) (h1 : pos < 64) (he : readCell r.board pos = some 0) :
    ∃ s, r.setChip fuel pos = .ok s ∧
      r.FlipInv pos [(-1, 1), (1, 1), (1, -1), (-1, -1), (0, 1), (0, 1), (1, 0), (0, -1),
        (-1, 0)] s := by
  have hinv0 : r.FlipInv pos [] { r with board := r.board.set pos.toNat r.turn } := by
    refine ⟨rfl, by simp [hv.1], fun q => ⟨fun hp => ?_, fun hc => ?_, fun hp _ => ?_⟩⟩
    · simp only; rw [readCell_set hv.1 h0 h1, if_pos hp]
    · simp at hc
    · simp only; rw [readCell_set hv.1 h0 h1, if_neg hp]
  obtain ⟨s1, e1, inv1⟩ := thenFlip_step hv h0 h1 (by decide) hinv0 (by decide) limOK_up hf
  obtain ⟨s2, e2, inv2⟩ := thenFlip_step hv h0 h1 (by decide) inv1 (by decide) limOK_left hf
  obtain ⟨s3, e3, inv3⟩ := thenFlip_step hv h0 h1 (by decide) inv2 (by decide) limOK_below hf
  obtain ⟨s4, e4, inv4⟩ := thenFlip_step hv h0 h1 (by decide) inv3 (by decide) limOK_right hf
  obtain ⟨s5, e5, inv5⟩ := thenFlip_step hv h0 h1 (by decide) inv4 (by decide) limOK_right hf
  obtain ⟨s6, e6, inv6⟩ := thenFlip_step hv h0 h1 (by decide) inv5 (by decide) limOK_upLeft hf
  obtain ⟨s7, e7, inv7⟩ := thenFlip_step hv h0 h1 (by decide) inv6 (by decide) limOK_belowLeft hf
  obtain ⟨s8, e8, inv8⟩ := thenFlip_step hv h0 h1 (by decide) inv7 (by decide) limOK_belowRight hf
  obtain ⟨s9, e9, inv9⟩ := thenFlip_step hv h0 h1 (by decide) inv8 (by decide) limOK_upRight hf
  refine ⟨s9, ?_, inv9⟩
  unfold Reversi.setChip
  simp only [he, if_true, writeCell_of_range hv.1 h0 h1, e1, e2, e3, e4, e5, e6, e7, e8, e9]

/-- C2: on a valid state, `setChip` at an empty cell returns (with fuel 8 or
more) a state that differs from the old one in the board only; on the new board
`pos` holds the mover's color, every cell enclosed by a sandwich along one of
the 8 compass directions holds the mover's color, and every other cell is as it
was.  The turn is unchanged. -/
theorem setChip_spec (r : Reversi) (fuel : Nat) (pos : Int) (hv : r.Valid) (hf : 8 ≤ fuel)
    (h0 : 0 ≤ pos) (h1 : pos < 64) (he : readCell r.board pos = some 0) :
    ∃ r', r.setChip fuel pos = .ok r' ∧ r' = { r with board := r'.board } ∧
      r'.turn = r.turn ∧ r'.board.length = 64 ∧
      readCell r'.board pos = some r.turn ∧
      (∀ q, r.Captured pos q → readCell r'.board q = some r.turn) ∧
      (∀ q, q ≠ pos → ¬ r.Captured pos q → readCell r'.board q = readCell r.board q) := by
  obtain ⟨s, hs, heq, hlen, hq⟩ := setChip_flipInv hv hf h0 h1 he
  refine ⟨s, hs, heq, by rw [heq], hlen, (hq pos).1 rfl, fun q hcap => ?_, fun q hp hcap => ?_⟩
  · exact (hq q).2.1 ((captured_iff_mem r pos q).2 hcap)
  · exact (hq q).2.2 hp (fun h => hcap ((captured_iff_mem r pos q).1 h))

theorem setChip_spec_witness :
    NewGame.Valid ∧ 8 ≤ 8 ∧ (0 : Int) ≤ 34 ∧ (34 : Int) < 64 ∧
      readCell NewGame.board 34 = some 0 ∧
      ∃ r', NewGame.setChip 8 34 = .ok r' ∧ r' = { NewGame with board := r'.board } ∧
        r'.turn = NewGame.turn ∧ r'.board.length = 64 ∧
        readCell r'.board 34 = some NewGame.turn ∧
        (∀ q, NewGame.Captured 34 q → readCell r'.board q = some NewGame.turn) ∧
        (∀ q, q ≠ 34 → ¬ NewGame.Captured 34 q →
          readCell r'.board q = readCell NewGame.board q) := by
  have hv : NewGame.Valid := by decide
  exact ⟨hv, le_refl 8, by decide, by decide, by decide,
    setChip_spec NewGame 8 34 hv (le_refl 8) (by decide) (by decide) (by decide)⟩


theorem foldl_score (color : Int) (l : List Int) (init : Int) :
    l.foldl (fun score elm => if elm = color then score + 1 else score) init
      = init + (l.count color : Nat) := by
  induction l generalizing init with
  | nil => simp
  | cons a t ih =>
    rw [List.foldl_cons, ih, List.count_cons]
    by_cases h : a = color
    · simp [h]; ring
    · simp [h]

theorem getScore_eq_count (r : Reversi) (color : Int) :
    r.getScore color = (r.board.count color : Nat) := by
  unfold Reversi.getScore
  rw [foldl_score]; simp

theorem count_three (l : List Int) (h : ∀ c ∈ l, c = -1 ∨ c = 0 ∨ c = 1) :
    l.count 1 + l.count (-1) + l.count 0 = l.length := by
  induction l with
  | nil => simp
  | cons a t ih =>
    have iht := ih (fun c hc => h c (List.mem_cons_of_mem _ hc))
    have ha := h a (List.mem_cons_self _ _)
    simp only [List.count_cons, List.length_cons]
    rcases ha with ha | ha | ha <;> subst ha <;> simp <;> omega

/-- On a valid state the two scores and the number of empty cells add up to 64. -/
theorem valid_score_sum {r : Reversi} (hv : r.Valid) :
    r.getBlueScore + r.getRedScore + (r.empties : Int) = 64 := by
  have := count_three r.board hv.2.1
  rw [hv.1] at this
  unfold Reversi.getBlueScore Reversi.getRedScore Reversi.empties blue red
  rw [getScore_eq_count, getScore_eq_count]
  omega

theorem readCell_natCast (board : List Int) (n : Nat) : readCell board (n : Int) = board[n]? := by
  simp [readCell]

/-- Boards of 64 cells whose cells are empty at the same places have the same
number of empty cells. -/
theorem count_zero_congr {b b' : List Int} (hlen : b.length = 64) (hlen' : b'.length = 64)
    (h : ∀ q : Int, readCell b' q = some 0 ↔ readCell b q = some 0) :
    b'.count 0 = b.count 0 := by
  have hm : b'.map (fun c => decide (c = 0)) = b.map (fun c => decide (c = 0)) := by
    apply List.ext_getElem?
    intro n
    have hn := h (n : Int)
    rw [readCell_natCast, readCell_natCast] at hn
    simp only [List.getElem?_map]
    by_cases hlt : n < 64
    · have h1 : n < b.length := by omega
      have h2 : n < b'.length := by omega
      rw [List.getElem?_eq_getElem h1, List.getElem?_eq_getElem h2] at hn ⊢
      simp only [Option.some.injEq] at hn
      simp [hn]
    · have h1 : b.length ≤ n := by omega
      have h2 : b'.length ≤ n := by omega
      simp [List.getElem?_eq_none h1, List.getElem?_eq_none h2]
  have e : ∀ l : List Int, l.count 0 = (l.map (fun c => decide (c = 0))).count true := by
    intro l
    induction l with
    | nil => rfl
    | cons a t ih =>
      simp only [List.map_cons, List.count_cons, ih]
      by_cases ha : a = 0 <;> simp [ha]
  rw [e, e, hm]

theorem count_zero_set {b : List Int} (hlen : b.length = 64) {pos : Int} (h0 : 0 ≤ pos)
    (h1 : pos < 64) (he : readCell b pos = some 0) {t : Int} (ht : t ≠ 0) :
    (b.set pos.toNat t).count 0 + 1 = b.count 0 := by
  have hq : pos.toNat < b.length := by omega
  have hget : b[pos.toNat] = 0 := by
    simp only [readCell, h0, if_true, List.getElem?_eq_getElem hq, Option.some.injEq] at he
    exact he
  have hpos : 0 < b.count 0 := by
    apply List.count_pos_iff.2
    rw [← hget]; exact List.getElem_mem _
  rw [List.count_set _ _ _ _ hq, hget]
  simp [ht]
  omega


theorem capturedDir_cell {r : Reversi} {pos dr dc q : Int} (h : r.CapturedDir pos dr dc q) :
    readCell r.board q = some (-r.turn) := by
  obtain ⟨k, hk, i, hi1, hi2, rfl⟩ := h
  exact (hk.2.1 i hi1 hi2).2

theorem isValidPosition_true_empty {r : Reversi} {fuel : Nat} {pos : Int}
    (h : r.isValidPosition fuel pos = .ok true) : readCell r.board pos = some 0 := by
  unfold Reversi.isValidPosition at h
  cases hc : readCell r.board pos with
  | none => rw [hc] at h; simp at h
  | some c =>
    rw [hc] at h
    by_cases h0 : c = 0
    · rw [h0]
    · simp [h0] at h

/-- What the later results need of `setChip` at an empty cell of a valid state:
it returns a valid state with the same turn and one empty cell less, and no
chip disappears. -/
theorem setChip_ok {r : Reversi} (hv : r.Valid) {fuel : Nat} (hf : 8 ≤ fuel) {pos : Int}
    (he : readCell r.board pos = some 0) :
    ∃ r', r.setChip fuel pos = .ok r' ∧ r'.Valid ∧ r'.turn = r.turn ∧
      r'.empties + 1 = r.empties ∧
      (∀ q c, readCell r.board q = some c → c ≠ 0 →
        ∃ c', readCell r'.board q = some c' ∧ c' ≠ 0) := by
  obtain ⟨h0, h1⟩ := readCell_range hv.1 he
  have ht : r.turn = 1 ∨ r.turn = -1 := hv.2.2
  have ht0 : r.turn ≠ 0 := by omega
  obtain ⟨r', hr', hinv⟩ := setChip_flipInv hv hf h0 h1 he
  have hv' : r'.Valid := flipInv_valid hv hinv
  obtain ⟨hs, hlen, hq⟩ := hinv
  refine ⟨r', hr', hv', by rw [hs], ?_, ?_⟩
  · unfold Reversi.empties
    rw [← count_zero_set hv.1 h0 h1 he ht0]
    congr 1
    apply count_zero_congr (by rw [List.length_set]; exact hv.1) hlen
    intro q
    rw [readCell_set hv.1 h0 h1]
    by_cases hp : q = pos
    · rw [if_pos hp, (hq q).1 hp]
    · rw [if_neg hp]
      by_cases hc : ∃ d ∈ [((-1 : Int), (1 : Int)), (1, 1), (1, -1), (-1, -1), (0, 1), (0, 1),
          (1, 0), (0, -1), (-1, 0)], r.CapturedDir pos d.1 d.2 q
      · rw [(hq q).2.1 hc]
        obtain ⟨d, -, hd⟩ := hc
        rw [capturedDir_cell hd]
        simp only [Option.some.injEq]
        omega
      · rw [(hq q).2.2 hp hc]
  · intro q c hqc hc0
    by_cases hp : q = pos
    · exact ⟨r.turn, (hq q).1 hp, ht0⟩
    · by_cases hc : ∃ d ∈ [((-1 : Int), (1 : Int)), (1, 1), (1, -1), (-1, -1), (0, 1), (0, 1),
          (1, 0), (0, -1), (-1, 0)], r.CapturedDir pos d.1 d.2 q
      · exact ⟨r.turn, (hq q).2.1 hc, ht0⟩
      · exact ⟨c, by rw [(hq q).2.2 hp hc]; exact hqc, hc0⟩

theorem valid_switchTurns {r : Reversi} (hv : r.Valid) : r.switchTurns.Valid := by
  refine ⟨hv.1, hv.2.1, ?_⟩
  have := hv.2.2
  show r.turn * -1 = 1 ∨ r.turn * -1 = -1
  omega

theorem Res.bind_ok {α β : Type} (x : α) (f : α → Res β) : (Res.ok x).bind f = f x := rfl

theorem playMoves_count {fuel : Nat} (hf : 8 ≤ fuel) (moves : List Int) :
    ∀ r : Reversi, r.Valid → r.allLegal fuel moves = true →
      ∃ r', r.playMoves fuel moves = .ok r' ∧ r'.Valid ∧
        r'.empties + moves.length = r.empties := by
  induction moves with
  | nil => intro r hv _; exact ⟨r, rfl, hv, rfl⟩
  | cons pos rest ih =>
    intro r hv hl
    simp only [Reversi.allLegal, Bool.and_eq_true, decide_eq_true_eq] at hl
    obtain ⟨hl1, hl2⟩ := hl
    obtain ⟨r1, hr1, hv1, -, he1, -⟩ := setChip_ok hv hf (isValidPosition_true_empty hl1)
    rw [hr1] at hl2
    obtain ⟨r', hr', hv', he'⟩ := ih r1.switchTurns (valid_switchTurns hv1) hl2
    refine ⟨r', ?_, hv', ?_⟩
    · simp only [Reversi.playMoves, hr1, Res.bind_ok]; exact hr'
    · have : r1.switchTurns.empties = r1.empties := rfl
      simp only [List.length_cons]
      omega

/-- C3: on a valid state, `setChip` at a position that `isValidPosition`
accepts returns a state whose two scores add up to one more than before and in
which every cell that held a chip still holds one; and a run of `n` legal moves
(`setChip` then `switchTurns`) returns a state whose two scores add up to `n`
more than at the start. -/
theorem setChip_chip_conservation (r : Reversi) (fuel : Nat) (hv : r.Valid) (hf : 8 ≤ fuel) :
    (∀ pos, r.isValidPosition fuel pos = .ok true →
      ∃ r', r.setChip fuel pos = .ok r' ∧
        r'.getBlueScore + r'.getRedScore = r.getBlueScore + r.getRedScore + 1 ∧
        (∀ q c, readCell r.board q = some c → c ≠ 0 →
          ∃ c', readCell r'.board q = some c' ∧ c' ≠ 0)) ∧
    (∀ moves : List Int, r.allLegal fuel moves = true →
      ∃ r', r.playMoves fuel moves = .ok r' ∧
        r'.getBlueScore + r'.getRedScore = r.getBlueScore + r.getRedScore + moves.length) := by
  constructor
  · intro pos hl
    obtain ⟨r', hr', hv', -, he', hkeep⟩ := setChip_ok hv hf (isValidPosition_true_empty hl)
    refine ⟨r', hr', ?_, hkeep⟩
    have := valid_score_sum hv
    have := valid_score_sum hv'
    omega
  · intro moves hl
    obtain ⟨r', hr', hv', he'⟩ := playMoves_count hf moves r hv hl
    refine ⟨r', hr', ?_⟩
    have := valid_score_sum hv
    have := valid_score_sum hv'
    omega


theorem setChip_chip_conservation_witness :
    NewGame.Valid ∧ 8 ≤ 8 ∧ NewGame.isValidPosition 8 34 = .ok true ∧
      NewGame.allLegal 8 [34, 26] = true ∧
      (∃ r', NewGame.setChip 8 34 = .ok r' ∧
        r'.getBlueScore + r'.getRedScore = NewGame.getBlueScore + NewGame.getRedScore + 1 ∧
        (∀ q c, readCell NewGame.board q = some c → c ≠ 0 →
          ∃ c', readCell r'.board q = some c' ∧ c' ≠ 0)) ∧
      (∃ r', NewGame.playMoves 8 [34, 26] = .ok r' ∧
        r'.getBlueScore + r'.getRedScore =
          NewGame.getBlueScore + NewGame.getRedScore + ([34, 26] : List Int).length) := by
  have hv : NewGame.Valid := by decide
  have h34 : NewGame.isValidPosition 8 34 = .ok true := by decide
  have hall : NewGame.allLegal 8 [34, 26] = true := by decide
  exact ⟨hv, le_refl 8, h34, hall,
    (setChip_chip_conservation NewGame 8 hv (le_refl 8)).1 34 h34,
    (setChip_chip_conservation NewGame 8 hv (le_refl 8)).2 [34, 26] hall⟩

/-- C4: `setChip` at a cell that holds a chip returns, whatever the fuel, and
returns the state unchanged: same board, same turn. -/
theorem setChip_occupied (r : Reversi) (fuel : Nat) (pos c : Int)
    (h : readCell r.board pos = some c) (hc : c ≠ 0) : r.setChip fuel pos = .ok r := by
  unfold Reversi.setChip
  simp [h, hc]

theorem setChip_occupied_witness :
    readCell NewGame.board 27 = some (-1) ∧ (-1 : Int) ≠ 0 ∧
      NewGame.setChip 0 27 = .ok NewGame :=
  ⟨by decide, by decide, setChip_occupied NewGame 0 27 (-1) (by decide) (by decide)⟩

/-- With enough fuel the answer of `isValidPosition` does not depend on the
fuel. -/
theorem isValidPosition_fuel {r : Reversi} (hv : r.Valid) {fuel : Nat} (hf : 8 ≤ fuel)
    {pos : Int} (h0 : 0 ≤ pos) (h1 : pos < 64) :
    r.isValidPosition fuel pos = r.isValidPosition 8 pos := by
  obtain ⟨b, hb, hbl⟩ := isValidPosition_rays hv hf h0 h1
  obtain ⟨b', hb', hbl'⟩ := isValidPosition_rays hv (le_refl 8) h0 h1
  have : b = b' := by
    cases b <;> cases b' <;> simp_all
  rw [hb, hb', this]

theorem getValidPositionsLoop_spec {r : Reversi} (hv : r.Valid) {fuel : Nat} (hf : 8 ≤ fuel) :
    ∀ (l : List Nat) (acc : List Int), (∀ n ∈ l, n < 64) →
      r.getValidPositionsLoop fuel l acc = .ok (acc ++
        (l.filter (fun n : Nat => decide (r.isValidPosition fuel (n : Int) = .ok true))).map
          (fun n : Nat => (n : Int))) := by
  intro l
  induction l with
  | nil => intro acc _; simp [Reversi.getValidPositionsLoop]
  | cons n rest ih =>
    intro acc hl
    have hn : n < 64 := hl n (List.mem_cons_self _ _)
    have hrest : ∀ m ∈ rest, m < 64 := fun m hm => hl m (List.mem_cons_of_mem _ hm)
    obtain ⟨b, hb, -⟩ := isValidPosition_rays hv hf (by omega : (0 : Int) ≤ (n : Int))
      (by omega : (n : Int) < 64)
    unfold Reversi.getValidPositionsLoop
    cases b with
    | true => simp [hb, ih _ hrest]
    | false => simp [hb, ih _ hrest]

theorem getValidPositions_eq {r : Reversi} (hv : r.Valid) {fuel : Nat} (hf : 8 ≤ fuel) :
    r.getValidPositions fuel = .ok
      (((List.range 64).filter (fun n : Nat => decide (r.isValidPosition fuel (n : Int) = .ok true))).map
        (fun n : Nat => (n : Int))) := by
  unfold Reversi.getValidPositions
  rw [hv.1, getValidPositionsLoop_spec hv hf _ _ (fun n hn => List.mem_range.1 hn)]
  simp

theorem getValidPositions_fuel {r : Reversi} (hv : r.Valid) {fuel : Nat} (hf : 8 ≤ fuel) :
    r.getValidPositions fuel = r.getValidPositions 8 := by
  rw [getValidPositions_eq hv hf, getValidPositions_eq hv le_rfl]
  congr 2
  apply List.filter_congr
  intro n hn
  have := List.mem_range.1 hn
  rw [isValidPosition_fuel hv hf (by omega) (by omega)]

theorem validPositions_mem (r : Reversi) (fuel : Nat) (p : Int) :
    p ∈ ((List.range 64).filter
      (fun n : Nat => decide (r.isValidPosition fuel (n : Int) = .ok true))).map
        (fun n : Nat => (n : Int)) ↔
      0 ≤ p ∧ p < 64 ∧ r.isValidPosition fuel p = .ok true := by
  simp only [List.mem_map, List.mem_filter, List.mem_range, decide_eq_true_eq]
  constructor
  · rintro ⟨n, ⟨hn, hl⟩, rfl⟩
    exact ⟨by omega, by omega, hl⟩
  · rintro ⟨h0, h1, hl⟩
    refine ⟨p.toNat, ⟨by omega, ?_⟩, by omega⟩
    rw [Int.toNat_of_nonneg h0]; exact hl

/-- C5: on a valid state `getValidPositions` returns (with ray fuel 8 or more) a
strictly increasing list without duplicates that holds exactly the positions
0..63 that `isValidPosition` accepts; the list is empty exactly when
`isValidPosition` accepts no position. -/
theorem getValidPositions_spec (r : Reversi) (fuel : Nat) (hv : r.Valid) (hf : 8 ≤ fuel) :
    ∃ ps, r.getValidPositions fuel = .ok ps ∧ ps.Pairwise (· < ·) ∧ ps.Nodup ∧
      (∀ p : Int, p ∈ ps ↔ 0 ≤ p ∧ p < 64 ∧ r.isValidPosition fuel p = .ok true) ∧
      (ps = [] ↔ ∀ p : Int, 0 ≤ p → p < 64 → r.isValidPosition fuel p ≠ .ok true) := by
  have hsorted : (((List.range 64).filter
      (fun n : Nat => decide (r.isValidPosition fuel (n : Int) = .ok true))).map
        (fun n : Nat => (n : Int))).Pairwise (· < ·) := by
    rw [List.pairwise_map]
    apply List.Pairwise.filter
    exact List.Pairwise.imp (fun h => by exact_mod_cast h) (List.pairwise_lt_range 64)
  have hmem := validPositions_mem r fuel
  refine ⟨_, getValidPositions_eq hv hf, hsorted, ?_, hmem, ?_⟩
  · exact hsorted.imp (fun h => ne_of_lt h)
  · rw [List.eq_nil_iff_forall_not_mem]
    constructor
    · intro h p h0 h1 hl
      exact h p ((hmem p).2 ⟨h0, h1, hl⟩)
    · intro h p hp
      obtain ⟨h0, h1, hl⟩ := (hmem p).1 hp
      exact h p h0 h1 hl

theorem getValidPositions_spec_witness :
    NewGame.Valid ∧ 8 ≤ 8 ∧
      ∃ ps, NewGame.getValidPositions 8 = .ok ps ∧ ps.Pairwise (· < ·) ∧ ps.Nodup ∧
        (∀ p : Int, p ∈ ps ↔ 0 ≤ p ∧ p < 64 ∧ NewGame.isValidPosition 8 p = .ok true) ∧
        (ps = [] ↔ ∀ p : Int, 0 ≤ p → p < 64 → NewGame.isValidPosition 8 p ≠ .ok true) := by
  have hv : NewGame.Valid := by decide
  exact ⟨hv, le_refl 8, getValidPositions_spec NewGame 8 hv (le_refl 8)⟩

theorem reversi_NewGame_valid (color turn : String) : (reversi.NewGame color turn).Valid := by
  unfold reversi.NewGame
  by_cases hc : color = "b" ∨ color = "blue" <;> by_cases ht : turn = "1" <;>
    simp only [hc, ht, if_true, if_false] <;> decide

/-- C6, counterexample: in `src/reversi` the player may take blue and play
first; the first mover is then blue, the board is the standard opening, and the
legal positions are 19, 26, 37, 44, not 20, 29, 34, 43. -/
theorem opening_blue_first_counterexample :
    (reversi.NewGame "b" "1").turn = blue ∧
      (reversi.NewGame "b" "1").board = NewGame.board ∧
      (reversi.NewGame "b" "1").getValidPositions 8 = .ok [19, 26, 37, 44] ∧
      (reversi.NewGame "b" "1").getValidPositions 8 ≠ .ok [20, 29, 34, 43] := by
  refine ⟨by decide, by decide, by decide, by decide⟩

/-- C6, amended: on the standard opening board the first mover's legal
positions are 20, 29, 34, 43 when red moves first (always so in the simulation)
and 19, 26, 37, 44 when blue moves first. -/
theorem opening_valid_positions (fuel : Nat) (hf : 8 ≤ fuel) :
    NewGame.turn = red ∧ NewGame.getValidPositions fuel = .ok [20, 29, 34, 43] ∧
    ∀ color turn : String,
      (reversi.NewGame color turn).board = NewGame.board ∧
      ((reversi.NewGame color turn).turn = red →
        (reversi.NewGame color turn).getValidPositions fuel = .ok [20, 29, 34, 43]) ∧
      ((reversi.NewGame color turn).turn = blue →
        (reversi.NewGame color turn).getValidPositions fuel = .ok [19, 26, 37, 44]) := by
  refine ⟨rfl, ?_, fun color turn => ⟨rfl, ?_, ?_⟩⟩
  · rw [getValidPositions_fuel (by decide) hf]; decide
  · rw [getValidPositions_fuel (reversi_NewGame_valid color turn) hf]
    unfold reversi.NewGame
    by_cases hc : color = "b" ∨ color = "blue" <;> by_cases ht : turn = "1" <;>
      simp only [hc, ht, if_true, if_false] <;> decide
  · rw [getValidPositions_fuel (reversi_NewGame_valid color turn) hf]
    unfold reversi.NewGame
    by_cases hc : color = "b" ∨ color = "blue" <;> by_cases ht : turn = "1" <;>
      simp only [hc, ht, if_true, if_false] <;> decide

theorem opening_valid_positions_witness :
    8 ≤ 8 ∧ NewGame.getValidPositions 8 = .ok [20, 29, 34, 43] ∧
      (reversi.NewGame "r" "1").turn = red ∧
      (reversi.NewGame "r" "1").getValidPositions 8 = .ok [20, 29, 34, 43] ∧
      (reversi.NewGame "r" "2").turn = blue ∧
      (reversi.NewGame "r" "2").getValidPositions 8 = .ok [19, 26, 37, 44] := by
  have hr : (reversi.NewGame "r" "1").turn = red := by decide
  have hb : (reversi.NewGame "r" "2").turn = blue := by decide
  exact ⟨le_refl 8, (opening_valid_positions 8 (le_refl 8)).2.1, hr,
    ((opening_valid_positions 8 (le_refl 8)).2.2 "r" "1").2.1 hr, hb,
    ((opening_valid_positions 8 (le_refl 8)).2.2 "r" "2").2.2 hb⟩

/-- Boards that read the same at every index are the same board. -/
theorem board_ext {b b' : List Int} (h : ∀ q : Int, readCell b q = readCell b' q) : b = b' := by
  apply List.ext_getElem?
  intro n
  have := h (n : Int)
  rwa [readCell_natCast, readCell_natCast] at this

/-- With enough fuel the result of `setChip` does not depend on the fuel. -/
theorem setChip_fuel {r : Reversi} (hv : r.Valid) {fuel : Nat} (hf : 8 ≤ fuel) {pos : Int}
    (he : readCell r.board pos = some 0) : r.setChip fuel pos = r.setChip 8 pos := by
  obtain ⟨h0, h1⟩ := readCell_range hv.1 he
  obtain ⟨r1, hr1, hs1, -, hq1⟩ := setChip_flipInv hv hf h0 h1 he
  obtain ⟨r2, hr2, hs2, -, hq2⟩ := setChip_flipInv hv (le_refl 8) h0 h1 he
  have hb : r1.board = r2.board := by
    apply board_ext
    intro q
    by_cases hq : q = pos
    · rw [(hq1 q).1 hq, (hq2 q).1 hq]
    · by_cases hc : ∃ d ∈ [((-1 : Int), (1 : Int)), (1, 1), (1, -1), (-1, -1), (0, 1), (0, 1),
          (1, 0), (0, -1), (-1, 0)], r.CapturedDir pos d.1 d.2 q
      · rw [(hq1 q).2.1 hc, (hq2 q).2.1 hc]
      · rw [(hq1 q).2.2 hq hc, (hq2 q).2.2 hq hc]
  rw [hr1, hr2, hs1, hs2, hb]

/-- C7: on the opening board with red to move, `setChip 34` returns the opening
state with cell 34 (empty before) and cell 35 (blue before) set to red and
nothing else changed; `setChip 20` returns it with cell 20 (empty before) and
cell 28 (blue before) set to red and nothing else changed. -/
theorem opening_setChip (fuel : Nat) (hf : 8 ≤ fuel) :
    NewGame.turn = red ∧
    readCell NewGame.board 34 = some 0 ∧ readCell NewGame.board 35 = some blue ∧
    NewGame.setChip fuel 34 =
      .ok { NewGame with board := (NewGame.board.set 34 red).set 35 red } ∧
    readCell NewGame.board 20 = some 0 ∧ readCell NewGame.board 28 = some blue ∧
    NewGame.setChip fuel 20 =
      .ok { NewGame with board := (NewGame.board.set 20 red).set 28 red } := by
  have hv : NewGame.Valid := by decide
  refine ⟨rfl, by decide, by decide, ?_, by decide, by decide, ?_⟩
  · rw [setChip_fuel hv hf (by decide)]; decide
  · rw [setChip_fuel hv hf (by decide)]; decide

theorem opening_setChip_witness :
    8 ≤ 8 ∧
    NewGame.turn = red ∧
    readCell NewGame.board 34 = some 0 ∧ readCell NewGame.board 35 = some blue ∧
    NewGame.setChip 8 34 =
      .ok { NewGame with board := (NewGame.board.set 34 red).set 35 red } ∧
    readCell NewGame.board 20 = some 0 ∧ readCell NewGame.board 28 = some blue ∧
    NewGame.setChip 8 20 =
      .ok { NewGame with board := (NewGame.board.set 20 red).set 28 red } :=
  ⟨le_refl 8, opening_setChip 8 (le_refl 8)⟩

theorem determineWinner_cases (b s : Int) :
    (b > s → determineWinner b s = 1) ∧ (s > b → determineWinner b s = -1) ∧
      (b = s → determineWinner b s = 0) := by
  unfold determineWinner blue red tie
  refine ⟨fun h => by simp [h], fun h => ?_, fun h => by simp [h]⟩
  have : ¬ b > s := by omega
  simp [this, h]

theorem determineWinner_range (b s : Int) :
    determineWinner b s = -1 ∨ determineWinner b s = 0 ∨ determineWinner b s = 1 := by
  unfold determineWinner blue red tie
  split
  · right; right; rfl
  · split
    · left; rfl
    · right; left; rfl

/-- C8: `checkWin` returns 2 exactly when the two scores do not add up to 64 and
`forceWin` is false; otherwise it returns 1 when blue has more chips, -1 when
red has more, 0 when they have the same number.  A board of 64 cells that all
hold a chip never gives 2. -/
theorem checkWin_spec (r : Reversi) (forceWin : Bool) :
    (r.checkWin forceWin = 2 ↔ (r.getBlueScore + r.getRedScore ≠ 64 ∧ forceWin = false)) ∧
    (¬ (r.getBlueScore + r.getRedScore ≠ 64 ∧ forceWin = false) →
      (r.getBlueScore > r.getRedScore → r.checkWin forceWin = 1) ∧
      (r.getRedScore > r.getBlueScore → r.checkWin forceWin = -1) ∧
      (r.getBlueScore = r.getRedScore → r.checkWin forceWin = 0)) ∧
    (r.board.length = 64 → (∀ c ∈ r.board, c = 1 ∨ c = -1) → r.checkWin forceWin ≠ 2) := by
  have hdw := determineWinner_range r.getBlueScore r.getRedScore
  have hkey : r.checkWin forceWin = 2 ↔
      (r.getBlueScore + r.getRedScore ≠ 64 ∧ forceWin = false) := by
    unfold Reversi.checkWin maxChips
    by_cases h : r.getBlueScore + r.getRedScore = 64 ∨ forceWin = true
    · simp only [h, if_true]
      constructor
      · intro h2; omega
      · rintro ⟨h1, h2⟩
        rcases h with h | h
        · exact absurd h h1
        · rw [h2] at h; exact absurd h (by decide)
    · simp only [h, if_false, true_iff]
      push_neg at h
      exact ⟨h.1, by simpa using h.2⟩
  refine ⟨hkey, fun h => ?_, fun hlen hfull => ?_⟩
  · have hcw : r.checkWin forceWin = determineWinner r.getBlueScore r.getRedScore := by
      unfold Reversi.checkWin maxChips
      have : r.getBlueScore + r.getRedScore = 64 ∨ forceWin = true := by
        by_contra hc
        push_neg at hc
        exact h ⟨hc.1, by simpa using hc.2⟩
      simp only [this, if_true]
    rw [hcw]
    exact determineWinner_cases _ _
  · intro h2
    have hne := (hkey.1 h2).1
    apply hne
    have h3 := count_three r.board (fun c hc => by
      rcases hfull c hc with h | h
      · right; right; exact h
      · left; exact h)
    have h0 : r.board.count 0 = 0 := by
      apply List.count_eq_zero.2
      intro hm
      rcases hfull 0 hm with h | h <;> omega
    unfold Reversi.getBlueScore Reversi.getRedScore blue red
    rw [getScore_eq_count, getScore_eq_count]
    omega

theorem checkWin_spec_witness :
    (¬ ((⟨List.replicate 64 1, 1, false⟩ : Reversi).getBlueScore +
        (⟨List.replicate 64 1, 1, false⟩ : Reversi).getRedScore ≠ 64 ∧ false = false)) ∧
    (⟨List.replicate 64 1, 1, false⟩ : Reversi).getBlueScore >
      (⟨List.replicate 64 1, 1, false⟩ : Reversi).getRedScore ∧
    (⟨List.replicate 64 1, 1, false⟩ : Reversi).checkWin false = 1 ∧
    (⟨List.replicate 64 1, 1, false⟩ : Reversi).checkWin false ≠ 2 := by
  have h1 : ¬ ((⟨List.replicate 64 1, 1, false⟩ : Reversi).getBlueScore +
        (⟨List.replicate 64 1, 1, false⟩ : Reversi).getRedScore ≠ 64 ∧ false = false) := by
    decide
  have h2 : (⟨List.replicate 64 1, 1, false⟩ : Reversi).getBlueScore >
      (⟨List.replicate 64 1, 1, false⟩ : Reversi).getRedScore := by decide
  exact ⟨h1, h2, ((checkWin_spec ⟨List.replicate 64 1, 1, false⟩ false).2.1 h1).1 h2,
    (checkWin_spec ⟨List.replicate 64 1, 1, false⟩ false).2.2 (by decide) (by decide)⟩


theorem getRandPos_mem {positions : List Int} (hne : positions ≠ []) (draw : Nat) :
    ∃ p, getRandPos positions draw = .ok p ∧ p ∈ positions := by
  have hlen : 0 < positions.length := List.length_pos.2 hne
  have hpos : ¬ ((positions.length : Int) - 0 ≤ 0) := by omega
  have h0 : 0 ≤ (draw : Int) % ((positions.length : Int) - 0) + 0 := by
    have := Int.emod_nonneg (draw : Int) (by omega : ((positions.length : Int) - 0) ≠ 0)
    omega
  have h1 : ((draw : Int) % ((positions.length : Int) - 0) + 0).toNat < positions.length := by
    have := Int.emod_lt_of_pos (draw : Int) (by omega : (0 : Int) < (positions.length : Int) - 0)
    omega
  refine ⟨positions[((draw : Int) % ((positions.length : Int) - 0) + 0).toNat], ?_,
    List.getElem_mem _⟩
  unfold getRandPos getRandInt
  simp only [hpos, if_false, Res.bind_ok, readCell, h0, if_true, List.getElem?_eq_getElem h1]

theorem getHeuristicPos_mem {positions : List Int} (hne : positions ≠ []) (draw : Nat) :
    ∃ p, getHeuristicPos positions draw = .ok p ∧ p ∈ positions := by
  unfold getHeuristicPos
  simp only
  split
  · rename_i h
    obtain ⟨p, hp, hm⟩ := getRandPos_mem h draw
    exact ⟨p, hp, (List.mem_filter.1 hm).1⟩
  · split
    · rename_i h
      obtain ⟨p, hp, hm⟩ := getRandPos_mem h draw
      exact ⟨p, hp, (List.mem_filter.1 hm).1⟩
    · split
      · rename_i h
        obtain ⟨p, hp, hm⟩ := getRandPos_mem h draw
        exact ⟨p, hp, (List.mem_filter.1 hm).1⟩
      · exact getRandPos_mem hne draw

theorem switchTurns_switchTurns (r : Reversi) : r.switchTurns.switchTurns = r := by
  cases r
  simp [Reversi.switchTurns]

theorem checkWin_true (r : Reversi) :
    r.checkWin true = determineWinner r.getBlueScore r.getRedScore := by
  simp [Reversi.checkWin]

theorem checkWin_false_lt {r : Reversi} (h : r.checkWin false < 2) :
    r.getBlueScore + r.getRedScore = 64 ∧
      r.checkWin false = determineWinner r.getBlueScore r.getRedScore := by
  unfold Reversi.checkWin maxChips at h ⊢
  by_cases hs : r.getBlueScore + r.getRedScore = 64
  · simp [hs]
  · simp [hs] at h

theorem checkWin_false_ge {r : Reversi} (h : ¬ r.checkWin false < 2) :
    r.getBlueScore + r.getRedScore ≠ 64 := by
  intro hs
  apply h
  have := determineWinner_range r.getBlueScore r.getRedScore
  unfold Reversi.checkWin maxChips
  simp only [hs, true_or, if_true]
  omega

/-- The rollout from a valid state: with recursion fuel `2 * E + 1`, where `E`
is the number of empty cells (or `2 * E` when the side to move has a legal
position), `doPlayOut` returns; it calls `setChip` once for every cell that got
filled; it stops on a valid state that is full or on which neither color can
move; and the value returned is the winner by the chip counts of that state. -/
theorem doPlayOut_spec {rayFuel : Nat} (hrf : 8 ≤ rayFuel) (useHeuristics : Bool) :
    ∀ (fuel : Nat) (r : Reversi) (draws : Nat → Nat), r.Valid →
      1 ≤ fuel → 2 * r.empties ≤ fuel →
      (2 * r.empties + 1 ≤ fuel ∨ ∃ ps, r.getValidPositions rayFuel = .ok ps ∧ ps ≠ []) →
      ∃ out, doPlayOut rayFuel useHeuristics fuel r draws = .ok out ∧ out.final.Valid ∧
        out.setChipCalls + out.final.empties = r.empties ∧
        (out.final.empties = 0 ∨ out.final.NoMoves rayFuel) ∧
        out.result = determineWinner out.final.getBlueScore out.final.getRedScore := by
  intro fuel
  induction fuel with
  | zero => intro r draws _ h1; omega
  | succ f ih =>
    intro r draws hv _ h2E hcond
    have hsum := valid_score_sum hv
    unfold doPlayOut
    simp only
    by_cases hw : r.checkWin false < 2
    · obtain ⟨h64, hres⟩ := checkWin_false_lt hw
      refine ⟨_, by rw [if_pos hw], hv, by simp, Or.inl ?_, hres⟩
      show r.empties = 0
      omega
    · rw [if_neg hw]
      have hE : 1 ≤ r.empties := by
        have := checkWin_false_ge hw
        omega
      have hps := getValidPositions_eq hv hrf
      have hmem := validPositions_mem r rayFuel
      generalize ((List.range 64).filter
        (fun n : Nat => decide (r.isValidPosition rayFuel (n : Int) = .ok true))).map
          (fun n : Nat => (n : Int)) = ps at hps hmem
      rw [hps, Res.bind_ok]
      by_cases hnil : ps = []
      · -- the side to move has to pass
        rw [if_pos hnil]
        have hfuel : 2 * r.empties + 1 ≤ f + 1 := by
          rcases hcond with h | ⟨ps', hps', hne⟩
          · exact h
          · rw [hps] at hps'
            simp only [Res.ok.injEq] at hps'
            exact absurd (hps'.symm ▸ hnil) hne
        have hv2 := valid_switchTurns hv
        have he2 : r.switchTurns.empties = r.empties := rfl
        have hps2 := getValidPositions_eq hv2 hrf
        generalize ((List.range 64).filter
          (fun n : Nat => decide (r.switchTurns.isValidPosition rayFuel (n : Int) = .ok true))).map
            (fun n : Nat => (n : Int)) = ps2 at hps2
        simp only [hps2, Res.bind_ok]
        by_cases hnil2 : ps2 = []
        · rw [if_pos hnil2]
          refine ⟨_, rfl, hv2, by simp [he2], Or.inr ⟨?_, ?_⟩, checkWin_true _⟩
          · show r.switchTurns.getValidPositions rayFuel = .ok []
            rw [hps2, hnil2]
          · show r.switchTurns.switchTurns.getValidPositions rayFuel = .ok []
            rw [switchTurns_switchTurns, hps, hnil]
        · rw [if_neg hnil2]
          obtain ⟨out, hout, hfv, hcalls, hterm, hres⟩ := ih r.switchTurns draws hv2 (by omega)
            (by omega) (Or.inr ⟨ps2, hps2, hnil2⟩)
          exact ⟨out, hout, hfv, by omega, hterm, hres⟩
      · -- a move is made
        rw [if_neg hnil]
        have hpick : ∃ p, (if useHeuristics = true then getHeuristicPos ps (draws 0)
            else getRandPos ps (draws 0)) = .ok p ∧ p ∈ ps := by
          split
          · exact getHeuristicPos_mem hnil _
          · exact getRandPos_mem hnil _
        obtain ⟨p, hp, hpm⟩ := hpick
        have hlegal := ((hmem p).1 hpm).2.2
        obtain ⟨r1, hr1, hv1, -, he1, -⟩ := setChip_ok hv hrf (isValidPosition_true_empty hlegal)
        have hv2 := valid_switchTurns hv1
        have he2 : r1.switchTurns.empties = r1.empties := rfl
        obtain ⟨out, hout, hfv, hcalls, hterm, hres⟩ := ih r1.switchTurns
          (fun n => draws (n + 1)) hv2 (by omega) (by omega) (Or.inl (by omega))
        refine ⟨{ out with setChipCalls := out.setChipCalls + 1 }, ?_, hfv, ?_, hterm, hres⟩
        · simp only [hp, hr1, hout, Res.bind_ok]
        · show out.setChipCalls + 1 + out.final.empties = r.empties
          omega


/-- When neither color has a legal position, `doPlayOut` returns at once, without
calling `setChip`, the winner by the chip counts of the board it was given. -/
theorem doPlayOut_noMoves {rayFuel : Nat} (useHeuristics : Bool) (fuel : Nat) (r : Reversi)
    (draws : Nat → Nat) (hn : r.NoMoves rayFuel) :
    ∃ out, doPlayOut rayFuel useHeuristics (fuel + 1) r draws = .ok out ∧
      out.setChipCalls = 0 ∧ out.final.board = r.board ∧
      out.result = determineWinner r.getBlueScore r.getRedScore := by
  unfold doPlayOut
  simp only
  by_cases hw : r.checkWin false < 2
  · exact ⟨_, by rw [if_pos hw], rfl, rfl, (checkWin_false_lt hw).2⟩
  · refine ⟨{ result := r.switchTurns.checkWin true, final := r.switchTurns, setChipCalls := 0 },
      ?_, rfl, rfl, checkWin_true _⟩
    rw [if_neg hw, hn.1, Res.bind_ok, if_pos rfl]
    simp only [hn.2, Res.bind_ok, if_true]

/-- C9: from a valid state, with either policy and any random draws,
`doPlayOut` returns once its recursion may go `2 * E + 1` deep, where `E` is the
number of empty cells at the start (and the ray loops have fuel 8); it calls
`setChip` at most `E` times and returns -1, 0 or 1, never 2.  When neither
color has a legal position it returns without any `setChip`, the winner by the
chip counts of the board it was given, full or not. -/
theorem doPlayOut_terminates (r : Reversi) (rayFuel fuel : Nat) (useHeuristics : Bool)
    (draws : Nat → Nat) (hv : r.Valid) (hrf : 8 ≤ rayFuel) (hf : 2 * r.empties + 1 ≤ fuel) :
    ∃ out, doPlayOut rayFuel useHeuristics fuel r draws = .ok out ∧
      out.setChipCalls ≤ r.empties ∧
      (out.result = -1 ∨ out.result = 0 ∨ out.result = 1) ∧ out.result ≠ 2 ∧
      (r.NoMoves rayFuel →
        out.setChipCalls = 0 ∧ out.final.board = r.board ∧
        out.result = determineWinner r.getBlueScore r.getRedScore) := by
  obtain ⟨out, hout, -, hcalls, -, hres⟩ := doPlayOut_spec hrf useHeuristics fuel r draws hv
    (by omega) (by omega) (Or.inl hf)
  have hr := determineWinner_range out.final.getBlueScore out.final.getRedScore
  rw [← hres] at hr
  refine ⟨out, hout, by omega, hr, by omega, fun hn => ?_⟩
  obtain ⟨f, rfl⟩ : ∃ f, fuel = f + 1 := ⟨fuel - 1, by omega⟩
  obtain ⟨out', hout', h1, h2, h3⟩ := doPlayOut_noMoves useHeuristics f r draws hn
  rw [hout] at hout'
  simp only [Res.ok.injEq] at hout'
  subst hout'
  exact ⟨h1, h2, h3⟩

theorem doPlayOut_terminates_witness :
    (⟨(List.replicate 64 0).set 0 (-1), 1, false⟩ : Reversi).Valid ∧ 8 ≤ 8 ∧
      2 * (⟨(List.replicate 64 0).set 0 (-1), 1, false⟩ : Reversi).empties + 1 ≤ 127 ∧
      (⟨(List.replicate 64 0).set 0 (-1), 1, false⟩ : Reversi).NoMoves 8 ∧
      ∃ out, doPlayOut 8 true 127 ⟨(List.replicate 64 0).set 0 (-1), 1, false⟩ (fun _ => 0)
          = .ok out ∧
        out.setChipCalls ≤ (⟨(List.replicate 64 0).set 0 (-1), 1, false⟩ : Reversi).empties ∧
        (out.result = -1 ∨ out.result = 0 ∨ out.result = 1) ∧ out.result ≠ 2 ∧
        ((⟨(List.replicate 64 0).set 0 (-1), 1, false⟩ : Reversi).NoMoves 8 →
          out.setChipCalls = 0 ∧
          out.final.board = (⟨(List.replicate 64 0).set 0 (-1), 1, false⟩ : Reversi).board ∧
          out.result = determineWinner
            (⟨(List.replicate 64 0).set 0 (-1), 1, false⟩ : Reversi).getBlueScore
            (⟨(List.replicate 64 0).set 0 (-1), 1, false⟩ : Reversi).getRedScore) := by
  have hv : (⟨(List.replicate 64 0).set 0 (-1), 1, false⟩ : Reversi).Valid := by decide
  have hf : 2 * (⟨(List.replicate 64 0).set 0 (-1), 1, false⟩ : Reversi).empties + 1 ≤ 127 := by
    decide
  have hn : (⟨(List.replicate 64 0).set 0 (-1), 1, false⟩ : Reversi).NoMoves 8 :=
    ⟨by decide, by decide⟩
  exact ⟨hv, le_refl 8, hf, hn,
    doPlayOut_terminates ⟨(List.replicate 64 0).set 0 (-1), 1, false⟩ 8 127 true (fun _ => 0)
      hv (le_refl 8) hf⟩

/-- C10: from a valid state, with either policy and any random draws, the state
on which `doPlayOut` stops is valid and terminal, that is, it has no empty cell
or neither color has a legal position on it, and the value returned is
`determineWinner` of the blue and red chip counts of that state. -/
theorem doPlayOut_terminal (r : Reversi) (rayFuel fuel : Nat) (useHeuristics : Bool)
    (draws : Nat → Nat) (hv : r.Valid) (hrf : 8 ≤ rayFuel) (hf : 2 * r.empties + 1 ≤ fuel) :
    ∃ out, doPlayOut rayFuel useHeuristics fuel r draws = .ok out ∧ out.final.Valid ∧
      (out.final.empties = 0 ∨ out.final.NoMoves rayFuel) ∧
      out.result = determineWinner out.final.getBlueScore out.final.getRedScore := by
  obtain ⟨out, hout, hfv, -, hterm, hres⟩ := doPlayOut_spec hrf useHeuristics fuel r draws hv
    (by omega) (by omega) (Or.inl hf)
  exact ⟨out, hout, hfv, hterm, hres⟩

theorem doPlayOut_terminal_witness :
    NewGame.Valid ∧ 8 ≤ 8 ∧ 2 * NewGame.empties + 1 ≤ 121 ∧
      ∃ out, doPlayOut 8 false 121 NewGame (fun n => 7 * n + 3) = .ok out ∧ out.final.Valid ∧
        (out.final.empties = 0 ∨ out.final.NoMoves 8) ∧
        out.result = determineWinner out.final.getBlueScore out.final.getRedScore := by
  have hv : NewGame.Valid := by decide
  have hf : 2 * NewGame.empties + 1 ≤ 121 := by decide
  exact ⟨hv, le_refl 8, hf,
    doPlayOut_terminal NewGame 8 121 false (fun n => 7 * n + 3) hv (le_refl 8) hf⟩


/-- C11: when the list of positions holds a corner index, `getHeuristicPos`
returns, for every random draw, an element of the list that is a corner
index. -/
theorem getHeuristicPos_corner (positions : List Int) (draw : Nat) (c : Int)
    (hc : c ∈ positions) (hcorner : c ∈ corners) :
    ∃ p, getHeuristicPos positions draw = .ok p ∧ p ∈ positions ∧ p ∈ corners := by
  have hne : positions.filter (fun pos => decide (pos ∈ corners)) ≠ [] := by
    have hm : c ∈ positions.filter (fun pos => decide (pos ∈ corners)) := by
      rw [List.mem_filter]
      exact ⟨hc, by simpa using hcorner⟩
    exact List.ne_nil_of_mem hm
  obtain ⟨p, hp, hm⟩ := getRandPos_mem hne draw
  rw [List.mem_filter] at hm
  refine ⟨p, ?_, hm.1, by simpa using hm.2⟩
  unfold getHeuristicPos
  simp only [hne, ne_eq, not_false_eq_true, if_true]
  exact hp

theorem getHeuristicPos_corner_witness :
    (56 : Int) ∈ [20, 9, 56, 1, 63] ∧ (56 : Int) ∈ corners ∧
      ∃ p, getHeuristicPos [20, 9, 56, 1, 63] 5 = .ok p ∧ p ∈ [20, 9, 56, 1, 63] ∧
        p ∈ corners :=
  ⟨by decide, by decide, getHeuristicPos_corner [20, 9, 56, 1, 63] 5 56 (by decide) (by decide)⟩

theorem deepCopy_eq {r : Reversi} (hlen : r.board.length = 64) : r.deepCopy = r := by
  cases r with
  | mk board turn e =>
    simp only [Reversi.deepCopy, maxChips, Reversi.mk.injEq, and_true]
    simp only at hlen
    have h1 : (64 : Int).toNat = 64 := rfl
    rw [h1, hlen, List.take_of_length_le (by omega)]
    simp

/-- `setChip` on a valid state at any position of the board returns a valid state
with the same turn and no more empty cells than before. -/
theorem setChip_valid {r : Reversi} (hv : r.Valid) {fuel : Nat} (hf : 8 ≤ fuel) {pos : Int}
    (h0 : 0 ≤ pos) (h1 : pos < 64) :
    ∃ r', r.setChip fuel pos = .ok r' ∧ r'.Valid ∧ r'.turn = r.turn ∧
      r'.empties ≤ r.empties := by
  obtain ⟨c, hc, -⟩ := valid_cell hv h0 h1
  by_cases hz : c = 0
  · subst hz
    obtain ⟨r', hr', hv', ht', he', -⟩ := setChip_ok hv hf hc
    exact ⟨r', hr', hv', ht', by omega⟩
  · refine ⟨r, ?_, hv, rfl, le_rfl⟩
    unfold Reversi.setChip
    simp [hc, hz]

/-- C17: the state built by `NewGame` is valid (64 cells, each -1, 0 or 1, turn 1
or -1); on a valid state the three scores add up to 64; and `setChip` at any
position 0..63, `switchTurns` and `deepCopy` return a valid state whose number
of chips (blue plus red score) is not smaller than before. -/
theorem valid_invariant (r : Reversi) (fuel : Nat) (pos : Int) (hv : r.Valid) (hf : 8 ≤ fuel)
    (h0 : 0 ≤ pos) (h1 : pos < 64) :
    NewGame.Valid ∧
    r.getScore 1 + r.getScore (-1) + r.getScore 0 = 64 ∧
    (∃ r', r.setChip fuel pos = .ok r' ∧ r'.Valid ∧
      r.getBlueScore + r.getRedScore ≤ r'.getBlueScore + r'.getRedScore) ∧
    (r.switchTurns.Valid ∧
      r.getBlueScore + r.getRedScore ≤ r.switchTurns.getBlueScore + r.switchTurns.getRedScore) ∧
    (r.deepCopy.Valid ∧
      r.getBlueScore + r.getRedScore ≤ r.deepCopy.getBlueScore + r.deepCopy.getRedScore) := by
  have hsum := valid_score_sum hv
  refine ⟨by decide, ?_, ?_, ⟨valid_switchTurns hv, le_rfl⟩, ?_⟩
  · have h3 : r.getScore 0 = (r.empties : Int) := getScore_eq_count r 0
    rw [h3]
    exact hsum
  · obtain ⟨r', hr', hv', -, he'⟩ := setChip_valid hv hf h0 h1
    refine ⟨r', hr', hv', ?_⟩
    have := valid_score_sum hv'
    omega
  · rw [deepCopy_eq hv.1]
    exact ⟨hv, le_rfl⟩

theorem valid_invariant_witness :
    NewGame.Valid ∧ 8 ≤ 8 ∧ (0 : Int) ≤ 34 ∧ (34 : Int) < 64 ∧
    NewGame.getScore 1 + NewGame.getScore (-1) + NewGame.getScore 0 = 64 ∧
    (∃ r', NewGame.setChip 8 34 = .ok r' ∧ r'.Valid ∧
      NewGame.getBlueScore + NewGame.getRedScore ≤ r'.getBlueScore + r'.getRedScore) ∧
    (NewGame.switchTurns.Valid ∧
      NewGame.getBlueScore + NewGame.getRedScore ≤
        NewGame.switchTurns.getBlueScore + NewGame.switchTurns.getRedScore) ∧
    (NewGame.deepCopy.Valid ∧
      NewGame.getBlueScore + NewGame.getRedScore ≤
        NewGame.deepCopy.getBlueScore + NewGame.deepCopy.getRedScore) := by
  have hv : NewGame.Valid := by decide
  exact ⟨hv, le_refl 8, by decide, by decide,
    (valid_invariant NewGame 8 34 hv (le_refl 8) (by decide) (by decide)).2⟩

theorem rayTable_limOK {p : Int × (Int → Int → Bool)} (hp : p ∈ rayTable) :
    ∃ dr dc, (dr, dc) ∈ compass ∧ LimOK p.1 p.2 dr dc := by
  simp only [rayTable, List.mem_cons, List.mem_singleton, List.not_mem_nil, or_false] at hp
  rcases hp with h | h | h | h | h | h | h | h <;> subst h
  · exact ⟨_, _, by decide, limOK_up⟩
  · exact ⟨_, _, by decide, limOK_left⟩
  · exact ⟨_, _, by decide, limOK_below⟩
  · exact ⟨_, _, by decide, limOK_right⟩
  · exact ⟨_, _, by decide, limOK_upLeft⟩
  · exact ⟨_, _, by decide, limOK_belowLeft⟩
  · exact ⟨_, _, by decide, limOK_belowRight⟩
  · exact ⟨_, _, by decide, limOK_upRight⟩

theorem readCell_none_iff {board : List Int} (hlen : board.length = 64) (i : Int) :
    readCell board i = none ↔ ¬ (0 ≤ i ∧ i < 64) := by
  constructor
  · rintro h ⟨h0, h1⟩
    obtain ⟨c, hc, -⟩ := readCell_of_range hlen h0 h1
    rw [hc] at h
    exact absurd h (by simp)
  · intro h
    cases hc : readCell board i with
    | none => rfl
    | some c => exact absurd (readCell_range hlen hc) h

/-- While the boundary predicate lets the walk go on, the walk is on the grid. -/
theorem walk_onGrid {pos dr dc : Int} {lim : Int → Int → Bool} (hd : (dr, dc) ∈ compass)
    (hl : LimOK (8 * dr + dc) lim dr dc) (h0 : 0 ≤ pos) (h1 : pos < 64) :
    ∀ n : Nat, (∀ i : Nat, i < n → lim (pos + i * (8 * dr + dc)) (8 * dr + dc) = true) →
      onGrid (pos / 8 + n * dr) (pos % 8 + n * dc) := by
  intro n
  induction n with
  | zero => intro _; exact onGrid_zero h0 h1 dr dc
  | succ n ih =>
    intro h
    have hg := ih (fun i hi => h i (by omega))
    exact (lim_iff_next hd hl h0 h1 n hg).1 (h n (by omega))

/-- Along each ray the boundary predicate stops the walk after at most 7 steps,
and every cell stepped on before that has its index in 0..63. -/
theorem walk_stops {pos dr dc : Int} {lim : Int → Int → Bool} (hd : (dr, dc) ∈ compass)
    (hl : LimOK (8 * dr + dc) lim dr dc) (h0 : 0 ≤ pos) (h1 : pos < 64) :
    ∃ j : Nat, j ≤ 7 ∧ lim (pos + j * (8 * dr + dc)) (8 * dr + dc) = false ∧
      (∀ i : Nat, i < j → lim (pos + i * (8 * dr + dc)) (8 * dr + dc) = true) ∧
      ∀ i : Nat, i ≤ j → 0 ≤ pos + i * (8 * dr + dc) ∧ pos + i * (8 * dr + dc) < 64 := by
  have hex : ∃ j : Nat, lim (pos + j * (8 * dr + dc)) (8 * dr + dc) = false := by
    by_contra hno
    push_neg at hno
    have hg := walk_onGrid hd hl h0 h1 8 (fun i _ => by simpa using hno i)
    have := (ray_geometry hd h0 h1 8 hg).1
    omega
  have hmin : ∀ i : Nat, i < Nat.find hex →
      lim (pos + i * (8 * dr + dc)) (8 * dr + dc) = true := by
    intro i hi
    have := Nat.find_min hex hi
    simpa using this
  have hgrid : ∀ i : Nat, i ≤ Nat.find hex → onGrid (pos / 8 + i * dr) (pos % 8 + i * dc) :=
    fun i hi => walk_onGrid hd hl h0 h1 i (fun k hk => hmin k (by omega))
  refine ⟨Nat.find hex, (ray_geometry hd h0 h1 _ (hgrid _ le_rfl)).1, Nat.find_spec hex, hmin,
    fun i hi => ?_⟩
  obtain ⟨_, ha, hb, _, _⟩ := ray_geometry hd h0 h1 i (hgrid i hi)
  exact ⟨ha, hb⟩

theorem checkDirectionLoop_safe {r : Reversi} (hlen : r.board.length = 64) {pos dr dc : Int}
    {lim : Int → Int → Bool} (hd : (dr, dc) ∈ compass) (hl : LimOK (8 * dr + dc) lim dr dc)
    (h0 : 0 ≤ pos) (h1 : pos < 64) :
    ∀ (fuel j : Nat) (found : Bool), 8 ≤ fuel + j →
      onGrid (pos / 8 + j * dr) (pos % 8 + j * dc) →
      ∃ b, r.checkDirectionLoop (8 * dr + dc) lim fuel (pos + j * (8 * dr + dc)) found
        = .ok b := by
  intro fuel
  induction fuel with
  | zero =>
    intro j _ hj hg
    have := (ray_geometry hd h0 h1 j hg).1
    omega
  | succ f ih =>
    intro j found hj hg
    have hidx : pos + (j : Int) * (8 * dr + dc) + (8 * dr + dc) =
        pos + ((j + 1 : Nat) : Int) * (8 * dr + dc) := by push_cast; ring
    unfold Reversi.checkDirectionLoop
    by_cases hw : lim (pos + j * (8 * dr + dc)) (8 * dr + dc) = true
    · have hg1 := (lim_iff_next hd hl h0 h1 j hg).1 hw
      obtain ⟨_, hn0, hn1, _, _⟩ := ray_geometry hd h0 h1 (j + 1) hg1
      obtain ⟨c, hcell, -⟩ := readCell_of_range hlen hn0 hn1
      simp only [hw, if_true, hidx, hcell]
      by_cases hct : c = r.turn
      · rw [if_pos hct]
        generalize (if c = r.turn * -1 then true else found) = fo
        cases fo <;> exact ⟨_, rfl⟩
      · rw [if_neg hct]
        by_cases hc0 : c = 0
        · rw [if_pos hc0]; exact ⟨_, rfl⟩
        · rw [if_neg hc0]
          exact ih (j + 1) _ (by omega) hg1
    · exact ⟨false, by simp [hw]⟩

theorem flipScanLoop_safe {r : Reversi} (hlen : r.board.length = 64) {pos dr dc : Int}
    {lim : Int → Int → Bool} (hd : (dr, dc) ∈ compass) (hl : LimOK (8 * dr + dc) lim dr dc)
    (h0 : 0 ≤ pos) (h1 : pos < 64) :
    ∀ (fuel j : Nat) (found : Bool), 8 ≤ fuel + j →
      onGrid (pos / 8 + j * dr) (pos % 8 + j * dc) →
      ∃ e, r.flipScanLoop (8 * dr + dc) lim fuel (pos + j * (8 * dr + dc)) found = .ok e := by
  intro fuel
  induction fuel with
  | zero =>
    intro j _ hj hg
    have := (ray_geometry hd h0 h1 j hg).1
    omega
  | succ f ih =>
    intro j found hj hg
    have hidx : pos + (j : Int) * (8 * dr + dc) + (8 * dr + dc) =
        pos + ((j + 1 : Nat) : Int) * (8 * dr + dc) := by push_cast; ring
    unfold Reversi.flipScanLoop
    by_cases hw : lim (pos + j * (8 * dr + dc)) (8 * dr + dc) = true
    · have hg1 := (lim_iff_next hd hl h0 h1 j hg).1 hw
      obtain ⟨_, hn0, hn1, _, _⟩ := ray_geometry hd h0 h1 (j + 1) hg1
      obtain ⟨c, hcell, -⟩ := readCell_of_range hlen hn0 hn1
      simp only [hw, if_true, hidx, hcell]
      by_cases hct : c = r.turn
      · rw [if_pos hct]
        generalize (if c = r.turn * -1 then true else found) = fo
        cases fo <;> exact ⟨_, rfl⟩
      · rw [if_neg hct]
        by_cases hc0 : c = 0
        · rw [if_pos hc0]; exact ⟨_, rfl⟩
        · rw [if_neg hc0]
          exact ih (j + 1) _ (by omega) hg1
    · exact ⟨.done false, by simp [hw]⟩

theorem flipLoop_safe (turn : Int) {pos dr dc : Int}
    {lim : Int → Int → Bool} (hd : (dr, dc) ∈ compass) (hl : LimOK (8 * dr + dc) lim dr dc)
    (h0 : 0 ≤ pos) (h1 : pos < 64) :
    ∀ (fuel j : Nat) (board : List Int), board.length = 64 → 8 ≤ fuel + j →
      onGrid (pos / 8 + j * dr) (pos % 8 + j * dc) →
      ∃ b', Reversi.flipLoop turn (8 * dr + dc) lim fuel board (pos + j * (8 * dr + dc))
        = .ok b' ∧ b'.length = 64 := by
  intro fuel
  induction fuel with
  | zero =>
    intro j _ _ hj hg
    have := (ray_geometry hd h0 h1 j hg).1
    omega
  | succ f ih =>
    intro j board hlen hj hg
    have hidx : pos + (j : Int) * (8 * dr + dc) + (8 * dr + dc) =
        pos + ((j + 1 : Nat) : Int) * (8 * dr + dc) := by push_cast; ring
    unfold Reversi.flipLoop
    by_cases hw : lim (pos + j * (8 * dr + dc)) (8 * dr + dc) = true
    · have hg1 := (lim_iff_next hd hl h0 h1 j hg).1 hw
      obtain ⟨_, hn0, hn1, _, _⟩ := ray_geometry hd h0 h1 (j + 1) hg1
      obtain ⟨c, hcell, -⟩ := readCell_of_range hlen hn0 hn1
      simp only [hw, if_true, hidx, hcell]
      by_cases hct : c = turn * -1
      · rw [if_pos hct, writeCell_of_range hlen hn0 hn1]
        exact ih (j + 1) _ (by rw [List.length_set]; exact hlen) (by omega) hg1
      · rw [if_neg hct]
        by_cases hc0 : c = turn ∨ c = 0
        · rw [if_pos hc0]; exact ⟨_, rfl, hlen⟩
        · rw [if_neg hc0]
          exact ih (j + 1) _ hlen (by omega) hg1
    · exact ⟨board, by simp [hw], hlen⟩

/-- On any board of 64 cells one call of `checkDirection` and one call of
`flipDirection` with a ray of the table return with fuel 8: no index leaves the
board. -/
theorem ray_calls_safe {r : Reversi} (hlen : r.board.length = 64) {pos dr dc dir : Int}
    {lim : Int → Int → Bool} (hd : (dr, dc) ∈ compass) (hl : LimOK dir lim dr dc)
    (h0 : 0 ≤ pos) (h1 : pos < 64) {fuel : Nat} (hf : 8 ≤ fuel) :
    (∃ b, r.checkDirection fuel pos dir lim = .ok b) ∧
    ∃ board' v, r.flipDirection fuel pos dir lim = .ok ({ r with board := board' }, v) ∧
      board'.length = 64 := by
  have hdir := hl.1
  subst hdir
  have hz : pos + ((0 : Nat) : Int) * (8 * dr + dc) = pos := by simp
  constructor
  · have := checkDirectionLoop_safe hlen hd hl h0 h1 fuel 0 false (by omega)
      (onGrid_zero h0 h1 dr dc)
    rw [hz] at this
    exact this
  · obtain ⟨e, he⟩ := flipScanLoop_safe hlen hd hl h0 h1 fuel 0 false (by omega)
      (onGrid_zero h0 h1 dr dc)
    rw [hz] at he
    obtain ⟨b', hb', hlen'⟩ := flipLoop_safe r.turn hd hl h0 h1 fuel 0 r.board hlen (by omega)
      (onGrid_zero h0 h1 dr dc)
    rw [hz] at hb'
    unfold Reversi.flipDirection
    rw [he]
    cases e with
    | returned v => exact ⟨r.board, v, rfl, hlen⟩
    | done pf =>
      cases pf with
      | false => exact ⟨r.board, false, rfl, hlen⟩
      | true => exact ⟨b', false, by simp [hb'], hlen'⟩

theorem thenFlip_safe {s : Reversi} (hlen : s.board.length = 64) {pos dr dc dir : Int}
    {lim : Int → Int → Bool} (hd : (dr, dc) ∈ compass) (hl : LimOK dir lim dr dc)
    (h0 : 0 ≤ pos) (h1 : pos < 64) {fuel : Nat} (hf : 8 ≤ fuel) :
    ∃ s', Reversi.thenFlip (.ok s) fuel pos dir lim = .ok s' ∧ s'.board.length = 64 := by
  obtain ⟨b', v, hb', hlen'⟩ := (ray_calls_safe hlen hd hl h0 h1 hf).2
  exact ⟨{ s with board := b' }, by simp [Reversi.thenFlip, hb'], hlen'⟩

theorem isValidPosition_safe {r : Reversi} (hlen : r.board.length = 64) {pos : Int}
    (h0 : 0 ≤ pos) (h1 : pos < 64) {fuel : Nat} (hf : 8 ≤ fuel) :
    ∃ b, r.isValidPosition fuel pos = .ok b := by
  obtain ⟨c, hcell, -⟩ := readCell_of_range hlen h0 h1
  unfold Reversi.isValidPosition
  rw [hcell]
  by_cases hc : c = 0
  · obtain ⟨b1, e1⟩ := (ray_calls_safe hlen (by decide) limOK_up h0 h1 hf).1
    obtain ⟨b2, e2⟩ := (ray_calls_safe hlen (by decide) limOK_left h0 h1 hf).1
    obtain ⟨b3, e3⟩ := (ray_calls_safe hlen (by decide) limOK_below h0 h1 hf).1
    obtain ⟨b4, e4⟩ := (ray_calls_safe hlen (by decide) limOK_right h0 h1 hf).1
    obtain ⟨b5, e5⟩ := (ray_calls_safe hlen (by decide) limOK_upLeft h0 h1 hf).1
    obtain ⟨b6, e6⟩ := (ray_calls_safe hlen (by decide) limOK_belowLeft h0 h1 hf).1
    obtain ⟨b7, e7⟩ := (ray_calls_safe hlen (by decide) limOK_belowRight h0 h1 hf).1
    obtain ⟨b8, e8⟩ := (ray_calls_safe hlen (by decide) limOK_upRight h0 h1 hf).1
    exact ⟨b1 || (b2 || (b3 || (b4 || (b4 || (b5 || (b6 || (b7 || b8))))))),
      by simp only [hc, if_true, e1, e2, e3, e4, e5, e6, e7, e8, Res.or_ok]⟩
  · exact ⟨false, by simp [hc]⟩

theorem setChip_safe {r : Reversi} (hlen : r.board.length = 64) {pos : Int}
    (h0 : 0 ≤ pos) (h1 : pos < 64) {fuel : Nat} (hf : 8 ≤ fuel) :
    ∃ r', r.setChip fuel pos = .ok r' ∧ r'.board.length = 64 := by
  obtain ⟨c, hcell, -⟩ := readCell_of_range hlen h0 h1
  unfold Reversi.setChip
  rw [hcell]
  by_cases hc : c = 0
  · have hl0 : ({ r with board := r.board.set pos.toNat r.turn } : Reversi).board.length = 64 := by
      simp [hlen]
    obtain ⟨s1, e1, l1⟩ := thenFlip_safe hl0 (by decide) limOK_up h0 h1 hf
    obtain ⟨s2, e2, l2⟩ := thenFlip_safe l1 (by decide) limOK_left h0 h1 hf
    obtain ⟨s3, e3, l3⟩ := thenFlip_safe l2 (by decide) limOK_below h0 h1 hf
    obtain ⟨s4, e4, l4⟩ := thenFlip_safe l3 (by decide) limOK_right h0 h1 hf
    obtain ⟨s5, e5, l5⟩ := thenFlip_safe l4 (by decide) limOK_right h0 h1 hf
    obtain ⟨s6, e6, l6⟩ := thenFlip_safe l5 (by decide) limOK_upLeft h0 h1 hf
    obtain ⟨s7, e7, l7⟩ := thenFlip_safe l6 (by decide) limOK_belowLeft h0 h1 hf
    obtain ⟨s8, e8, l8⟩ := thenFlip_safe l7 (by decide) limOK_belowRight h0 h1 hf
    obtain ⟨s9, e9, l9⟩ := thenFlip_safe l8 (by decide) limOK_upRight h0 h1 hf
    refine ⟨s9, ?_, l9⟩
    simp only [hc, if_true, writeCell_of_range hlen h0 h1, e1, e2, e3, e4, e5, e6, e7, e8, e9]
  · exact ⟨r, by simp [hc], hlen⟩

/-- C20: on every board of 64 cells (whatever the cells hold) and for every
position 0..63: a read faults exactly when its index is outside 0..63; every
call of `checkDirection` and of `flipDirection` with one of the eight rays
returns with fuel 8, so never touches an index outside 0..63, and so do
`isValidPosition` and `setChip`; and along each of the eight rays the boundary
predicate ends the walk after at most 7 steps, all on cells 0..63. -/
theorem ray_walk_in_bounds (r : Reversi) (fuel : Nat) (pos : Int) (hlen : r.board.length = 64)
    (hf : 8 ≤ fuel) (h0 : 0 ≤ pos) (h1 : pos < 64) :
    (∀ i : Int, readCell r.board i = none ↔ ¬ (0 ≤ i ∧ i < 64)) ∧
    (∀ p ∈ rayTable,
      (∃ b, r.checkDirection fuel pos p.1 p.2 = .ok b) ∧
      (∃ board' v, r.flipDirection fuel pos p.1 p.2 = .ok ({ r with board := board' }, v) ∧
        board'.length = 64) ∧
      ∃ j : Nat, j ≤ 7 ∧ p.2 (pos + j * p.1) p.1 = false ∧
        (∀ i : Nat, i < j → p.2 (pos + i * p.1) p.1 = true) ∧
        ∀ i : Nat, i ≤ j → 0 ≤ pos + i * p.1 ∧ pos + i * p.1 < 64) ∧
    (∃ b, r.isValidPosition fuel pos = .ok b) ∧
    (∃ r', r.setChip fuel pos = .ok r' ∧ r'.board.length = 64) := by
  refine ⟨readCell_none_iff hlen, fun p hp => ?_, isValidPosition_safe hlen h0 h1 hf,
    setChip_safe hlen h0 h1 hf⟩
  obtain ⟨dr, dc, hd, hl⟩ := rayTable_limOK hp
  obtain ⟨hc, hfl⟩ := ray_calls_safe hlen hd hl h0 h1 hf
  refine ⟨hc, hfl, ?_⟩
  have hdir := hl.1
  rw [hdir] at hl ⊢
  exact walk_stops hd hl h0 h1

theorem ray_walk_in_bounds_witness :
    (⟨(List.replicate 64 5).set 63 0, 1, false⟩ : Reversi).board.length = 64 ∧ 8 ≤ 8 ∧
    (0 : Int) ≤ 63 ∧ (63 : Int) < 64 ∧
    (∃ b, (⟨(List.replicate 64 5).set 63 0, 1, false⟩ : Reversi).isValidPosition 8 63
      = .ok b) ∧
    (∃ r', (⟨(List.replicate 64 5).set 63 0, 1, false⟩ : Reversi).setChip 8 63 = .ok r' ∧
      r'.board.length = 64) :=
  ⟨by decide, le_refl 8, by decide, by decide,
    (ray_walk_in_bounds ⟨(List.replicate 64 5).set 63 0, 1, false⟩ 8 63 (by decide) (le_refl 8)
      (by decide) (by decide)).2.2⟩

theorem mapGet_mapSet (m : List (Int × Int)) (k v p : Int) :
    mapGet (mapSet m k v) p = if p = k then v else mapGet m p := by
  induction m with
  | nil =>
    by_cases h : p = k
    · simp [mapSet, mapGet, h]
    · have : ¬ k = p := fun e => h e.symm
      simp [mapSet, mapGet, h, this]
  | cons a t ih =>
    obtain ⟨k', v'⟩ := a
    unfold mapSet
    by_cases hk : k' = k
    · subst hk
      by_cases h : p = k'
      · simp [mapGet, h]
      · have : ¬ k' = p := fun e => h e.symm
        simp [mapGet, h, this]
    · rw [if_neg hk]
      unfold mapGet
      by_cases h : k' = p
      · have : ¬ p = k := fun e => hk (h.trans e)
        simp [h, this]
      · simp only [h, if_false, ih]

theorem mapKeys_mapSet_mem (m : List (Int × Int)) (k v : Int) (h : k ∈ mapKeys m) :
    mapKeys (mapSet m k v) = mapKeys m := by
  induction m with
  | nil => simp [mapKeys] at h
  | cons a t ih =>
    obtain ⟨k', v'⟩ := a
    unfold mapSet
    by_cases hk : k' = k
    · simp [hk, mapKeys]
    · rw [if_neg hk]
      have hk2 : k ∈ mapKeys t := by
        simp only [mapKeys, List.map_cons, List.mem_cons] at h
        rcases h with h | h
        · exact absurd h.symm hk
        · exact h
      have := ih hk2
      simp only [mapKeys, List.map_cons] at this ⊢
      rw [this]

theorem mapKeys_mapSet_new (m : List (Int × Int)) (k v : Int) (h : k ∉ mapKeys m) :
    mapKeys (mapSet m k v) = mapKeys m ++ [k] := by
  induction m with
  | nil => simp [mapKeys, mapSet]
  | cons a t ih =>
    obtain ⟨k', v'⟩ := a
    simp only [mapKeys, List.map_cons, List.mem_cons, not_or] at h
    unfold mapSet
    have hk : ¬ k' = k := fun e => h.1 e.symm
    rw [if_neg hk]
    have := ih h.2
    simp only [mapKeys, List.map_cons, List.cons_append] at this ⊢
    rw [this]

theorem mem_mapKeys_mapSet (m : List (Int × Int)) (k v : Int) : k ∈ mapKeys (mapSet m k v) := by
  by_cases h : k ∈ mapKeys m
  · rw [mapKeys_mapSet_mem m k v h]; exact h
  · rw [mapKeys_mapSet_new m k v h]; simp

theorem mapKeys_subset_mapSet (m : List (Int × Int)) (k v : Int) {p : Int}
    (hp : p ∈ mapKeys m) : p ∈ mapKeys (mapSet m k v) := by
  by_cases h : k ∈ mapKeys m
  · rw [mapKeys_mapSet_mem m k v h]; exact hp
  · rw [mapKeys_mapSet_new m k v h]; simp [hp]

/-- In a map with every key once, the entries are the pairs of a key and the
value read for it. -/
theorem mem_scores_iff {m : List (Int × Int)} (hn : (mapKeys m).Nodup) (p v : Int) :
    (p, v) ∈ m ↔ p ∈ mapKeys m ∧ mapGet m p = v := by
  induction m with
  | nil => simp [mapKeys]
  | cons a t ih =>
    obtain ⟨k', v'⟩ := a
    simp only [mapKeys, List.map_cons, List.nodup_cons] at hn
    have iht := ih hn.2
    simp only [List.mem_cons, Prod.mk.injEq, mapKeys, List.map_cons, mapGet]
    by_cases hk : k' = p
    · subst hk
      simp only [true_or, if_true, true_and, true_and]
      constructor
      · rintro (h | h)
        · exact h.symm
        · exact absurd ((iht.1 h).1) hn.1
      · intro h; left; exact h.symm
    · have hk' : ¬ p = k' := fun e => hk e.symm
      simp only [hk, hk', if_false, false_and, false_or]
      exact iht

/-- What the selection loop returns: the start value when no entry reaches the
start maximum, and otherwise the key of the last entry, in iteration order,
whose score is the largest. -/
theorem pickBest_spec (l : List (Int × Int)) :
    ∀ (m0 b0 : Int),
      ((∀ e ∈ l, e.2 < m0) ∧ pickBest l m0 b0 = b0) ∨
      ∃ pre post sc, l = pre ++ (pickBest l m0 b0, sc) :: post ∧ m0 ≤ sc ∧
        (∀ e ∈ pre, e.2 ≤ sc) ∧ (∀ e ∈ post, e.2 < sc) := by
  induction l with
  | nil => intro m0 b0; left; simp [pickBest]
  | cons a t ih =>
    intro m0 b0
    obtain ⟨p, s⟩ := a
    unfold pickBest
    by_cases h : s ≥ m0
    · rw [if_pos h]
      rcases ih s p with ⟨hlt, hb⟩ | ⟨pre, post, sc, hl, hm, hpre, hpost⟩
      · right
        refine ⟨[], t, s, by rw [hb]; rfl, h, by simp, hlt⟩
      · right
        refine ⟨(p, s) :: pre, post, sc, by rw [List.cons_append, ← hl], by omega, ?_, hpost⟩
        intro e he
        rcases List.mem_cons.1 he with he | he
        · rw [he]; exact hm
        · exact hpre e he
    · rw [if_neg h]
      rcases ih m0 b0 with ⟨hlt, hb⟩ | ⟨pre, post, sc, hl, hm, hpre, hpost⟩
      · left
        refine ⟨?_, hb⟩
        intro e he
        rcases List.mem_cons.1 he with he | he
        · rw [he]; simp only; omega
        · exact hlt e he
      · right
        refine ⟨(p, s) :: pre, post, sc, by rw [List.cons_append, ← hl], hm, ?_, hpost⟩
        intro e he
        rcases List.mem_cons.1 he with he | he
        · rw [he]; simp only; omega
        · exact hpre e he

theorem tally_append (turn : Int) (rs : List (Int × Int)) (pos res p : Int) :
    tally turn (rs ++ [(pos, res)]) p = tally turn rs p + if p = pos then weight turn res else 0 := by
  unfold tally
  rw [List.filter_append, List.map_append, List.sum_append]
  by_cases h : p = pos
  · subst h; simp
  · have : ¬ pos = p := fun e => h e.symm
    simp [h, this]

theorem rolloutCount_append (rs : List (Int × Int)) (pos res p : Int) :
    rolloutCount (rs ++ [(pos, res)]) p = rolloutCount rs p + if p = pos then 1 else 0 := by
  unfold rolloutCount
  rw [List.filter_append, List.length_append]
  by_cases h : p = pos
  · subst h; simp
  · have : ¬ pos = p := fun e => h e.symm
    simp [h, this]

theorem tally_eq_zero (turn : Int) (rs : List (Int × Int)) (p : Int)
    (h : ∀ e ∈ rs, e.1 ≠ p) : tally turn rs p = 0 ∧ rolloutCount rs p = 0 := by
  have : rs.filter (fun e => decide (e.1 = p)) = [] := by
    rw [List.filter_eq_nil_iff]
    intro e he
    simpa using h e he
  simp [tally, rolloutCount, this]

theorem weight_range (turn result : Int) : -10 ≤ weight turn result ∧ weight turn result ≤ 2 := by
  unfold weight
  split
  · omega
  · split <;> omega

theorem tally_bounds (turn : Int) (rs : List (Int × Int)) (p : Int) :
    -10 * (rolloutCount rs p : Int) ≤ tally turn rs p ∧
      tally turn rs p ≤ 2 * (rolloutCount rs p : Int) := by
  unfold tally rolloutCount
  induction rs.filter (fun e => decide (e.1 = p)) with
  | nil => simp
  | cons a t ih =>
    have := weight_range turn a.2
    simp only [List.map_cons, List.sum_cons, List.length_cons]
    push_cast
    omega

/-- One rollout of the search on a valid state, for a candidate on an empty
cell: the clone takes the move, and `doPlayOut` returns -1, 0 or 1. -/
theorem rollout_ok {r : Reversi} (hv : r.Valid) {rayFuel playFuel : Nat} (hrf : 8 ≤ rayFuel)
    (hpf : 2 * r.empties + 1 ≤ playFuel) (useHeuristics : Bool) {pos : Int}
    (he : readCell r.board pos = some 0) (dr : Nat → Nat) :
    ∃ cpy out, r.deepCopy.setChip rayFuel pos = .ok cpy ∧
      doPlayOut rayFuel useHeuristics playFuel cpy.switchTurns dr = .ok out ∧
      (out.result = -1 ∨ out.result = 0 ∨ out.result = 1) := by
  rw [deepCopy_eq hv.1]
  obtain ⟨cpy, hcpy, hvc, -, hec, -⟩ := setChip_ok hv hrf he
  have he2 : cpy.switchTurns.empties = cpy.empties := rfl
  obtain ⟨out, hout, -, -, -, hres⟩ := doPlayOut_spec hrf useHeuristics playFuel cpy.switchTurns dr
    (valid_switchTurns hvc) (by omega) (by omega) (Or.inl (by omega))
  refine ⟨cpy, out, hcpy, hout, ?_⟩
  rw [hres]
  exact determineWinner_range _ _

theorem score_update (m : List (Int × Int)) (pos turn result : Int) :
    (if result = turn then mapSet m pos (mapGet m pos + 2)
      else if result = turn * -1 then mapSet m pos (mapGet m pos - 10)
      else mapSet m pos (mapGet m pos + 1)) = mapSet m pos (mapGet m pos + weight turn result) := by
  unfold weight
  split
  · rfl
  · split
    · rfl
    · rfl

theorem playoutLoop_inv {r : Reversi} (hv : r.Valid) {budget rayFuel playFuel : Nat}
    (hrf : 8 ≤ rayFuel) (hpf : 2 * r.empties + 1 ≤ playFuel) (useHeuristics : Bool)
    (clock : Nat → Bool) (draws : Nat → Nat → Nat) {pos : Int}
    (he : readCell r.board pos = some 0) {done : List Int} (hpd : pos ∈ done) :
    ∀ (n : Nat) (s : Search),
      r.SearchInv budget rayFuel playFuel useHeuristics draws done s →
      pos ∈ mapKeys s.scores → rolloutCount s.rollouts pos + n ≤ budget →
      ∃ s', r.playoutLoop rayFuel playFuel useHeuristics clock draws pos n s = .ok s' ∧
        r.SearchInv budget rayFuel playFuel useHeuristics draws done s' ∧
        mapKeys s'.scores = mapKeys s.scores ∧
        (∀ p, p ≠ pos → rolloutCount s'.rollouts p = rolloutCount s.rollouts p) ∧
        ((∀ k, clock k = false) → s'.timeLimitExceeded = s.timeLimitExceeded ∧
          rolloutCount s'.rollouts pos = rolloutCount s.rollouts pos + n) := by
  intro n
  induction n with
  | zero =>
    intro s hinv _ _
    exact ⟨s, rfl, hinv, rfl, fun _ _ => rfl, fun _ => ⟨rfl, rfl⟩⟩
  | succ n ih =>
    intro s hinv hkey hcount
    unfold Reversi.playoutLoop
    simp only
    by_cases hclk : clock s.numPlayOuts = true
    · rw [if_pos hclk]
      refine ⟨_, rfl, hinv, rfl, fun p _ => rfl, fun hno => ?_⟩
      rw [hno] at hclk
      exact absurd hclk (by decide)
    · rw [if_neg hclk]
      obtain ⟨cpy, out, hcpy, hout, hres⟩ :=
        rollout_ok hv hrf hpf useHeuristics he (draws s.rollouts.length)
      simp only [hcpy, Res.bind_ok, hout, score_update]
      obtain ⟨hnd, hks, htal, hcnt, hroll⟩ := hinv
      have hinv1 : r.SearchInv budget rayFuel playFuel useHeuristics draws done
          { scores := mapSet s.scores pos (mapGet s.scores pos + weight r.turn out.result),
            numPlayOuts := s.numPlayOuts + 1, timeLimitExceeded := s.timeLimitExceeded,
            rollouts := s.rollouts ++ [(pos, out.result)] } := by
        refine ⟨?_, ?_, ?_, ?_, ?_⟩
        · simp only [mapKeys_mapSet_mem _ _ _ hkey]; exact hnd
        · simp only [mapKeys_mapSet_mem _ _ _ hkey]; exact hks
        · intro p
          simp only [mapGet_mapSet, tally_append]
          by_cases hp : p = pos
          · simp only [hp, if_true]; rw [htal pos]
          · simp only [hp, if_false, add_zero]; exact htal p
        · intro p
          simp only [rolloutCount_append]
          by_cases hp : p = pos
          · simp only [hp, if_true]; omega
          · simp only [hp, if_false, add_zero]; exact hcnt p
        · intro e hm
          simp only [List.mem_append, List.mem_singleton] at hm
          rcases hm with hm | hm
          · exact hroll e hm
          · subst hm
            exact ⟨hpd, hres, cpy, s.rollouts.length, out, hcpy, hout, rfl⟩
      have hkey1 : pos ∈ mapKeys
          (mapSet s.scores pos (mapGet s.scores pos + weight r.turn out.result)) :=
        mem_mapKeys_mapSet _ _ _
      obtain ⟨s', hs', hinv', hkeys', hothers, hnolimit⟩ := ih _ hinv1 hkey1 (by
        simp only [rolloutCount_append, if_true]; omega)
      refine ⟨s', hs', hinv', ?_, ?_, ?_⟩
      · rw [hkeys']; exact mapKeys_mapSet_mem _ _ _ hkey
      · intro p hp
        rw [hothers p hp]
        simp only [rolloutCount_append, hp, if_false, add_zero]
      · intro hno
        obtain ⟨h1, h2⟩ := hnolimit hno
        refine ⟨h1, ?_⟩
        rw [h2]
        simp only [rolloutCount_append, if_true]
        omega

theorem searchInv_mono {r : Reversi} {budget rayFuel playFuel : Nat} {useHeuristics : Bool}
    {draws : Nat → Nat → Nat} {done done' : List Int} {s : Search}
    (hsub : ∀ k ∈ done, k ∈ done')
    (h : r.SearchInv budget rayFuel playFuel useHeuristics draws done s) :
    r.SearchInv budget rayFuel playFuel useHeuristics draws done' s := by
  obtain ⟨hnd, hks, htal, hcnt, hroll⟩ := h
  refine ⟨hnd, fun k hk => hsub k (hks k hk), htal, hcnt, fun e he => ?_⟩
  obtain ⟨h1, h2, h3⟩ := hroll e he
  exact ⟨hsub _ h1, h2, h3⟩

theorem candidateLoop_inv {r : Reversi} (hv : r.Valid) {budget rayFuel playFuel : Nat}
    (hrf : 8 ≤ rayFuel) (hpf : 2 * r.empties + 1 ≤ playFuel) (useHeuristics : Bool)
    (clock : Nat → Bool) (draws : Nat → Nat → Nat) :
    ∀ (l done : List Int) (s : Search),
      r.SearchInv budget rayFuel playFuel useHeuristics draws done s →
      l.Nodup → (∀ c ∈ l, c ∉ done) → (∀ c ∈ l, readCell r.board c = some 0) →
      ∃ s', r.candidateLoop budget rayFuel playFuel useHeuristics clock draws l s = .ok s' ∧
        r.SearchInv budget rayFuel playFuel useHeuristics draws (done ++ l) s' ∧
        ((∀ c ∈ l, c ∈ mapKeys s'.scores) ∨
          ∃ p ∈ mapKeys s'.scores, mapGet s'.scores p = 0) ∧
        (∀ k ∈ mapKeys s.scores, k ∈ mapKeys s'.scores) ∧
        ((∀ k, clock k = false) → s.timeLimitExceeded = false →
          s'.timeLimitExceeded = false ∧
          ∀ p, rolloutCount s'.rollouts p =
            rolloutCount s.rollouts p + if p ∈ l then budget else 0) := by
  intro l
  induction l with
  | nil =>
    intro done s hinv _ _ _
    exact ⟨s, rfl, by simpa using hinv, Or.inl (by simp), fun k hk => hk,
      fun _ h => ⟨h, by simp⟩⟩
  | cons pos rest ih =>
    intro done s hinv hnd hfresh hempty
    obtain ⟨hpr, hndr⟩ := List.nodup_cons.1 hnd
    have hpd : pos ∉ done := hfresh pos (List.mem_cons_self _ _)
    have he := hempty pos (List.mem_cons_self _ _)
    obtain ⟨hknd, hks, htal, hcnt, hroll⟩ := hinv
    have hpk : pos ∉ mapKeys s.scores := fun h => hpd (hks pos h)
    have hz := tally_eq_zero r.turn s.rollouts pos
      (fun e hm h => hpd (h ▸ (hroll e hm).1))
    -- the state after `scores[pos] = 0`
    have hinv1 : r.SearchInv budget rayFuel playFuel useHeuristics draws (done ++ [pos])
        { s with scores := mapSet s.scores pos 0 } := by
      refine ⟨?_, ?_, ?_, hcnt, ?_⟩
      · simp only [mapKeys_mapSet_new _ _ _ hpk]
        rw [List.nodup_append]
        refine ⟨hknd, by simp, ?_⟩
        intro a ha hb
        simp only [List.mem_singleton] at hb
        exact hpk (hb ▸ ha)
      · simp only [mapKeys_mapSet_new _ _ _ hpk]
        intro k hk
        simp only [List.mem_append, List.mem_singleton] at hk ⊢
        rcases hk with hk | hk
        · exact Or.inl (hks k hk)
        · exact Or.inr hk
      · intro p
        simp only [mapGet_mapSet]
        by_cases hp : p = pos
        · simp only [hp, if_true]; exact hz.1.symm
        · simp only [hp, if_false]; exact htal p
      · intro e hm
        obtain ⟨h1, h2, h3⟩ := hroll e hm
        exact ⟨List.mem_append_left _ h1, h2, h3⟩
    have hsub : ∀ k ∈ done ++ [pos], k ∈ done ++ pos :: rest := by
      intro k hk
      rcases List.mem_append.1 hk with hk | hk
      · exact List.mem_append_left _ hk
      · rw [List.mem_singleton] at hk
        exact List.mem_append_right _ (hk ▸ List.mem_cons_self _ _)
    unfold Reversi.candidateLoop
    simp only
    by_cases htle : s.timeLimitExceeded = true
    · rw [if_pos htle]
      refine ⟨_, rfl, searchInv_mono hsub hinv1, Or.inr ⟨pos, mem_mapKeys_mapSet _ _ _, ?_⟩,
        fun k hk => mapKeys_subset_mapSet _ _ _ hk, fun _ h => ?_⟩
      · simp [mapGet_mapSet]
      · rw [h] at htle; exact absurd htle (by decide)
    · rw [if_neg htle]
      obtain ⟨s2, hs2, hinv2, hkeys2, hothers2, hnolimit2⟩ :=
        playoutLoop_inv hv hrf hpf useHeuristics clock draws he
          (List.mem_append_right done (List.mem_singleton_self pos)) budget
          { s with scores := mapSet s.scores pos 0 } hinv1 (mem_mapKeys_mapSet _ _ _)
          (by simp only [hz.2]; omega)
      obtain ⟨s', hs', hinv', hall, hkeep, hnolimit⟩ := ih (done ++ [pos]) s2 hinv2 hndr
        (by
          intro c hc hcd
          simp only [List.mem_append, List.mem_singleton] at hcd
          rcases hcd with hcd | hcd
          · exact hfresh c (List.mem_cons_of_mem _ hc) hcd
          · exact hpr (hcd ▸ hc))
        (fun c hc => hempty c (List.mem_cons_of_mem _ hc))
      have hpos2 : pos ∈ mapKeys s2.scores := by
        rw [hkeys2]; exact mem_mapKeys_mapSet _ _ _
      refine ⟨s', by rw [hs2, Res.bind_ok]; exact hs', ?_, ?_, ?_, ?_⟩
      · rw [List.append_assoc] at hinv'
        exact hinv'
      · rcases hall with hall | hzero
        · left
          intro c hc
          rcases List.mem_cons.1 hc with hc | hc
          · rw [hc]; exact hkeep pos hpos2
          · exact hall c hc
        · exact Or.inr hzero
      · intro k hk
        apply hkeep
        rw [hkeys2]
        exact mapKeys_subset_mapSet _ _ _ hk
      · intro hno hs
        obtain ⟨ht2, hc2⟩ := hnolimit2 hno
        obtain ⟨ht', hc'⟩ := hnolimit hno (by rw [ht2]; exact hs)
        refine ⟨ht', fun p => ?_⟩
        rw [hc' p]
        by_cases hp : p = pos
        · subst hp
          have : p ∉ rest := hpr
          simp only [this, if_false, add_zero, List.mem_cons, true_or, if_true]
          rw [hc2, hz.2]
        · rw [hothers2 p hp]
          simp only [List.mem_cons, hp, false_or]

theorem validPositions_nodup (r : Reversi) (fuel : Nat) :
    (((List.range 64).filter
      (fun n : Nat => decide (r.isValidPosition fuel (n : Int) = .ok true))).map
        (fun n : Nat => (n : Int))).Nodup := by
  apply List.Nodup.map
  · exact Nat.cast_injective
  · exact (List.nodup_range 64).filter _

theorem mapGet_absent {m : List (Int × Int)} {p : Int} (h : p ∉ mapKeys m) : mapGet m p = 0 := by
  induction m with
  | nil => rfl
  | cons a t ih =>
    obtain ⟨k', v'⟩ := a
    simp only [mapKeys, List.map_cons, List.mem_cons, not_or] at h
    have hk : ¬ k' = p := fun e => h.1 e.symm
    simp only [mapGet, hk, if_false]
    exact ih h.2

/-- A run of the search on a valid state: the list of candidates, and either no
candidate and the answer -1 with nothing recorded, or the final loop variables,
which satisfy the invariant, and the answer picked from them. -/
theorem getBestMoveWith_run {r : Reversi} (hv : r.Valid) {rayFuel playFuel : Nat}
    (hrf : 8 ≤ rayFuel) (hpf : 2 * r.empties + 1 ≤ playFuel) (budget : Nat)
    (useHeuristics : Bool) (clock : Nat → Bool) (draws : Nat → Nat → Nat)
    (iter : List (Int × Int) → List (Int × Int)) :
    ∃ ps, r.getValidPositions rayFuel = .ok ps ∧ (∀ c ∈ ps, readCell r.board c = some 0) ∧
      ((ps = [] ∧
          r.getBestMoveWith budget rayFuel playFuel useHeuristics clock draws iter =
            .ok ⟨-1, r, none, ⟨[], 0, false, []⟩⟩) ∨
        (ps ≠ [] ∧ ∃ s,
          r.getBestMoveWith budget rayFuel playFuel useHeuristics clock draws iter =
            .ok ⟨pickBest (iter s.scores) (-(2 ^ 63 - 1)) (-1), r, some s.numPlayOuts, s⟩ ∧
          r.SearchInv budget rayFuel playFuel useHeuristics draws ps s ∧
          ((∀ c ∈ ps, c ∈ mapKeys s.scores) ∨
            ∃ p ∈ mapKeys s.scores, mapGet s.scores p = 0) ∧
          ((∀ k, clock k = false) →
            ∀ p, rolloutCount s.rollouts p = if p ∈ ps then budget else 0))) := by
  have hps := getValidPositions_eq hv hrf
  have hmem := validPositions_mem r rayFuel
  have hnd := validPositions_nodup r rayFuel
  generalize ((List.range 64).filter
    (fun n : Nat => decide (r.isValidPosition rayFuel (n : Int) = .ok true))).map
      (fun n : Nat => (n : Int)) = ps at hps hmem hnd
  have hempty : ∀ c ∈ ps, readCell r.board c = some 0 :=
    fun c hc => isValidPosition_true_empty ((hmem c).1 hc).2.2
  refine ⟨ps, hps, hempty, ?_⟩
  unfold Reversi.getBestMoveWith
  simp only [hps, Res.bind_ok]
  by_cases hnil : ps = []
  · left
    exact ⟨hnil, by rw [if_pos hnil]⟩
  · right
    have hinv0 : r.SearchInv budget rayFuel playFuel useHeuristics draws []
        ⟨[], 0, false, []⟩ := by
      refine ⟨by simp [mapKeys], by simp [mapKeys], fun p => by simp [mapGet, tally],
        fun p => by simp [rolloutCount], by simp⟩
    obtain ⟨s, hs, hinv, hall, -, hnolimit⟩ := candidateLoop_inv hv hrf hpf useHeuristics clock
      draws ps [] ⟨[], 0, false, []⟩ hinv0 hnd (by simp) hempty
    rw [List.nil_append] at hinv
    refine ⟨hnil, s, by rw [if_neg hnil, hs, Res.bind_ok], hinv, hall, fun hno p => ?_⟩
    have := (hnolimit hno rfl).2 p
    simpa [rolloutCount] using this

/-- The position picked at the end of the search is a key of the map whose
score is the largest in the map, whatever the order of the iteration. -/
theorem pickBest_max {r : Reversi} {budget rayFuel playFuel : Nat} {useHeuristics : Bool}
    {draws : Nat → Nat → Nat} {done : List Int} {s : Search}
    (hinv : r.SearchInv budget rayFuel playFuel useHeuristics draws done s)
    (hb : 10 * (budget : Int) ≤ 2 ^ 63 - 1) (hne : mapKeys s.scores ≠ [])
    {iter : List (Int × Int) → List (Int × Int)} (hiter : ∀ m, (iter m).Perm m) :
    ∃ pre post sc,
      iter s.scores = pre ++ (pickBest (iter s.scores) (-(2 ^ 63 - 1)) (-1), sc) :: post ∧
      (∀ e ∈ pre, e.2 ≤ sc) ∧ (∀ e ∈ post, e.2 < sc) ∧
      pickBest (iter s.scores) (-(2 ^ 63 - 1)) (-1) ∈ mapKeys s.scores ∧
      mapGet s.scores (pickBest (iter s.scores) (-(2 ^ 63 - 1)) (-1)) = sc ∧
      ∀ k ∈ mapKeys s.scores, mapGet s.scores k ≤ sc := by
  obtain ⟨hnd, hks, htal, hcnt, -⟩ := hinv
  have hlow : ∀ e ∈ s.scores, -(2 ^ 63 - 1 : Int) ≤ e.2 := by
    intro e he
    obtain ⟨p, v⟩ := e
    have hv := ((mem_scores_iff hnd p v).1 he).2
    have hb1 := (tally_bounds r.turn s.rollouts p).1
    have hc : (rolloutCount s.rollouts p : Int) ≤ budget := by exact_mod_cast hcnt p
    rw [← htal p, hv] at hb1
    simp only
    omega
  have hspec := pickBest_spec (iter s.scores) (-(2 ^ 63 - 1)) (-1)
  generalize pickBest (iter s.scores) (-(2 ^ 63 - 1)) (-1) = b at hspec ⊢
  rcases hspec with ⟨hlt, -⟩ | ⟨pre, post, sc, hl, -, hpre, hpost⟩
  · exfalso
    obtain ⟨e, he⟩ := List.exists_mem_of_ne_nil s.scores (by
      intro h; apply hne; simp [mapKeys, h])
    have h1 := hlt e ((hiter s.scores).mem_iff.2 he)
    have h2 := hlow e he
    omega
  · have hmemb : (b, sc) ∈ s.scores := by
      apply (hiter s.scores).mem_iff.1
      rw [hl]; simp
    obtain ⟨hk, hg⟩ := (mem_scores_iff hnd _ _).1 hmemb
    refine ⟨pre, post, sc, hl, hpre, hpost, hk, hg, fun k hk' => ?_⟩
    have hke : (k, mapGet s.scores k) ∈ iter s.scores :=
      (hiter s.scores).mem_iff.2 ((mem_scores_iff hnd _ _).2 ⟨hk', rfl⟩)
    rw [hl] at hke
    rcases List.mem_append.1 hke with h | h
    · exact hpre _ h
    · rcases List.mem_cons.1 h with h | h
      · simp only [Prod.mk.injEq] at h
        omega
      · exact le_of_lt (hpost _ h)

/-- The sum of the weights of the rollouts of a candidate, by wins, losses and
ties of the side to move. -/
theorem tally_formula {turn : Int} (ht : turn = 1 ∨ turn = -1) (rs : List (Int × Int))
    (hres : ∀ e ∈ rs, e.2 = -1 ∨ e.2 = 0 ∨ e.2 = 1) (p : Int) :
    tally turn rs p = 2 * (rs.count (p, turn) : Int) - 10 * (rs.count (p, -turn) : Int)
      + (rs.count (p, 0) : Int) ∧
    rolloutCount rs p = rs.count (p, turn) + rs.count (p, -turn) + rs.count (p, 0) := by
  induction rs with
  | nil => simp [tally, rolloutCount]
  | cons a t ih =>
    obtain ⟨q, res⟩ := a
    obtain ⟨ih1, ih2⟩ := ih (fun e he => hres e (List.mem_cons_of_mem _ he))
    have hr := hres (q, res) (List.mem_cons_self _ _)
    simp only at hr
    have e1 : tally turn ((q, res) :: t) p =
        (if q = p then weight turn res else 0) + tally turn t p := by
      unfold tally
      by_cases h : q = p <;> simp [List.filter_cons, h]
    have e2 : rolloutCount ((q, res) :: t) p = (if q = p then 1 else 0) + rolloutCount t p := by
      unfold rolloutCount
      by_cases h : q = p
      · simp [List.filter_cons, h]; omega
      · simp [List.filter_cons, h]
    rw [e1, e2, ih1, ih2]
    simp only [List.count_cons, beq_iff_eq, Prod.mk.injEq]
    unfold weight
    by_cases hq : q = p
    · subst hq
      rcases ht with ht | ht <;> rcases hr with hr | hr | hr <;> subst ht <;> subst hr <;>
        simp <;> omega
    · simp [hq]

theorem playouts_bound : 10 * (playouts : Int) ≤ 2 ^ 63 - 1 := by
  unfold playouts
  norm_num

theorem keys_ne_nil {ps : List Int} {m : List (Int × Int)} (hne : ps ≠ [])
    (h : (∀ c ∈ ps, c ∈ mapKeys m) ∨ ∃ p ∈ mapKeys m, mapGet m p = 0) : mapKeys m ≠ [] := by
  rcases h with h | ⟨p, hp, -⟩
  · obtain ⟨c, hc⟩ := List.exists_mem_of_ne_nil ps hne
    exact List.ne_nil_of_mem (h c hc)
  · exact List.ne_nil_of_mem hp

/-- C12: on a valid state, for any rollout randomness, clock behaviour and map
iteration order, `getBestMove` returns; it returns -1 exactly when
`getValidPositions` is empty, and otherwise a position of that list. -/
theorem getBestMove_candidate (r : Reversi) (rayFuel playFuel : Nat) (useHeuristics : Bool)
    (clock : Nat → Bool) (draws : Nat → Nat → Nat) (iter : List (Int × Int) → List (Int × Int))
    (hv : r.Valid) (hrf : 8 ≤ rayFuel) (hpf : 2 * r.empties + 1 ≤ playFuel)
    (hiter : ∀ m, (iter m).Perm m) :
    ∃ ps out, r.getValidPositions rayFuel = .ok ps ∧
      r.getBestMove rayFuel playFuel useHeuristics clock draws iter = .ok out ∧
      (out.bestPos = -1 ↔ ps = []) ∧ (ps ≠ [] → out.bestPos ∈ ps) := by
  obtain ⟨ps, hps, hempty, hrun⟩ := getBestMoveWith_run hv hrf hpf playouts useHeuristics clock
    draws iter
  rcases hrun with ⟨hnil, hout⟩ | ⟨hne, s, hout, hinv, hall, -⟩
  · exact ⟨ps, _, hps, hout, by simp [hnil], fun h => absurd hnil h⟩
  · obtain ⟨-, -, -, -, -, -, hk, -, -⟩ := pickBest_max hinv playouts_bound (keys_ne_nil hne hall)
      hiter
    have hin := hinv.2.1 _ hk
    refine ⟨ps, _, hps, hout, ?_, fun _ => hin⟩
    simp only [hne, iff_false]
    intro h
    have := (readCell_range hv.1 (hempty _ hin)).1
    omega

theorem getBestMove_candidate_witness :
    NewGame.Valid ∧ 8 ≤ 8 ∧ 2 * NewGame.empties + 1 ≤ 121 ∧
      (∀ m : List (Int × Int), (List.reverse m).Perm m) ∧
      ∃ ps out, NewGame.getValidPositions 8 = .ok ps ∧
        NewGame.getBestMove 8 121 true (fun k => decide (3 ≤ k)) (fun k n => k + n)
          List.reverse = .ok out ∧
        (out.bestPos = -1 ↔ ps = []) ∧ (ps ≠ [] → out.bestPos ∈ ps) := by
  have hv : NewGame.Valid := by decide
  have hf : 2 * NewGame.empties + 1 ≤ 121 := by decide
  exact ⟨hv, le_refl 8, hf, fun m => List.reverse_perm m,
    getBestMove_candidate NewGame 8 121 true (fun k => decide (3 ≤ k)) (fun k n => k + n)
      List.reverse hv (le_refl 8) hf (fun m => List.reverse_perm m)⟩

/-- C13: on a valid state with a legal position, for any map iteration order
and any clock behaviour (so also when the time limit cuts the search short),
`getBestMove` returns a position that is a legal candidate and a key of the
score map, and the score of that position is at least the score of every legal
candidate and of every key of the map; the score of a position is the value the
map holds for it, 0 when it has no entry, which is the sum of the weights of its
rollouts. -/
theorem getBestMove_max_score (r : Reversi) (rayFuel playFuel : Nat) (useHeuristics : Bool)
    (clock : Nat → Bool) (draws : Nat → Nat → Nat) (iter : List (Int × Int) → List (Int × Int))
    (hv : r.Valid) (hrf : 8 ≤ rayFuel) (hpf : 2 * r.empties + 1 ≤ playFuel)
    (hiter : ∀ m, (iter m).Perm m) :
    ∃ ps out, r.getValidPositions rayFuel = .ok ps ∧
      r.getBestMove rayFuel playFuel useHeuristics clock draws iter = .ok out ∧
      (∀ p, mapGet out.search.scores p = tally r.turn out.search.rollouts p) ∧
      (ps ≠ [] →
        out.bestPos ∈ ps ∧ out.bestPos ∈ mapKeys out.search.scores ∧
        (∀ c ∈ ps, mapGet out.search.scores c ≤ mapGet out.search.scores out.bestPos) ∧
        ∀ k ∈ mapKeys out.search.scores,
          mapGet out.search.scores k ≤ mapGet out.search.scores out.bestPos) := by
  obtain ⟨ps, hps, hempty, hrun⟩ := getBestMoveWith_run hv hrf hpf playouts useHeuristics clock
    draws iter
  rcases hrun with ⟨hnil, hout⟩ | ⟨hne, s, hout, hinv, hall, -⟩
  · exact ⟨ps, _, hps, hout, fun p => by simp [mapGet, tally], fun h => absurd hnil h⟩
  · obtain ⟨-, -, sc, -, -, -, hk, hg, hmax⟩ := pickBest_max hinv playouts_bound
      (keys_ne_nil hne hall) hiter
    refine ⟨ps, _, hps, hout, hinv.2.2.1, fun _ => ⟨hinv.2.1 _ hk, hk, fun c hc => ?_,
      fun k hkm => ?_⟩⟩
    · simp only
      rw [hg]
      by_cases hck : c ∈ mapKeys s.scores
      · exact hmax c hck
      · rw [mapGet_absent hck]
        rcases hall with hall | ⟨p, hp, hp0⟩
        · exact absurd (hall c hc) hck
        · rw [← hp0]; exact hmax p hp
    · simp only
      rw [hg]
      exact hmax k hkm

theorem getBestMove_max_score_witness :
    NewGame.Valid ∧ 8 ≤ 8 ∧ 2 * NewGame.empties + 1 ≤ 121 ∧
      (∀ m : List (Int × Int), (List.reverse m).Perm m) ∧
      ∃ ps out, NewGame.getValidPositions 8 = .ok ps ∧
        NewGame.getBestMove 8 121 false (fun k => decide (2 ≤ k)) (fun k n => 3 * k + n)
          List.reverse = .ok out ∧
        (∀ p, mapGet out.search.scores p = tally NewGame.turn out.search.rollouts p) ∧
        (ps ≠ [] →
          out.bestPos ∈ ps ∧ out.bestPos ∈ mapKeys out.search.scores ∧
          (∀ c ∈ ps, mapGet out.search.scores c ≤ mapGet out.search.scores out.bestPos) ∧
          ∀ k ∈ mapKeys out.search.scores,
            mapGet out.search.scores k ≤ mapGet out.search.scores out.bestPos) := by
  have hv : NewGame.Valid := by decide
  have hf : 2 * NewGame.empties + 1 ≤ 121 := by decide
  exact ⟨hv, le_refl 8, hf, fun m => List.reverse_perm m,
    getBestMove_max_score NewGame 8 121 false (fun k => decide (2 ≤ k)) (fun k n => 3 * k + n)
      List.reverse hv (le_refl 8) hf (fun m => List.reverse_perm m)⟩

/-- C14, counterexample: on the opening state with the time limit reached at the
first reading of the clock, the candidates 20 and 29 both have the largest
score, 0; iterating over the map in the order 20, 29 makes `getBestMove` return
29, not the lowest index 20, and iterating in the order 29, 20 makes it return
20: the answer is not a function of the scores. -/
theorem getBestMove_tie_counterexample :
    (∃ out, NewGame.getBestMove 8 121 true (fun _ => true) (fun _ _ => 0) id = .ok out ∧
      out.search.scores = [(20, 0), (29, 0)] ∧ id out.search.scores = [(20, 0), (29, 0)] ∧
      out.bestPos = 29) ∧
    (∃ out, NewGame.getBestMove 8 121 true (fun _ => true) (fun _ _ => 0) List.reverse = .ok out ∧
      out.search.scores = [(20, 0), (29, 0)] ∧
      List.reverse out.search.scores = [(29, 0), (20, 0)] ∧ out.bestPos = 20) := by
  constructor
  · exact ⟨⟨29, NewGame, some 1, ⟨[(20, 0), (29, 0)], 1, true, []⟩⟩, by decide, rfl, rfl, rfl⟩
  · exact ⟨⟨20, NewGame, some 1, ⟨[(20, 0), (29, 0)], 1, true, []⟩⟩, by decide, rfl, rfl, rfl⟩

/-- C14, amended: on a valid state with a legal position, `getBestMove` returns
the key of the last entry, in the order of the map iteration, among the entries
with the largest score: every entry before it has a score that is not larger,
every entry after it a score that is smaller. -/
theorem getBestMove_tie_last (r : Reversi) (rayFuel playFuel : Nat) (useHeuristics : Bool)
    (clock : Nat → Bool) (draws : Nat → Nat → Nat) (iter : List (Int × Int) → List (Int × Int))
    (hv : r.Valid) (hrf : 8 ≤ rayFuel) (hpf : 2 * r.empties + 1 ≤ playFuel)
    (hiter : ∀ m, (iter m).Perm m) :
    ∃ ps out, r.getValidPositions rayFuel = .ok ps ∧
      r.getBestMove rayFuel playFuel useHeuristics clock draws iter = .ok out ∧
      (ps ≠ [] → ∃ pre post sc,
        iter out.search.scores = pre ++ (out.bestPos, sc) :: post ∧
        (∀ e ∈ pre, e.2 ≤ sc) ∧ (∀ e ∈ post, e.2 < sc)) := by
  obtain ⟨ps, hps, hempty, hrun⟩ := getBestMoveWith_run hv hrf hpf playouts useHeuristics clock
    draws iter
  rcases hrun with ⟨hnil, hout⟩ | ⟨hne, s, hout, hinv, hall, -⟩
  · exact ⟨ps, _, hps, hout, fun h => absurd hnil h⟩
  · obtain ⟨pre, post, sc, hl, hpre, hpost, -, -, -⟩ := pickBest_max hinv playouts_bound
      (keys_ne_nil hne hall) hiter
    exact ⟨ps, _, hps, hout, fun _ => ⟨pre, post, sc, hl, hpre, hpost⟩⟩

theorem getBestMove_tie_last_witness :
    NewGame.Valid ∧ 8 ≤ 8 ∧ 2 * NewGame.empties + 1 ≤ 121 ∧
      (∀ m : List (Int × Int), (List.reverse m).Perm m) ∧
      ∃ ps out, NewGame.getValidPositions 8 = .ok ps ∧
        NewGame.getBestMove 8 121 true (fun _ => true) (fun _ _ => 0) List.reverse = .ok out ∧
        (ps ≠ [] → ∃ pre post sc,
          List.reverse out.search.scores = pre ++ (out.bestPos, sc) :: post ∧
          (∀ e ∈ pre, e.2 ≤ sc) ∧ (∀ e ∈ post, e.2 < sc)) := by
  have hv : NewGame.Valid := by decide
  have hf : 2 * NewGame.empties + 1 ≤ 121 := by decide
  exact ⟨hv, le_refl 8, hf, fun m => List.reverse_perm m,
    getBestMove_tie_last NewGame 8 121 true (fun _ => true) (fun _ _ => 0)
      List.reverse hv (le_refl 8) hf (fun m => List.reverse_perm m)⟩

/-- C15: on a valid state `getBestMove` returns, every recorded rollout gave
-1, 0 or 1, and the score the map holds for a candidate is `2 * w - 10 * l + d`,
where `w`, `l` and `d` count its rollouts that gave the mover's color `r.turn`,
the opponent's color `-r.turn`, and the tie 0; these are all its rollouts, at
most 500, so the score lies between `-10 * 500` and `2 * 500`. -/
theorem getBestMove_score_formula (r : Reversi) (rayFuel playFuel : Nat)
    (useHeuristics : Bool) (clock : Nat → Bool) (draws : Nat → Nat → Nat)
    (iter : List (Int × Int) → List (Int × Int))
    (hv : r.Valid) (hrf : 8 ≤ rayFuel) (hpf : 2 * r.empties + 1 ≤ playFuel) :
    ∃ out, r.getBestMove rayFuel playFuel useHeuristics clock draws iter = .ok out ∧
      (∀ e ∈ out.search.rollouts, e.2 = -1 ∨ e.2 = 0 ∨ e.2 = 1) ∧
      ∀ pos sc, (pos, sc) ∈ out.search.scores →
        sc = 2 * (out.search.rollouts.count (pos, r.turn) : Int)
          - 10 * (out.search.rollouts.count (pos, -r.turn) : Int)
          + (out.search.rollouts.count (pos, 0) : Int) ∧
        out.search.rollouts.count (pos, r.turn) + out.search.rollouts.count (pos, -r.turn)
          + out.search.rollouts.count (pos, 0) = rolloutCount out.search.rollouts pos ∧
        rolloutCount out.search.rollouts pos ≤ 500 ∧
        -10 * 500 ≤ sc ∧ sc ≤ 2 * 500 := by
  obtain ⟨ps, hps, hempty, hrun⟩ := getBestMoveWith_run hv hrf hpf playouts useHeuristics clock
    draws iter
  rcases hrun with ⟨hnil, hout⟩ | ⟨hne, s, hout, hinv, hall, -⟩
  · exact ⟨_, hout, by simp, by simp⟩
  · obtain ⟨hnd, hks, htal, hcnt, hroll⟩ := hinv
    have hres : ∀ e ∈ s.rollouts, e.2 = -1 ∨ e.2 = 0 ∨ e.2 = 1 := fun e he => (hroll e he).2.1
    refine ⟨_, hout, hres, fun pos sc hm => ?_⟩
    simp only at hm ⊢
    have hsc := ((mem_scores_iff hnd pos sc).1 hm).2
    obtain ⟨hf1, hf2⟩ := tally_formula hv.2.2 s.rollouts hres pos
    have hc : rolloutCount s.rollouts pos ≤ 500 := hcnt pos
    rw [← hsc, htal pos, hf1]
    refine ⟨rfl, hf2.symm, hc, ?_, ?_⟩ <;> omega

theorem getBestMove_score_formula_witness :
    NewGame.Valid ∧ 8 ≤ 8 ∧ 2 * NewGame.empties + 1 ≤ 121 ∧
      ∃ out, NewGame.getBestMove 8 121 true (fun k => decide (2 ≤ k)) (fun k n => k + n) id
          = .ok out ∧
        (∀ e ∈ out.search.rollouts, e.2 = -1 ∨ e.2 = 0 ∨ e.2 = 1) ∧
        ∀ pos sc, (pos, sc) ∈ out.search.scores →
          sc = 2 * (out.search.rollouts.count (pos, NewGame.turn) : Int)
            - 10 * (out.search.rollouts.count (pos, -NewGame.turn) : Int)
            + (out.search.rollouts.count (pos, 0) : Int) ∧
          out.search.rollouts.count (pos, NewGame.turn)
            + out.search.rollouts.count (pos, -NewGame.turn)
            + out.search.rollouts.count (pos, 0) = rolloutCount out.search.rollouts pos ∧
          rolloutCount out.search.rollouts pos ≤ 500 ∧
          -10 * 500 ≤ sc ∧ sc ≤ 2 * 500 := by
  have hv : NewGame.Valid := by decide
  have hf : 2 * NewGame.empties + 1 ≤ 121 := by decide
  exact ⟨hv, le_refl 8, hf,
    getBestMove_score_formula NewGame 8 121 true (fun k => decide (2 ≤ k)) (fun k n => k + n) id
      hv (le_refl 8) hf⟩

/-- Whenever the search returns, on any state, the receiver is as it was. -/
theorem getBestMoveWith_receiver (r : Reversi) (budget rayFuel playFuel : Nat)
    (useHeuristics : Bool) (clock : Nat → Bool) (draws : Nat → Nat → Nat)
    (iter : List (Int × Int) → List (Int × Int)) (out : BestMove)
    (h : r.getBestMoveWith budget rayFuel playFuel useHeuristics clock draws iter = .ok out) :
    out.receiver = r := by
  unfold Reversi.getBestMoveWith at h
  simp only at h
  cases hp : r.getValidPositions rayFuel with
  | fault => rw [hp] at h; simp [Res.bind] at h
  | outOfFuel => rw [hp] at h; simp [Res.bind] at h
  | ok ps =>
    rw [hp, Res.bind_ok] at h
    by_cases hnil : ps = []
    · rw [if_pos hnil] at h
      simp only [Res.ok.injEq] at h
      rw [← h]
    · rw [if_neg hnil] at h
      cases hc : r.candidateLoop budget rayFuel playFuel useHeuristics clock draws ps
          ⟨[], 0, false, []⟩ with
      | fault => rw [hc] at h; simp [Res.bind] at h
      | outOfFuel => rw [hc] at h; simp [Res.bind] at h
      | ok s =>
        rw [hc, Res.bind_ok] at h
        simp only [Res.ok.injEq] at h
        rw [← h]

/-- C18: on a valid state, with a clock that never reports the limit, the search
with `n` rollouts per candidate returns and has run exactly `n` rollouts for
every legal candidate (and none for any other position); so with `n ≤ n'` no
position has fewer rollouts under the budget `n'` than under `n`. -/
theorem getBestMoveWith_budget (r : Reversi) (n n' rayFuel playFuel : Nat)
    (useHeuristics : Bool) (draws : Nat → Nat → Nat)
    (iter : List (Int × Int) → List (Int × Int))
    (hv : r.Valid) (hrf : 8 ≤ rayFuel) (hpf : 2 * r.empties + 1 ≤ playFuel) (hle : n ≤ n') :
    ∃ ps out out', r.getValidPositions rayFuel = .ok ps ∧
      r.getBestMoveWith n rayFuel playFuel useHeuristics (fun _ => false) draws iter = .ok out ∧
      r.getBestMoveWith n' rayFuel playFuel useHeuristics (fun _ => false) draws iter
        = .ok out' ∧
      (∀ c ∈ ps, rolloutCount out.search.rollouts c = n ∧
        rolloutCount out'.search.rollouts c = n') ∧
      (∀ c, c ∉ ps → rolloutCount out.search.rollouts c = 0 ∧
        rolloutCount out'.search.rollouts c = 0) ∧
      ∀ c, rolloutCount out.search.rollouts c ≤ rolloutCount out'.search.rollouts c := by
  obtain ⟨ps, hps, -, hrun⟩ := getBestMoveWith_run hv hrf hpf n useHeuristics (fun _ => false)
    draws iter
  obtain ⟨ps', hps', -, hrun'⟩ := getBestMoveWith_run hv hrf hpf n' useHeuristics
    (fun _ => false) draws iter
  rw [hps] at hps'
  simp only [Res.ok.injEq] at hps'
  subst hps'
  have hcount : ∃ out, r.getBestMoveWith n rayFuel playFuel useHeuristics (fun _ => false)
      draws iter = .ok out ∧
      ∀ p, rolloutCount out.search.rollouts p = if p ∈ ps then n else 0 := by
    rcases hrun with ⟨hnil, hout⟩ | ⟨hne, s, hout, -, -, hno⟩
    · exact ⟨_, hout, fun p => by simp [rolloutCount, hnil]⟩
    · exact ⟨_, hout, hno (fun _ => rfl)⟩
  have hcount' : ∃ out, r.getBestMoveWith n' rayFuel playFuel useHeuristics (fun _ => false)
      draws iter = .ok out ∧
      ∀ p, rolloutCount out.search.rollouts p = if p ∈ ps then n' else 0 := by
    rcases hrun' with ⟨hnil, hout⟩ | ⟨hne, s, hout, -, -, hno⟩
    · exact ⟨_, hout, fun p => by simp [rolloutCount, hnil]⟩
    · exact ⟨_, hout, hno (fun _ => rfl)⟩
  obtain ⟨out, hout, hc⟩ := hcount
  obtain ⟨out', hout', hc'⟩ := hcount'
  refine ⟨ps, out, out', hps, hout, hout', fun c hcm => ?_, fun c hcm => ?_, fun c => ?_⟩
  · rw [hc c, hc' c]; simp [hcm]
  · rw [hc c, hc' c]; simp [hcm]
  · rw [hc c, hc' c]
    by_cases hcm : c ∈ ps <;> simp [hcm, hle]

theorem getBestMoveWith_budget_witness :
    NewGame.Valid ∧ 8 ≤ 8 ∧ 2 * NewGame.empties + 1 ≤ 121 ∧ 2 ≤ 500 ∧
    ∃ ps out out', NewGame.getValidPositions 8 = .ok ps ∧
      NewGame.getBestMoveWith 2 8 121 true (fun _ => false) (fun k n => k + n) id = .ok out ∧
      NewGame.getBestMoveWith 500 8 121 true (fun _ => false) (fun k n => k + n) id
        = .ok out' ∧
      (∀ c ∈ ps, rolloutCount out.search.rollouts c = 2 ∧
        rolloutCount out'.search.rollouts c = 500) ∧
      (∀ c, c ∉ ps → rolloutCount out.search.rollouts c = 0 ∧
        rolloutCount out'.search.rollouts c = 0) ∧
      ∀ c, rolloutCount out.search.rollouts c ≤ rolloutCount out'.search.rollouts c := by
  have hv : NewGame.Valid := by decide
  have hf : 2 * NewGame.empties + 1 ≤ 121 := by decide
  exact ⟨hv, le_refl 8, hf, by decide,
    getBestMoveWith_budget NewGame 2 500 8 121 true (fun k n => k + n) id
      hv (le_refl 8) hf (by decide)⟩

theorem getListAvg_nil (rnd : ℚ → F64) : getListAvg rnd [] = F64.nan := by
  simp [getListAvg, F64.div]

/-- C19, counterexample: with no search recorded, both averages are the
not-a-number value that `0 / 0` gives. -/
theorem getListAvg_empty_counterexample :
    getListAvg F64.fin [] = F64.nan ∧
      (⟨[], []⟩ : Metrics).getAvgPlayOutsPerSecond F64.fin = F64.nan ∧
      (⟨[], []⟩ : Metrics).getAvgMctTime F64.fin = F64.nan := by
  refine ⟨getListAvg_nil _, ?_, ?_⟩
  · exact getListAvg_nil _
  · exact getListAvg_nil _

/-- C19, amended: when no search has been recorded, `getAvgPlayOutsPerSecond`
and `getAvgMctTime` return what `getListAvg` gives for the empty list, the sum 0
divided by the length 0, which is the not-a-number value. -/
theorem getListAvg_empty (rnd : ℚ → F64) (r : Metrics) (h1 : r.playOutsPerSecond = [])
    (h2 : r.mctTime = []) :
    r.getAvgPlayOutsPerSecond rnd = F64.nan ∧ r.getAvgMctTime rnd = F64.nan ∧
      getListAvg rnd [] = F64.div rnd (F64.fin 0) (F64.fin 0) := by
  refine ⟨?_, ?_, ?_⟩
  · unfold Metrics.getAvgPlayOutsPerSecond
    rw [h1]; exact getListAvg_nil rnd
  · unfold Metrics.getAvgMctTime
    rw [h2]; exact getListAvg_nil rnd
  · simp [getListAvg]

theorem getListAvg_empty_witness :
    (⟨[], []⟩ : Metrics).playOutsPerSecond = [] ∧ (⟨[], []⟩ : Metrics).mctTime = [] ∧
      (⟨[], []⟩ : Metrics).getAvgPlayOutsPerSecond F64.fin = F64.nan ∧
      (⟨[], []⟩ : Metrics).getAvgMctTime F64.fin = F64.nan :=
  ⟨rfl, rfl, (getListAvg_empty F64.fin ⟨[], []⟩ rfl rfl).1,
    (getListAvg_empty F64.fin ⟨[], []⟩ rfl rfl).2.1⟩

theorem getHeuristicPos_eq_firstTier (positions : List Int) (draw : Nat) :
    getHeuristicPos positions draw = getRandPos (firstTier positions) draw := by
  have e : positions.filter
      (fun pos => decide (pos ∉ badPositions) && decide (pos ∉ worstPositions)) =
      positions.filter (fun p => decide (p ∉ badPositions ∧ p ∉ worstPositions)) := by
    apply List.filter_congr
    intro x _
    simp
  unfold getHeuristicPos firstTier
  simp only [e]
  split
  · rfl
  · split
    · rfl
    · split <;> rfl

/-- Every element of a list is what `getRandPos` returns for some draw. -/
theorem getRandPos_onto {positions : List Int} {p : Int} (hp : p ∈ positions) :
    ∃ draw, getRandPos positions draw = .ok p := by
  obtain ⟨i, hi, rfl⟩ := List.getElem_of_mem hp
  refine ⟨i, ?_⟩
  have hpos : ¬ ((positions.length : Int) - 0 ≤ 0) := by omega
  have hmod : (i : Int) % ((positions.length : Int) - 0) + 0 = (i : Int) := by
    rw [Int.emod_eq_of_lt (by omega) (by omega)]
    omega
  unfold getRandPos getRandInt
  simp only [hpos, if_false, Res.bind_ok, hmod, readCell_natCast, List.getElem?_eq_getElem hi]

theorem firstTier_subset (positions : List Int) {p : Int} (hp : p ∈ firstTier positions) :
    p ∈ positions := by
  unfold firstTier at hp
  simp only at hp
  split at hp
  · exact (List.mem_filter.1 hp).1
  · split at hp
    · exact (List.mem_filter.1 hp).1
    · split at hp
      · exact (List.mem_filter.1 hp).1
      · exact hp

theorem firstTier_ne_nil {positions : List Int} (hne : positions ≠ []) :
    firstTier positions ≠ [] := by
  unfold firstTier
  simp only
  split
  · assumption
  · split
    · assumption
    · split
      · assumption
      · exact hne

/-- C21: for a non-empty list of positions, `getHeuristicPos` returns for every
draw an element of the first non-empty tier (corners; then positions in neither
`badPositions` nor `worstPositions`; then positions in `badPositions`; then all
positions), which is an element of the list; every element of that tier is
returned for some draw; and when the first three tiers are empty, all positions
are in `worstPositions`. -/
theorem getHeuristicPos_tier (positions : List Int) (hne : positions ≠ []) :
    (∀ draw, ∃ p, getHeuristicPos positions draw = .ok p ∧ p ∈ firstTier positions ∧
      p ∈ positions) ∧
    (∀ p ∈ firstTier positions, ∃ draw, getHeuristicPos positions draw = .ok p) ∧
    (positions.filter (fun p => decide (p ∈ corners)) = [] →
      positions.filter (fun p => decide (p ∉ badPositions ∧ p ∉ worstPositions)) = [] →
      positions.filter (fun p => decide (p ∈ badPositions)) = [] →
      firstTier positions = positions ∧ ∀ p ∈ positions, p ∈ worstPositions) := by
  refine ⟨fun draw => ?_, fun p hp => ?_, fun h1 h2 h3 => ⟨?_, fun p hp => ?_⟩⟩
  · obtain ⟨p, hp, hm⟩ := getRandPos_mem (firstTier_ne_nil hne) draw
    exact ⟨p, by rw [getHeuristicPos_eq_firstTier]; exact hp, hm, firstTier_subset _ hm⟩
  · obtain ⟨draw, hd⟩ := getRandPos_onto hp
    exact ⟨draw, by rw [getHeuristicPos_eq_firstTier]; exact hd⟩
  · simp only [firstTier, h1, h2, h3, ne_eq, not_true_eq_false, if_false]
  · have h2' := List.filter_eq_nil_iff.1 h2 p hp
    have h3' := List.filter_eq_nil_iff.1 h3 p hp
    simp only [decide_eq_true_eq, not_and, not_not] at h2' h3'
    exact h2' h3'

theorem getHeuristicPos_tier_witness :
    ([9, 20, 1, 14, 37] : List Int) ≠ [] ∧
    firstTier [9, 20, 1, 14, 37] = [20, 37] ∧
    (∀ draw, ∃ p, getHeuristicPos [9, 20, 1, 14, 37] draw = .ok p ∧
      p ∈ firstTier [9, 20, 1, 14, 37] ∧ p ∈ ([9, 20, 1, 14, 37] : List Int)) ∧
    (∀ p ∈ firstTier [9, 20, 1, 14, 37], ∃ draw,
      getHeuristicPos [9, 20, 1, 14, 37] draw = .ok p) :=
  ⟨by decide, by decide, (getHeuristicPos_tier [9, 20, 1, 14, 37] (by decide)).1,
    (getHeuristicPos_tier [9, 20, 1, 14, 37] (by decide)).2.1⟩

/-- Some compass direction holds a sandwich exactly when some cell is captured. -/
theorem sandwich_iff_captured (r : Reversi) (pos : Int) :
    (∃ d ∈ compass, ∃ k, r.Sandwich pos d.1 d.2 k) ↔ ∃ q, r.Captured pos q := by
  constructor
  · rintro ⟨d, hd, k, hk⟩
    exact ⟨8 * (pos / 8 + (1 : Nat) * d.1) + (pos % 8 + (1 : Nat) * d.2), d, hd, k, hk, 1,
      le_refl 1, hk.1, rfl⟩
  · rintro ⟨q, d, hd, k, hk, -⟩
    exact ⟨d, hd, k, hk⟩

/-- The answer of `isValidPosition` at an empty cell of a valid state says
whether some cell is captured. -/
theorem isValidPosition_captured {r : Reversi} (hv : r.Valid) {fuel : Nat} (hf : 8 ≤ fuel)
    {pos : Int} (h0 : 0 ≤ pos) (h1 : pos < 64) (he : readCell r.board pos = some 0) :
    ∃ b, r.isValidPosition fuel pos = .ok b ∧ (b = true ↔ ∃ q, r.Captured pos q) := by
  obtain ⟨b, hb, hrays⟩ := isValidPosition_rays hv hf h0 h1
  refine ⟨b, hb, ?_⟩
  rw [hrays, ← sandwich_iff_captured]
  simp only [he, true_and, compass, List.mem_cons, List.mem_singleton, List.not_mem_nil,
    or_false, exists_eq_or_imp, exists_eq_left]

/-- C23: on a valid state and for an empty cell `pos` in 0..63, `setChip` and
`isValidPosition` both return (with fuel 8 or more); `setChip` puts the mover's
color at `pos`; some cell that held the opponent's color holds the mover's color
afterwards exactly when `isValidPosition` answers true; and when it answers
false, the state `setChip` returns is the old one with cell `pos` alone
changed. -/
theorem setChip_flips_iff_valid (r : Reversi) (fuel : Nat) (pos : Int) (hv : r.Valid)
    (hf : 8 ≤ fuel) (h0 : 0 ≤ pos) (h1 : pos < 64) (he : readCell r.board pos = some 0) :
    ∃ r' b, r.setChip fuel pos = .ok r' ∧ r.isValidPosition fuel pos = .ok b ∧
      readCell r'.board pos = some r.turn ∧
      (b = true ↔
        ∃ q, readCell r.board q = some (-r.turn) ∧ readCell r'.board q = some r.turn) ∧
      (b = false → r' = { r with board := r.board.set pos.toNat r.turn }) := by
  obtain ⟨s, hs, heq, hlen, hq⟩ := setChip_flipInv hv hf h0 h1 he
  obtain ⟨b, hb, hcap⟩ := isValidPosition_captured hv hf h0 h1 he
  have ht : r.turn = 1 ∨ r.turn = -1 := hv.2.2
  refine ⟨s, b, hs, hb, (hq pos).1 rfl, ?_, fun hfalse => ?_⟩
  · rw [hcap]
    constructor
    · rintro ⟨q, hc⟩
      obtain ⟨d, -, hd⟩ := id hc
      exact ⟨q, capturedDir_cell hd, (hq q).2.1 ((captured_iff_mem r pos q).2 hc)⟩
    · rintro ⟨q, hold, hnew⟩
      refine ⟨q, ?_⟩
      by_contra hno
      have hp : q ≠ pos := by
        intro hp
        rw [hp, he] at hold
        simp only [Option.some.injEq] at hold
        omega
      have := (hq q).2.2 hp (fun h => hno ((captured_iff_mem r pos q).1 h))
      rw [hnew, hold] at this
      simp only [Option.some.injEq] at this
      omega
  · have hno : ∀ q, ¬ r.Captured pos q := by
      intro q hc
      have := hcap.2 ⟨q, hc⟩
      rw [hfalse] at this
      exact absurd this (by decide)
    rw [heq]
    congr 1
    apply board_ext
    intro q
    rw [readCell_set hv.1 h0 h1]
    by_cases hp : q = pos
    · rw [if_pos hp]; exact (hq q).1 hp
    · rw [if_neg hp]
      exact (hq q).2.2 hp (fun h => hno q ((captured_iff_mem r pos q).1 h))

theorem setChip_flips_iff_valid_witness :
    NewGame.Valid ∧ readCell NewGame.board 0 = some 0 ∧
      NewGame.isValidPosition 8 0 = .ok false ∧
      ∃ r' b, NewGame.setChip 8 0 = .ok r' ∧ NewGame.isValidPosition 8 0 = .ok b ∧
        readCell r'.board 0 = some NewGame.turn ∧
        (b = true ↔ ∃ q, readCell NewGame.board q = some (-NewGame.turn) ∧
          readCell r'.board q = some NewGame.turn) ∧
        (b = false →
          r' = { NewGame with board := NewGame.board.set (0 : Int).toNat NewGame.turn }) := by
  have hv : NewGame.Valid := by decide
  exact ⟨hv, by decide, by decide,
    setChip_flips_iff_valid NewGame 8 0 hv (le_refl 8) (by decide) (by decide) (by decide)⟩


theorem readCell_map_neg (board : List Int) (i : Int) :
    readCell (board.map (fun c => -c)) i = (readCell board i).map (fun c => -c) := by
  unfold readCell
  split
  · simp [List.getElem?_map]
  · rfl

theorem writeCell_map_neg (board : List Int) (i v : Int) :
    writeCell (board.map (fun c => -c)) i (-v) =
      (writeCell board i v).map (List.map (fun c => -c)) := by
  unfold writeCell
  simp only [List.length_map]
  split
  · simp [List.map_set]
  · rfl

theorem checkDirectionLoop_neg (r : Reversi) (dir : Int) (lim : Int → Int → Bool)
    (fuel : Nat) (currPos : Int) (found : Bool) :
    r.neg.checkDirectionLoop dir lim fuel currPos found =
      r.checkDirectionLoop dir lim fuel currPos found := by
  induction fuel generalizing currPos found with
  | zero => rfl
  | succ n ih =>
    unfold Reversi.checkDirectionLoop
    by_cases hl : lim currPos dir = true
    · simp only [hl, if_true]
      have hb : r.neg.board = r.board.map (fun c => -c) := rfl
      have ht : r.neg.turn = -r.turn := rfl
      rw [hb, readCell_map_neg, ht]
      cases readCell r.board (currPos + dir) with
      | none => rfl
      | some c =>
        simp only [Option.map_some', mul_neg, mul_one, neg_neg, neg_inj, neg_eq_zero,
          neg_eq_iff_eq_neg, neg_zero, ih]
    · simp only [hl]
      rfl

theorem flipScanLoop_neg (r : Reversi) (dir : Int) (lim : Int → Int → Bool)
    (fuel : Nat) (currPos : Int) (found : Bool) :
    r.neg.flipScanLoop dir lim fuel currPos found =
      r.flipScanLoop dir lim fuel currPos found := by
  induction fuel generalizing currPos found with
  | zero => rfl
  | succ n ih =>
    unfold Reversi.flipScanLoop
    by_cases hl : lim currPos dir = true
    · simp only [hl, if_true]
      have hb : r.neg.board = r.board.map (fun c => -c) := rfl
      have ht : r.neg.turn = -r.turn := rfl
      rw [hb, readCell_map_neg, ht]
      cases readCell r.board (currPos + dir) with
      | none => rfl
      | some c =>
        simp only [Option.map_some', mul_neg, mul_one, neg_neg, neg_inj, neg_eq_zero,
          neg_eq_iff_eq_neg, neg_zero, ih]
    · simp only [hl]
      rfl

theorem flipLoop_neg (turn dir : Int) (lim : Int → Int → Bool) (fuel : Nat)
    (board : List Int) (currPos : Int) :
    Reversi.flipLoop (-turn) dir lim fuel (board.map (fun c => -c)) currPos =
      (Reversi.flipLoop turn dir lim fuel board currPos).bind
        (fun b => .ok (b.map (fun c => -c))) := by
  induction fuel generalizing board currPos with
  | zero => rfl
  | succ n ih =>
    unfold Reversi.flipLoop
    by_cases hl : lim currPos dir = true
    · simp only [hl, if_true]
      rw [readCell_map_neg]
      cases hc : readCell board (currPos + dir) with
      | none => rfl
      | some c =>
        simp only [Option.map_some', mul_neg, mul_one, neg_neg, neg_inj, neg_eq_zero,
          neg_eq_iff_eq_neg, neg_zero]
        by_cases h1 : c = -turn
        · rw [if_pos h1, if_pos h1, writeCell_map_neg]
          cases writeCell board (currPos + dir) turn with
          | none => rfl
          | some b => simp only [Option.map_some', ih]
        · rw [if_neg h1, if_neg h1]
          by_cases h2 : c = turn ∨ c = 0
          · rw [if_pos h2, if_pos h2]
            rfl
          · rw [if_neg h2, if_neg h2, ih]
    · simp only [hl]
      rfl

theorem flipDirection_neg (r : Reversi) (fuel : Nat) (pos dir : Int)
    (lim : Int → Int → Bool) :
    r.neg.flipDirection fuel pos dir lim =
      (r.flipDirection fuel pos dir lim).bind (fun p => .ok (p.1.neg, p.2)) := by
  unfold Reversi.flipDirection
  rw [flipScanLoop_neg]
  cases r.flipScanLoop dir lim fuel pos false with
  | fault => rfl
  | outOfFuel => rfl
  | ok e =>
    cases e with
    | returned v => rfl
    | done pf =>
      cases pf with
      | false => rfl
      | true =>
        simp only [if_true]
        have hb : r.neg.board = r.board.map (fun c => -c) := rfl
        have ht : r.neg.turn = -r.turn := rfl
        rw [hb, ht, flipLoop_neg]
        cases Reversi.flipLoop r.turn dir lim fuel r.board pos with
        | fault => rfl
        | outOfFuel => rfl
        | ok b => rfl

theorem thenFlip_neg (s : Res Reversi) (fuel : Nat) (pos dir : Int) (lim : Int → Int → Bool) :
    Reversi.thenFlip (s.bind (fun x => .ok x.neg)) fuel pos dir lim =
      (Reversi.thenFlip s fuel pos dir lim).bind (fun x => .ok x.neg) := by
  cases s with
  | fault => rfl
  | outOfFuel => rfl
  | ok x =>
    simp only [Res.bind, Reversi.thenFlip]
    rw [flipDirection_neg]
    cases x.flipDirection fuel pos dir lim with
    | fault => rfl
    | outOfFuel => rfl
    | ok p => rfl

theorem isValidPosition_neg (r : Reversi) (fuel : Nat) (pos : Int) :
    r.neg.isValidPosition fuel pos = r.isValidPosition fuel pos := by
  unfold Reversi.isValidPosition Reversi.checkDirection
  simp only [checkDirectionLoop_neg]
  have hb : r.neg.board = r.board.map (fun c => -c) := rfl
  rw [hb, readCell_map_neg]
  cases readCell r.board pos with
  | none => rfl
  | some c => simp only [Option.map_some', neg_eq_zero]

theorem getValidPositionsLoop_neg (r : Reversi) (fuel : Nat) (l : List Nat)
    (positions : List Int) :
    r.neg.getValidPositionsLoop fuel l positions = r.getValidPositionsLoop fuel l positions := by
  induction l generalizing positions with
  | nil => rfl
  | cons p rest ih =>
    unfold Reversi.getValidPositionsLoop
    rw [isValidPosition_neg]
    simp only [ih]

theorem getValidPositions_neg (r : Reversi) (fuel : Nat) :
    r.neg.getValidPositions fuel = r.getValidPositions fuel := by
  unfold Reversi.getValidPositions
  rw [getValidPositionsLoop_neg]
  simp [Reversi.neg]

theorem setChip_neg (r : Reversi) (fuel : Nat) (pos : Int) :
    r.neg.setChip fuel pos = (r.setChip fuel pos).bind (fun s => .ok s.neg) := by
  unfold Reversi.setChip
  have hb : r.neg.board = r.board.map (fun c => -c) := rfl
  have ht : r.neg.turn = -r.turn := rfl
  rw [hb, ht, readCell_map_neg]
  cases readCell r.board pos with
  | none => rfl
  | some c =>
    simp only [Option.map_some', neg_eq_zero]
    by_cases hc : c = 0
    · simp only [hc, if_true]
      rw [writeCell_map_neg]
      cases writeCell r.board pos r.turn with
      | none => rfl
      | some b =>
        simp only [Option.map_some']
        have e : (Res.ok (⟨b.map (fun c => -c), -r.turn, r.neg.End⟩ : Reversi)) =
            (Res.ok (⟨b, r.turn, r.End⟩ : Reversi)).bind (fun x => .ok x.neg) := rfl
        rw [e]
        simp only [thenFlip_neg]
    · simp only [hc, if_false]
      rfl

theorem foldl_score_neg (color : Int) (l : List Int) (init : Int) :
    (l.map (fun c => -c)).foldl (fun score elm => if elm = -color then score + 1 else score)
      init = l.foldl (fun score elm => if elm = color then score + 1 else score) init := by
  induction l generalizing init with
  | nil => rfl
  | cons a t ih =>
    simp only [List.map_cons, List.foldl_cons, neg_inj]
    exact ih _

theorem getScore_neg (r : Reversi) (color : Int) :
    r.neg.getScore (-color) = r.getScore color := by
  unfold Reversi.getScore
  exact foldl_score_neg color r.board 0

theorem checkWin_neg (r : Reversi) (forceWin : Bool) :
    (r.checkWin forceWin = 2 → r.neg.checkWin forceWin = 2) ∧
    (r.checkWin forceWin ≠ 2 → r.neg.checkWin forceWin = -r.checkWin forceWin) := by
  have hb : r.neg.getBlueScore = r.getRedScore := by
    unfold Reversi.getBlueScore Reversi.getRedScore
    rw [← getScore_neg r red]
    rfl
  have hr : r.neg.getRedScore = r.getBlueScore := by
    unfold Reversi.getBlueScore Reversi.getRedScore
    rw [← getScore_neg r blue]
    rfl
  unfold Reversi.checkWin
  simp only [hb, hr]
  rw [add_comm r.getRedScore r.getBlueScore]
  by_cases hc : r.getBlueScore + r.getRedScore = maxChips ∨ forceWin = true
  · simp only [hc, if_true]
    unfold determineWinner blue red tie
    constructor
    · intro h
      split_ifs at h <;> omega
    · intro _
      split_ifs <;> omega
  · simp only [hc, if_false]
    simp

theorem neg_valid {r : Reversi} (hv : r.Valid) : r.neg.Valid := by
  obtain ⟨hlen, hcells, ht⟩ := hv
  refine ⟨by simp [Reversi.neg, hlen], fun c hc => ?_, ?_⟩
  · simp only [Reversi.neg, List.mem_map] at hc
    obtain ⟨a, ha, rfl⟩ := hc
    have := hcells a ha
    omega
  · have e : r.neg.turn = -r.turn := rfl
    rw [e]
    omega

/-- C26: the engine treats the two colors alike.  With `r.neg` the state in
which every cell and the turn are negated, and for every state, fuel and
position: `isValidPosition` and `getValidPositions` give the same result on
`r.neg` as on `r`; `setChip` on `r.neg` gives the negated state of what it
gives on `r` (and fails the same way where it fails); `checkWin` on `r.neg` is
the negation of `checkWin` on `r` when that value is not 2, and is 2 when it
is 2; and `r.neg` is a valid state when `r` is one. -/
theorem color_symmetry (r : Reversi) (fuel : Nat) (pos : Int) (forceWin : Bool) :
    r.neg.isValidPosition fuel pos = r.isValidPosition fuel pos ∧
    r.neg.getValidPositions fuel = r.getValidPositions fuel ∧
    r.neg.setChip fuel pos = (r.setChip fuel pos).bind (fun s => .ok s.neg) ∧
    (r.checkWin forceWin ≠ 2 → r.neg.checkWin forceWin = -r.checkWin forceWin) ∧
    (r.checkWin forceWin = 2 → r.neg.checkWin forceWin = 2) ∧
    (r.Valid → r.neg.Valid) := by
  refine ⟨?_, ?_, ?_, ?_, ?_, ?_⟩
  · exact isValidPosition_neg r fuel pos
  · exact getValidPositions_neg r fuel
  · exact setChip_neg r fuel pos
  · exact (checkWin_neg r forceWin).2
  · exact (checkWin_neg r forceWin).1
  · exact neg_valid

theorem color_symmetry_witness :
    NewGame.Valid ∧ NewGame.checkWin true ≠ 2 ∧ NewGame.checkWin false = 2 ∧
    NewGame.setChip 8 20 = .ok (⟨(NewGame.board.set 20 (-1)).set 28 (-1), -1, false⟩) ∧
    NewGame.neg.isValidPosition 8 20 = .ok true ∧
    NewGame.neg.setChip 8 20 = .ok (⟨(NewGame.neg.board.set 20 1).set 28 1, 1, false⟩) ∧
    NewGame.neg.checkWin true = -NewGame.checkWin true ∧
    NewGame.neg.checkWin false = 2 ∧ NewGame.neg.Valid := by
  have h := color_symmetry NewGame 8 20 true
  have h' := color_symmetry NewGame 8 20 false
  have hv : NewGame.Valid := by decide
  have hs : NewGame.setChip 8 20 =
      .ok (⟨(NewGame.board.set 20 (-1)).set 28 (-1), -1, false⟩) := by decide
  have hi : NewGame.isValidPosition 8 20 = .ok true := by decide
  refine ⟨hv, by decide, by decide, hs, ?_, ?_, h.2.2.2.1 (by decide), h'.2.2.2.2.1 (by decide),
    h.2.2.2.2.2 hv⟩
  · rw [h.1, hi]
  · rw [h.2.2.1, hs]
    decide


/-- The state right after the chip was placed, in terms of the invariant of
`setChip`: no ray has been flipped yet. -/
theorem placed_flipInv {r : Reversi} (hv : r.Valid) {pos : Int} (h0 : 0 ≤ pos) (h1 : pos < 64) :
    r.FlipInv pos [] { r with board := r.board.set pos.toNat r.turn } := by
  refine ⟨rfl, by simp [hv.1], fun q => ⟨fun hp => ?_, fun hc => ?_, fun hp _ => ?_⟩⟩
  · simp only; rw [readCell_set hv.1 h0 h1, if_pos hp]
  · simp at hc
  · simp only; rw [readCell_set hv.1 h0 h1, if_neg hp]

/-- A sandwich of the starting state along a ray that has not been flipped is
still there in the intermediate state. -/
theorem flipInv_sandwich_keep {r s : Reversi} {pos : Int} {D : List (Int × Int)}
    (h0 : 0 ≤ pos) (h1 : pos < 64) (hD : ∀ d ∈ D, d ∈ compass)
    (hinv : r.FlipInv pos D s) {dr dc : Int} (hd : (dr, dc) ∈ compass) (hnd : (dr, dc) ∉ D)
    {k : Nat} (hk : r.Sandwich pos dr dc k) : s.Sandwich pos dr dc k := by
  obtain ⟨hs, hlen, hq⟩ := hinv
  have hst : s.turn = r.turn := by rw [hs]
  have hksi := (sandwich_index r pos dr dc k).1 hk
  have hsame : ∀ j : Nat, 1 ≤ j → j ≤ k + 1 →
      readCell s.board (pos + j * (8 * dr + dc)) = readCell r.board (pos + j * (8 * dr + dc)) := by
    intro j hj1 hj2
    apply (hq _).2.2
    · intro h
      have : pos + (j : Int) * (8 * dr + dc) = pos + ((0 : Nat) : Int) * (8 * dr + dc) := by
        rw [h]; simp
      have := ray_injective hd pos this
      omega
    · rintro ⟨d', hd', hcd⟩
      rw [capturedDir_index] at hcd
      obtain ⟨k', hk', i', hi1', hi2', heq⟩ := hcd
      have hdd : (dr, dc) = d' := ray_disjoint hd (hD d' hd') hj1 hi1'
        (sandwich_onGrid hk h0 h1 j hj2) (hk'.2.1 i' hi1' hi2').1 heq
      subst hdd
      exact hnd hd'
  refine (sandwich_index s pos dr dc k).2 ⟨hksi.1, fun j hj1 hj2 => ?_, hksi.2.2.1, ?_⟩
  · rw [hst, hsame j hj1 (by omega)]
    exact hksi.2.1 j hj1 hj2
  · rw [hst, hsame (k + 1) (by omega) le_rfl]
    exact hksi.2.2.2

/-- Whether a ray that has not been flipped captures is the same in the
intermediate state as in the starting state. -/
theorem flipInv_check_iff {r s : Reversi} {pos : Int} {D : List (Int × Int)} (hv : r.Valid)
    (h0 : 0 ≤ pos) (h1 : pos < 64) (hD : ∀ d ∈ D, d ∈ compass)
    (hinv : r.FlipInv pos D s) {dr dc : Int} (hd : (dr, dc) ∈ compass) (hnd : (dr, dc) ∉ D) :
    (∃ k, s.Sandwich pos dr dc k) ↔ ∃ k, r.Sandwich pos dr dc k := by
  constructor
  · rintro ⟨k, hk⟩
    obtain ⟨k', -, hk'⟩ := flipInv_sandwich_mono hv hD hinv hd hk
    exact ⟨k', hk'⟩
  · rintro ⟨k, hk⟩
    exact ⟨k, flipInv_sandwich_keep h0 h1 hD hinv hd hnd hk⟩

theorem compass_dir_unique {d d' : Int × Int} (hd : d ∈ compass) (hd' : d' ∈ compass)
    (h : 8 * d.1 + d.2 = 8 * d'.1 + d'.2) : d = d' := by
  obtain ⟨a, b⟩ := d
  obtain ⟨a', b'⟩ := d'
  simp only [compass, List.mem_cons, Prod.mk.injEq, List.mem_singleton, List.not_mem_nil,
    or_false] at hd hd'
  simp only [Prod.mk.injEq]
  rcases hd with h1 | h1 | h1 | h1 | h1 | h1 | h1 | h1 <;> obtain ⟨rfl, rfl⟩ := h1 <;>
    rcases hd' with h2 | h2 | h2 | h2 | h2 | h2 | h2 | h2 <;> obtain ⟨rfl, rfl⟩ := h2 <;>
    omega

/-- Two states that the invariant describes with the same captured cells are
the same state. -/
theorem flipInv_unique {r s s' : Reversi} {pos : Int} {D D' : List (Int × Int)}
    (hinv : r.FlipInv pos D s) (hinv' : r.FlipInv pos D' s')
    (hsame : ∀ q, (∃ d ∈ D, r.CapturedDir pos d.1 d.2 q) ↔
      ∃ d ∈ D', r.CapturedDir pos d.1 d.2 q) : s = s' := by
  obtain ⟨hs, hlen, hq⟩ := hinv
  obtain ⟨hs', hlen', hq'⟩ := hinv'
  have hb : s.board = s'.board := by
    apply board_ext
    intro q
    by_cases hp : q = pos
    · rw [(hq q).1 hp, (hq' q).1 hp]
    · by_cases hc : ∃ d ∈ D, r.CapturedDir pos d.1 d.2 q
      · rw [(hq q).2.1 hc, (hq' q).2.1 ((hsame q).1 hc)]
      · rw [(hq q).2.2 hp hc, (hq' q).2.2 hp (fun h => hc ((hsame q).2 h))]
  rw [hs, hs', hb]

/-- A run of `flipDirection` statements over rays of the table carries the
invariant of `setChip` on. -/
theorem flipRays_inv {r : Reversi} (hv : r.Valid) {pos : Int} (h0 : 0 ≤ pos) (h1 : pos < 64)
    {fuel : Nat} (hf : 8 ≤ fuel) (L : List (Int × (Int → Int → Bool))) :
    ∀ (s0 : Reversi) (D0 : List (Int × Int)), L ⊆ rayTable → (∀ d ∈ D0, d ∈ compass) →
      r.FlipInv pos D0 s0 →
      ∃ s D, Reversi.flipRays (.ok s0) fuel pos L = .ok s ∧ r.FlipInv pos D s ∧
        (∀ d ∈ D, d ∈ compass) ∧
        (∀ d ∈ D, d ∈ D0 ∨ ∃ ray ∈ L, LimOK ray.1 ray.2 d.1 d.2) ∧
        (∀ d ∈ D0, d ∈ D) ∧
        (∀ ray ∈ L, ∃ d ∈ D, LimOK ray.1 ray.2 d.1 d.2) := by
  induction L with
  | nil =>
    intro s0 D0 _ hD0 hinv
    exact ⟨s0, D0, rfl, hinv, hD0, fun d hd => Or.inl hd, fun d hd => hd,
      fun ray hray => absurd hray (List.not_mem_nil _)⟩
  | cons ray rest ih =>
    intro s0 D0 hsub hD0 hinv
    obtain ⟨dr, dc, hd, hl⟩ := rayTable_limOK (hsub (List.mem_cons_self _ _))
    obtain ⟨s1, e1, inv1⟩ := thenFlip_step hv h0 h1 hD0 hinv hd hl hf
    have hD1 : ∀ d ∈ (dr, dc) :: D0, d ∈ compass := by
      intro d hm
      rcases List.mem_cons.1 hm with h | h
      · rw [h]; exact hd
      · exact hD0 d h
    obtain ⟨s, D, es, inv, hDc, hfrom, hkeep, hcov⟩ :=
      ih s1 ((dr, dc) :: D0) (fun x hx => hsub (List.mem_cons_of_mem _ hx)) hD1 inv1
    refine ⟨s, D, ?_, inv, hDc, fun d hdm => ?_, fun d hdm => ?_, fun ray' hray' => ?_⟩
    · unfold Reversi.flipRays at es ⊢
      rw [List.foldl_cons, e1]
      exact es
    · rcases hfrom d hdm with h | ⟨ray', hr', hl'⟩
      · rcases List.mem_cons.1 h with h | h
        · right
          refine ⟨ray, List.mem_cons_self _ _, ?_⟩
          rw [h]; exact hl
        · exact Or.inl h
      · exact Or.inr ⟨ray', List.mem_cons_of_mem _ hr', hl'⟩
    · exact hkeep d (List.mem_cons_of_mem _ hdm)
    · rcases List.mem_cons.1 hray' with h | h
      · rw [h]
        exact ⟨(dr, dc), hkeep _ (List.mem_cons_self _ _), hl⟩
      · exact hcov ray' h

/-- The body of `setChip` at an empty cell is the run of its nine
`flipDirection` statements from the state with the chip placed. -/
theorem setChip_eq_flipRays {r : Reversi} (hv : r.Valid) (fuel : Nat) {pos : Int}
    (h0 : 0 ≤ pos) (h1 : pos < 64) (he : readCell r.board pos = some 0) :
    r.setChip fuel pos =
      Reversi.flipRays (.ok { r with board := r.board.set pos.toNat r.turn }) fuel pos
        (rayTable.take 4 ++ rayTable.drop 3) := by
  unfold Reversi.setChip
  simp only [he, if_true, writeCell_of_range hv.1 h0 h1]
  rfl

/-- The cells captured seen from the state with the chip placed are those
captured seen from the state before. -/
theorem placed_capturedDir {r : Reversi} (hv : r.Valid) {pos : Int} (h0 : 0 ≤ pos)
    (h1 : pos < 64) {dr dc : Int} (hd : (dr, dc) ∈ compass) (q : Int) :
    Reversi.CapturedDir { r with board := r.board.set pos.toNat r.turn } pos dr dc q ↔
      r.CapturedDir pos dr dc q := by
  have hinv := placed_flipInv hv h0 h1
  constructor
  · rintro ⟨k, hk, i, hi1, hi2, hq⟩
    obtain ⟨k', hkk, hk'⟩ := flipInv_sandwich_mono hv (by simp) hinv hd hk
    exact ⟨k', hk', i, hi1, by omega, hq⟩
  · rintro ⟨k, hk, i, hi1, hi2, hq⟩
    exact ⟨k, flipInv_sandwich_keep h0 h1 (by simp) hinv hd (by simp) hk, i, hi1, hi2, hq⟩

/-- Evaluating rays of the table on one valid state: the calls return, and a
cell is shown changed by one of the boards exactly when it is captured along
one of the rays. -/
theorem evalRays_spec {r0 : Reversi} (hv : r0.Valid) {pos : Int} (h0 : 0 ≤ pos) (h1 : pos < 64)
    {fuel : Nat} (hf : 8 ≤ fuel) (L : List (Int × (Int → Int → Bool))) (hsub : L ⊆ rayTable) :
    ∃ boards, r0.evalRays fuel pos L = .ok boards ∧
      ∀ q, (∃ b ∈ boards, readCell b q ≠ readCell r0.board q) ↔
        ∃ ray ∈ L, ∃ d ∈ compass, LimOK ray.1 ray.2 d.1 d.2 ∧ r0.CapturedDir pos d.1 d.2 q := by
  have ht : r0.turn = 1 ∨ r0.turn = -1 := hv.2.2
  induction L with
  | nil => exact ⟨[], rfl, fun q => by simp⟩
  | cons ray rest ih =>
    obtain ⟨boards, hb, hq⟩ := ih (fun x hx => hsub (List.mem_cons_of_mem _ hx))
    obtain ⟨dr, dc, hd, hl⟩ := rayTable_limOK (hsub (List.mem_cons_self _ _))
    obtain ⟨b', hb', hlen', hin, hout⟩ := flipDirection_spec hv hd hl h0 h1 hf
    have hone : ∀ q, readCell b' q ≠ readCell r0.board q ↔ r0.CapturedDir pos dr dc q := by
      intro q
      constructor
      · intro hne
        by_contra hc
        exact hne (hout q hc)
      · intro hc
        rw [hin q hc, capturedDir_cell hc]
        simp only [ne_eq, Option.some.injEq]
        omega
    refine ⟨b' :: boards, ?_, fun q => ?_⟩
    · unfold Reversi.evalRays
      rw [hb', hb]
      rfl
    · simp only [List.mem_cons, exists_eq_or_imp, hq q, hone q]
      constructor
      · rintro (h | h)
        · exact Or.inl ⟨(dr, dc), hd, hl, h⟩
        · exact Or.inr h
      · rintro (⟨d, hdm, hld, hc⟩ | h)
        · have : d = (dr, dc) := compass_dir_unique hdm hd (by rw [← hld.1, ← hl.1])
          subst this
          exact Or.inl hc
        · exact Or.inr h

/-- Every compass direction has its ray in the table. -/
theorem compass_rayTable {d : Int × Int} (hd : d ∈ compass) :
    ∃ ray ∈ rayTable, LimOK ray.1 ray.2 d.1 d.2 := by
  simp only [compass, List.mem_cons, List.mem_singleton, List.not_mem_nil, or_false] at hd
  rcases hd with h | h | h | h | h | h | h | h <;> subst h
  · exact ⟨(-8, fun curr dir => decide (curr + dir ≥ 0)),
      by simp [rayTable], limOK_up⟩
  · exact ⟨(-1, fun curr _ => Int.tmod curr 8 != 0),
      by simp [rayTable], limOK_left⟩
  · exact ⟨(8, fun curr dir => decide (curr + dir < 64)),
      by simp [rayTable], limOK_below⟩
  · exact ⟨(1, fun curr _ => Int.tmod (curr + 1) 8 != 0),
      by simp [rayTable], limOK_right⟩
  · exact ⟨(-9, fun curr dir => decide (curr + dir ≥ 0) && (Int.tmod curr 8 != 0)),
      by simp [rayTable], limOK_upLeft⟩
  · exact ⟨(7, fun curr dir => decide (curr + dir < 64) && (Int.tmod curr 8 != 0)),
      by simp [rayTable], limOK_belowLeft⟩
  · exact ⟨(9, fun curr dir => decide (curr + dir < 64) && (Int.tmod (curr + 1) 8 != 0)),
      by simp [rayTable], limOK_belowRight⟩
  · exact ⟨(-7, fun curr dir => decide (curr + dir ≥ 0) && (Int.tmod (curr + 1) 8 != 0)),
      by simp [rayTable], limOK_upRight⟩

theorem mergeFlips_length (turn : Int) (board : List Int) (boards : List (List Int)) :
    (mergeFlips turn board boards).length = board.length := by
  simp [mergeFlips]

theorem mergeFlips_read (turn : Int) {board : List Int} (hlen : board.length = 64)
    (boards : List (List Int)) {q : Int} (h0 : 0 ≤ q) (h1 : q < 64) :
    readCell (mergeFlips turn board boards) q =
      if ∃ b ∈ boards, readCell b q ≠ readCell board q then some turn else readCell board q := by
  obtain ⟨c, hc, -⟩ := readCell_of_range hlen h0 h1
  have hq : q.toNat < board.length := by omega
  have hcast : ((q.toNat : Nat) : Int) = q := Int.toNat_of_nonneg h0
  have key : (mergeFlips turn board boards)[q.toNat]? =
      some (if boards.any (fun b => decide (readCell b q ≠ readCell board q)) then turn
        else (readCell board q).getD 0) := by
    simp only [mergeFlips, List.getElem?_map, List.getElem?_range hq, Option.map_some', hcast]
  have e : readCell (mergeFlips turn board boards) q = (mergeFlips turn board boards)[q.toNat]? := by
    simp only [readCell, h0, if_true]
  rw [e, key, hc]
  by_cases hex : ∃ b ∈ boards, readCell b q ≠ some c
  · have : boards.any (fun b => decide (readCell b q ≠ some c)) = true := by
      simpa [List.any_eq_true] using hex
    rw [this, if_pos hex]
    rfl
  · have : boards.any (fun b => decide (readCell b q ≠ some c)) = false := by
      rw [Bool.eq_false_iff]
      simpa [List.any_eq_true] using hex
    rw [this, if_neg hex]
    rfl

/-- The at-once evaluation returns the state that `setChip` returns. -/
theorem setChipAtOnce_eq {r : Reversi} (hv : r.Valid) {fuel : Nat} (hf : 8 ≤ fuel) {pos : Int}
    (h0 : 0 ≤ pos) (h1 : pos < 64) (he : readCell r.board pos = some 0) :
    ∃ s, r.setChip fuel pos = .ok s ∧ r.setChipAtOnce fuel pos = .ok s := by
  obtain ⟨s, hs, hinv⟩ := setChip_flipInv hv hf h0 h1 he
  refine ⟨s, hs, ?_⟩
  have hinv0 := placed_flipInv hv h0 h1
  have hv0 := flipInv_valid hv hinv0
  obtain ⟨boards, hb, hq⟩ := evalRays_spec hv0 h0 h1 hf rayTable (fun x hx => hx)
  have hlen0 : (r.board.set pos.toNat r.turn).length = 64 := by simp [hv.1]
  unfold Reversi.setChipAtOnce
  simp only [he, if_true, writeCell_of_range hv.1 h0 h1, hb, Res.bind]
  obtain ⟨heq, hlen, hcells⟩ := hinv
  rw [heq]
  congr 2
  apply board_ext
  intro q
  by_cases hr : 0 ≤ q ∧ q < 64
  · rw [mergeFlips_read _ hlen0 boards hr.1 hr.2]
    have hcap : (∃ b ∈ boards, readCell b q ≠ readCell (r.board.set pos.toNat r.turn) q) ↔
        r.Captured pos q := by
      rw [hq q]
      constructor
      · rintro ⟨ray, -, d, hd, -, hc⟩
        exact ⟨d, hd, (placed_capturedDir hv h0 h1 hd q).1 hc⟩
      · rintro ⟨d, hd, hc⟩
        obtain ⟨ray, hray, hl⟩ := compass_rayTable hd
        exact ⟨ray, hray, d, hd, hl, (placed_capturedDir hv h0 h1 hd q).2 hc⟩
    by_cases hc : r.Captured pos q
    · rw [if_pos (hcap.2 hc)]
      exact ((hcells q).2.1 ((captured_iff_mem r pos q).2 hc)).symm
    · rw [if_neg (fun h => hc (hcap.1 h)), readCell_set hv.1 h0 h1]
      by_cases hp : q = pos
      · rw [if_pos hp]; exact ((hcells q).1 hp).symm
      · rw [if_neg hp]
        exact ((hcells q).2.2 hp (fun h => hc ((captured_iff_mem r pos q).1 h))).symm
  · rw [(readCell_none_iff (by rw [mergeFlips_length]; exact hlen0) q).2 hr,
      (readCell_none_iff hlen q).2 hr]

/-- After any run of rays of the table, a ray of the table whose step is not
among them gets from `checkDirection` the answer it gets right after the chip
was placed. -/
theorem flipRays_check_same {r : Reversi} (hv : r.Valid) {fuel : Nat} (hf : 8 ≤ fuel)
    {pos : Int} (h0 : 0 ≤ pos) (h1 : pos < 64)
    {L : List (Int × (Int → Int → Bool))} {ray : Int × (Int → Int → Bool)}
    (hL : L ⊆ rayTable) (hray : ray ∈ rayTable) (hnew : ray.1 ∉ L.map Prod.fst) :
    ∃ s, Reversi.flipRays (.ok { r with board := r.board.set pos.toNat r.turn }) fuel pos L
        = .ok s ∧
      s.checkDirection fuel pos ray.1 ray.2 =
        Reversi.checkDirection { r with board := r.board.set pos.toNat r.turn } fuel pos
          ray.1 ray.2 := by
  have hinv0 := placed_flipInv hv h0 h1
  have hv0 := flipInv_valid hv hinv0
  obtain ⟨s, D, hs, hinv, hDc, hfrom, -, -⟩ :=
    flipRays_inv hv h0 h1 hf L _ [] hL (by simp) hinv0
  refine ⟨s, hs, ?_⟩
  obtain ⟨dr, dc, hd, hl⟩ := rayTable_limOK hray
  have hnd : (dr, dc) ∉ D := by
    intro hm
    rcases hfrom _ hm with h | ⟨ray', hr', hl'⟩
    · exact absurd h (List.not_mem_nil _)
    · apply hnew
      rw [List.mem_map]
      exact ⟨ray', hr', by rw [hl'.1, hl.1]⟩
  obtain ⟨b, hb, hbi⟩ := checkDirection_spec (flipInv_valid hv hinv) hd hl h0 h1 hf
  obtain ⟨b0, hb0, hbi0⟩ := checkDirection_spec hv0 hd hl h0 h1 hf
  rw [hb, hb0]
  congr 1
  have hiff : b = true ↔ b0 = true := by
    rw [hbi, hbi0, flipInv_check_iff hv h0 h1 hDc hinv hd hnd,
      flipInv_check_iff hv h0 h1 (by simp) hinv0 hd (by simp)]
  cases b <;> cases b0 <;> simp at hiff ⊢

/-- After any run of rays of the table, `flipDirection` along a ray that is
among them changes nothing. -/
theorem flipRays_again {r : Reversi} (hv : r.Valid) {fuel : Nat} (hf : 8 ≤ fuel)
    {pos : Int} (h0 : 0 ≤ pos) (h1 : pos < 64)
    {L : List (Int × (Int → Int → Bool))} {ray : Int × (Int → Int → Bool)}
    (hL : L ⊆ rayTable) (hray : ray ∈ L) :
    ∃ s, Reversi.flipRays (.ok { r with board := r.board.set pos.toNat r.turn }) fuel pos L
        = .ok s ∧
      s.flipDirection fuel pos ray.1 ray.2 = .ok (s, false) := by
  have hinv0 := placed_flipInv hv h0 h1
  obtain ⟨s, D, hs, hinv, hDc, -, -, hcov⟩ :=
    flipRays_inv hv h0 h1 hf L _ [] hL (by simp) hinv0
  refine ⟨s, hs, ?_⟩
  obtain ⟨d, hdm, hl⟩ := hcov ray hray
  obtain ⟨b', hb', -, -, -⟩ :=
    flipDirection_spec (flipInv_valid hv hinv) (hDc d hdm) hl h0 h1 hf
  obtain ⟨s', hs', hinv'⟩ := thenFlip_step hv h0 h1 hDc hinv (hDc d hdm) hl hf
  have hss : s = s' := by
    apply flipInv_unique hinv hinv'
    intro q
    constructor
    · rintro ⟨x, hx, hc⟩
      exact ⟨x, List.mem_cons_of_mem _ hx, hc⟩
    · rintro ⟨x, hx, hc⟩
      rcases List.mem_cons.1 hx with h | h
      · exact ⟨d, hdm, by rw [h] at hc; exact hc⟩
      · exact ⟨x, h, hc⟩
  simp only [Reversi.thenFlip, hb', Res.ok.injEq] at hs'
  rw [hb', hs', ← hss]

/-- C22: on a valid state and at an empty cell `pos` in 0..63, with fuel 8 or
more: the body of `setChip` is the run of its nine `flipDirection` statements
(up, left, below, right, right again, then the four diagonals) from the state
with the chip placed; `setChip` returns, and it returns the state obtained by
evaluating each of the 8 distinct rays on the state right after the chip was
placed and applying all their flips at once; after any run of rays, a ray not
yet processed gets from `checkDirection` the same answer as right after the
chip was placed; and `flipDirection` along a ray already processed (such as
the second call for the right ray) changes nothing. -/
theorem setChip_at_once (r : Reversi) (fuel : Nat) (pos : Int) (hv : r.Valid) (hf : 8 ≤ fuel)
    (h0 : 0 ≤ pos) (h1 : pos < 64) (he : readCell r.board pos = some 0) :
    r.setChip fuel pos =
      Reversi.flipRays (.ok { r with board := r.board.set pos.toNat r.turn }) fuel pos
        (rayTable.take 4 ++ rayTable.drop 3) ∧
    (∃ s, r.setChip fuel pos = .ok s ∧ r.setChipAtOnce fuel pos = .ok s) ∧
    (∀ (L : List (Int × (Int → Int → Bool))) (ray : Int × (Int → Int → Bool)),
      L ⊆ rayTable → ray ∈ rayTable → ray.1 ∉ L.map Prod.fst →
      ∃ s, Reversi.flipRays (.ok { r with board := r.board.set pos.toNat r.turn }) fuel pos L
          = .ok s ∧
        s.checkDirection fuel pos ray.1 ray.2 =
          Reversi.checkDirection { r with board := r.board.set pos.toNat r.turn } fuel pos
            ray.1 ray.2) ∧
    (∀ (L : List (Int × (Int → Int → Bool))) (ray : Int × (Int → Int → Bool)),
      L ⊆ rayTable → ray ∈ L →
      ∃ s, Reversi.flipRays (.ok { r with board := r.board.set pos.toNat r.turn }) fuel pos L
          = .ok s ∧
        s.flipDirection fuel pos ray.1 ray.2 = .ok (s, false)) := by
  refine ⟨?_, ?_, fun L ray hL hray hnew => ?_, fun L ray hL hray => ?_⟩
  · exact setChip_eq_flipRays hv fuel h0 h1 he
  · exact setChipAtOnce_eq hv hf h0 h1 he
  · exact flipRays_check_same hv hf h0 h1 hL hray hnew
  · exact flipRays_again hv hf h0 h1 hL hray

theorem setChip_at_once_witness :
    (⟨((((((List.replicate 64 0).set 1 (-1)).set 2 1).set 8 (-1)).set 16 1).set 9 (-1)).set 18 1,
      1, false⟩ : Reversi).Valid ∧
    Reversi.setChip ⟨((((((List.replicate 64 0).set 1 (-1)).set 2 1).set 8 (-1)).set 16 1).set 9
      (-1)).set 18 1, 1, false⟩ 8 0 =
      .ok ⟨((((((List.replicate 64 1).take 3 ++ List.replicate 61 0).set 8 1).set 16 1).set 9
        1).set 18 1), 1, false⟩ ∧
    Reversi.setChipAtOnce ⟨((((((List.replicate 64 0).set 1 (-1)).set 2 1).set 8 (-1)).set 16
      1).set 9 (-1)).set 18 1, 1, false⟩ 8 0 =
      .ok ⟨((((((List.replicate 64 1).take 3 ++ List.replicate 61 0).set 8 1).set 16 1).set 9
        1).set 18 1), 1, false⟩ := by
  have hv : (⟨((((((List.replicate 64 0).set 1 (-1)).set 2 1).set 8 (-1)).set 16 1).set 9
      (-1)).set 18 1, 1, false⟩ : Reversi).Valid := by
    set_option maxRecDepth 4096 in decide
  have hs : Reversi.setChip ⟨((((((List.replicate 64 0).set 1 (-1)).set 2 1).set 8 (-1)).set 16
      1).set 9 (-1)).set 18 1, 1, false⟩ 8 0 =
      .ok ⟨((((((List.replicate 64 1).take 3 ++ List.replicate 61 0).set 8 1).set 16 1).set 9
        1).set 18 1), 1, false⟩ := by
    set_option maxRecDepth 4096 in decide
  obtain ⟨s, e1, e2⟩ := (setChip_at_once _ 8 0 hv (le_refl 8) (by decide) (by decide)
    (by decide)).2.1
  refine ⟨hv, hs, ?_⟩
  rw [e2, ← e1, hs]


/-- The playout counter against the rollouts made: in every state of the search
loops, `numPlayOuts` is the number of `doPlayOut` calls made so far, plus one
once the time limit was seen exceeded. -/
theorem playoutLoop_count (r : Reversi) (rayFuel playFuel : Nat) (useHeuristics : Bool)
    (clock : Nat → Bool) (draws : Nat → Nat → Nat) (pos : Int) (n : Nat) :
    ∀ s s' : Search, s.timeLimitExceeded = false → s.numPlayOuts = s.rollouts.length →
      r.playoutLoop rayFuel playFuel useHeuristics clock draws pos n s = .ok s' →
      s'.numPlayOuts = s'.rollouts.length + (if s'.timeLimitExceeded = true then 1 else 0) := by
  induction n with
  | zero =>
    intro s s' hex hcount h
    simp only [Reversi.playoutLoop, Res.ok.injEq] at h
    subst h
    simp [hex, hcount]
  | succ n ih =>
    intro s s' hex hcount h
    unfold Reversi.playoutLoop at h
    by_cases hc : clock s.numPlayOuts = true
    · simp only [hc, if_true, Res.ok.injEq] at h
      subst h
      simp [hcount]
    · simp only [hc, Bool.false_eq_true, if_false] at h
      cases hset : r.deepCopy.setChip rayFuel pos with
      | fault => rw [hset] at h; simp [Res.bind] at h
      | outOfFuel => rw [hset] at h; simp [Res.bind] at h
      | ok cpy =>
        rw [hset] at h
        simp only [Res.bind] at h
        cases hplay : doPlayOut rayFuel useHeuristics playFuel cpy.switchTurns
            (draws s.rollouts.length) with
        | fault => rw [hplay] at h; simp at h
        | outOfFuel => rw [hplay] at h; simp at h
        | ok out =>
          rw [hplay] at h
          simp only at h
          refine ih _ s' ?_ ?_ h
          · exact hex
          · simp [hcount]

theorem candidateLoop_count (r : Reversi) (budget rayFuel playFuel : Nat)
    (useHeuristics : Bool) (clock : Nat → Bool) (draws : Nat → Nat → Nat)
    (positions : List Int) :
    ∀ s s' : Search,
      s.numPlayOuts = s.rollouts.length + (if s.timeLimitExceeded = true then 1 else 0) →
      r.candidateLoop budget rayFuel playFuel useHeuristics clock draws positions s = .ok s' →
      s'.numPlayOuts = s'.rollouts.length + (if s'.timeLimitExceeded = true then 1 else 0) := by
  induction positions with
  | nil =>
    intro s s' hcount h
    simp only [Reversi.candidateLoop, Res.ok.injEq] at h
    subst h
    exact hcount
  | cons pos rest ih =>
    intro s s' hcount h
    unfold Reversi.candidateLoop at h
    obtain ⟨sc, np, tl, ro⟩ := s
    cases tl with
    | true =>
      simp only [if_true, Res.ok.injEq] at h
      subst h
      simpa using hcount
    | false =>
      simp only [Bool.false_eq_true, if_false] at h
      cases hloop : r.playoutLoop rayFuel playFuel useHeuristics clock draws pos budget
          ⟨mapSet sc pos 0, np, false, ro⟩ with
      | fault => rw [hloop] at h; simp [Res.bind] at h
      | outOfFuel => rw [hloop] at h; simp [Res.bind] at h
      | ok s1 =>
        rw [hloop] at h
        simp only [Res.bind] at h
        have h1 := playoutLoop_count r rayFuel playFuel useHeuristics clock draws pos budget
          _ s1 rfl (by simpa using hcount) hloop
        exact ih s1 s' h1 h

/-- The playout count that goes into the metrics entry of `getBestMove`, against
the number of rollouts run: equal when the time limit was not reached, one more
when it was. -/
theorem getBestMoveWith_count {r : Reversi} {budget rayFuel playFuel : Nat}
    {useHeuristics : Bool} {clock : Nat → Bool} {draws : Nat → Nat → Nat}
    {iter : List (Int × Int) → List (Int × Int)} {out : BestMove}
    (h : r.getBestMoveWith budget rayFuel playFuel useHeuristics clock draws iter = .ok out) :
    out.search.numPlayOuts =
        out.search.rollouts.length + (if out.search.timeLimitExceeded = true then 1 else 0) ∧
      (out.metricsPlayOuts = none ∨ out.metricsPlayOuts = some out.search.numPlayOuts) := by
  unfold Reversi.getBestMoveWith at h
  cases hp : r.getValidPositions rayFuel with
  | fault => rw [hp] at h; simp [Res.bind] at h
  | outOfFuel => rw [hp] at h; simp [Res.bind] at h
  | ok positions =>
    rw [hp] at h
    simp only [Res.bind] at h
    by_cases hnil : positions = []
    · simp only [hnil, if_true, Res.ok.injEq] at h
      subst h
      simp
    · simp only [hnil, if_false] at h
      cases hc : r.candidateLoop budget rayFuel playFuel useHeuristics clock draws positions
          ⟨[], 0, false, []⟩ with
      | fault => rw [hc] at h; simp at h
      | outOfFuel => rw [hc] at h; simp at h
      | ok s =>
        rw [hc] at h
        simp only [Res.ok.injEq] at h
        subst h
        exact ⟨candidateLoop_count r budget rayFuel playFuel useHeuristics clock draws positions
          _ s (by simp) hc, Or.inr rfl⟩

/-- C25: the code counts one playout more than it runs when the time limit is
reached.  On the board with cell 0 empty, a red chip on cell 1 and blue chips
elsewhere, blue to move, and a clock that shows more than 10 seconds at its
fourth reading: `getBestMove` runs 3 rollouts for the one candidate 0, starts no
further one, and the playout count of its metrics entry is 4. -/
theorem getBestMove_count_limit :
    Reversi.getBestMove ⟨[0, -1] ++ List.replicate 62 1, 1, false⟩ 8 1 true
        (fun k => decide (3 ≤ k)) (fun _ _ => 0) id =
      .ok { bestPos := 0, receiver := ⟨[0, -1] ++ List.replicate 62 1, 1, false⟩,
            metricsPlayOuts := some 4,
            search := ⟨[(0, 6)], 4, true, [(0, 1), (0, 1), (0, 1)]⟩ } := by
  set_option maxRecDepth 100000 in decide


/-- What `PlayTurn` does when it finds the game finished.  When the board is
full (`checkWin false` is below 2), the counter of the outcome goes up by one
and the line of the outcome is appended to the log.  When the board is not full
and neither color has a legal position, `checkWin false` is 2: no counter
changes and the empty string is appended. -/
theorem PlayTurn_finished (r : Reversi) (ss : Session) (rayFuel playFuel : Nat)
    (clock : Nat → Bool) (draws : Nat → Nat → Nat) (iter : List (Int × Int) → List (Int × Int))
    {cur nxt : List Int} (hc : r.getValidPositions rayFuel = .ok cur)
    (hn : r.switchTurns.getValidPositions rayFuel = .ok nxt) :
    (r.checkWin false < 2 →
      r.PlayTurn ss rayFuel playFuel clock draws iter = .ok (NewGame,
        if determineWinner r.getBlueScore r.getRedScore = blue then
          { ss with blueWins := ss.blueWins + 1, log := ss.log ++ ["Blue has won.\n"] }
        else if determineWinner r.getBlueScore r.getRedScore = red then
          { ss with redWins := ss.redWins + 1, log := ss.log ++ ["Red has won.\n"] }
        else { ss with ties := ss.ties + 1, log := ss.log ++ ["It's a tie.\n"] })) ∧
    (¬ r.checkWin false < 2 → cur = [] → nxt = [] →
      r.PlayTurn ss rayFuel playFuel clock draws iter =
        .ok (NewGame, { ss with log := ss.log ++ [""] })) := by
  constructor
  · intro hlt
    obtain ⟨-, hw⟩ := checkWin_false_lt hlt
    have hrange := determineWinner_range r.getBlueScore r.getRedScore
    unfold Reversi.PlayTurn
    simp only [hc, hn, Res.bind, hlt, true_or, if_true, hw]
    unfold blue red tie at *
    rcases hrange with h | h | h <;> simp [h]
  · intro hge hcur hnxt
    have hs := checkWin_false_ge hge
    have hw : r.checkWin false = 2 := by
      unfold Reversi.checkWin maxChips
      simp [hs]
    unfold Reversi.PlayTurn
    simp only [hc, hn, Res.bind, hw, hcur, hnxt, and_self, or_true, if_true]
    simp [blue, red, tie]

/-- C24: `PlayTurn` counts no win and logs an empty line when the game ends
with cells left empty.  After the nine legal moves 34, 44, 37, 26, 51, 42, 33,
43, 19 from the opening, red has 13 chips, blue has none, and neither color has
a legal position; `determineWinner` of these counts is red.  `PlayTurn` on that
state finds the game finished, leaves `blueWins`, `redWins` and `ties` as they
were, appends the empty string to the log, and resets the game. -/
theorem PlayTurn_stalemate_uncounted :
    Reversi.allLegal 8 NewGame [34, 44, 37, 26, 51, 42, 33, 43, 19] = true ∧
    ∃ r, Reversi.playMoves 8 NewGame [34, 44, 37, 26, 51, 42, 33, 43, 19] = .ok r ∧
      r.getBlueScore = 0 ∧ r.getRedScore = 13 ∧ determineWinner 0 13 = red ∧
      r.checkWin false = 2 ∧
      r.getValidPositions 8 = .ok [] ∧ r.switchTurns.getValidPositions 8 = .ok [] ∧
      ∀ (ss : Session) (playFuel : Nat) (clock : Nat → Bool) (draws : Nat → Nat → Nat)
        (iter : List (Int × Int) → List (Int × Int)),
        r.PlayTurn ss 8 playFuel clock draws iter =
          .ok (NewGame, { ss with log := ss.log ++ [""] }) := by
  have hc : Reversi.getValidPositions
      ⟨((((((((((((((List.replicate 64 (0 : Int)).set 19 (-1)).set 26 (-1)).set 27 (-1)).set 28
        (-1)).set 33 (-1)).set 34 (-1)).set 35 (-1)).set 36 (-1)).set 37 (-1)).set 42 (-1)).set 43
        (-1)).set 44 (-1)).set 51 (-1)), 1, false⟩ 8 = .ok [] := by
    set_option maxRecDepth 100000 in decide
  have hn : (Reversi.switchTurns
      ⟨((((((((((((((List.replicate 64 (0 : Int)).set 19 (-1)).set 26 (-1)).set 27 (-1)).set 28
        (-1)).set 33 (-1)).set 34 (-1)).set 35 (-1)).set 36 (-1)).set 37 (-1)).set 42 (-1)).set 43
        (-1)).set 44 (-1)).set 51 (-1)), 1, false⟩).getValidPositions 8 = .ok [] := by
    set_option maxRecDepth 100000 in decide
  refine ⟨by set_option maxRecDepth 100000 in decide, _,
    by set_option maxRecDepth 100000 in decide, by set_option maxRecDepth 100000 in decide,
    by set_option maxRecDepth 100000 in decide, by decide,
    by set_option maxRecDepth 100000 in decide, hc, hn,
    fun ss playFuel clock draws iter => ?_⟩
  exact (PlayTurn_finished _ ss 8 playFuel clock draws iter hc hn).2
    (by set_option maxRecDepth 100000 in decide) rfl rfl


theorem reversi_getScore_eq (r : Reversi) (color : Int) :
    reversi.getScore r color = r.getScore color := rfl

theorem reversi_checkWin_eq (r : Reversi) (forceWin : Bool) :
    reversi.checkWin r forceWin = r.checkWin forceWin := rfl

theorem reversi_checkDirectionLoop_eq (r : Reversi) (dir : Int) (lim : Int → Int → Bool)
    (fuel : Nat) (currPos : Int) (found : Bool) :
    reversi.checkDirectionLoop r dir lim fuel currPos found =
      r.checkDirectionLoop dir lim fuel currPos found := by
  induction fuel generalizing currPos found with
  | zero => rfl
  | succ n ih =>
    unfold reversi.checkDirectionLoop Reversi.checkDirectionLoop
    simp only [ih]

theorem reversi_checkDirection_eq (r : Reversi) (fuel : Nat) (pos dir : Int)
    (lim : Int → Int → Bool) :
    reversi.checkDirection r fuel pos dir lim = r.checkDirection fuel pos dir lim :=
  reversi_checkDirectionLoop_eq r dir lim fuel pos false

theorem reversi_isValidPosition_eq (r : Reversi) (fuel : Nat) (pos : Int) :
    reversi.isValidPosition r fuel pos = r.isValidPosition fuel pos := by
  unfold reversi.isValidPosition Reversi.isValidPosition
  simp only [reversi_checkDirection_eq]

theorem reversi_flipScanLoop_eq (r : Reversi) (dir : Int) (lim : Int → Int → Bool)
    (fuel : Nat) (currPos : Int) (found : Bool) :
    reversi.flipScanLoop r dir lim fuel currPos found =
      r.flipScanLoop dir lim fuel currPos found := by
  induction fuel generalizing currPos found with
  | zero => rfl
  | succ n ih =>
    unfold reversi.flipScanLoop Reversi.flipScanLoop
    simp only [ih]

theorem reversi_flipLoop_eq (turn dir : Int) (lim : Int → Int → Bool) (fuel : Nat)
    (board : List Int) (currPos : Int) :
    reversi.flipLoop turn dir lim fuel board currPos =
      Reversi.flipLoop turn dir lim fuel board currPos := by
  induction fuel generalizing board currPos with
  | zero => rfl
  | succ n ih =>
    unfold reversi.flipLoop Reversi.flipLoop
    simp only [ih]

theorem reversi_flipDirection_eq (r : Reversi) (fuel : Nat) (pos dir : Int)
    (lim : Int → Int → Bool) :
    reversi.flipDirection r fuel pos dir lim = r.flipDirection fuel pos dir lim := by
  unfold reversi.flipDirection Reversi.flipDirection
  simp only [reversi_flipScanLoop_eq, reversi_flipLoop_eq]

theorem reversi_thenFlip_eq (s : Res Reversi) (fuel : Nat) (pos dir : Int)
    (lim : Int → Int → Bool) :
    reversi.thenFlip s fuel pos dir lim = Reversi.thenFlip s fuel pos dir lim := by
  unfold reversi.thenFlip Reversi.thenFlip
  simp only [reversi_flipDirection_eq]

theorem reversi_setChip_eq (r : Reversi) (fuel : Nat) (pos : Int) :
    reversi.setChip r fuel pos = r.setChip fuel pos := by
  unfold reversi.setChip Reversi.setChip
  simp only [reversi_thenFlip_eq]

theorem reversi_getHeuristicPos_eq (positions : List Int) (draw : Nat) :
    reversi.getHeuristicPos positions draw = getHeuristicPos positions draw := rfl

theorem reversi_getValidPositionsLoop_eq (r : Reversi) (fuel : Nat) (l : List Nat)
    (positions : List Int) :
    reversi.getValidPositionsLoop r fuel l positions =
      r.getValidPositionsLoop fuel l positions := by
  induction l generalizing positions with
  | nil => rfl
  | cons p rest ih =>
    unfold reversi.getValidPositionsLoop Reversi.getValidPositionsLoop
    simp only [reversi_isValidPosition_eq, ih]

theorem reversi_getValidPositions_eq (r : Reversi) (fuel : Nat) :
    reversi.getValidPositions r fuel = r.getValidPositions fuel :=
  reversi_getValidPositionsLoop_eq r fuel _ []

theorem reversi_doPlayOut_eq (rayFuel fuel : Nat) (r : Reversi) (draws : Nat → Nat) :
    reversi.doPlayOut rayFuel fuel r draws = doPlayOut rayFuel true fuel r draws := by
  induction fuel generalizing r draws with
  | zero => rfl
  | succ n ih =>
    unfold reversi.doPlayOut doPlayOut
    simp only [reversi_checkWin_eq, reversi_getValidPositions_eq, reversi_setChip_eq,
      reversi_getHeuristicPos_eq, ih, if_true]
    rfl

/-- C27: the engine functions of `src/reversi/reversi.go` agree with their
namesakes of `src/reversiSimulation/reversi.go` on every state and every
argument, in the value returned and in the receiver they leave behind:
`getScore`, `checkWin`, `checkDirection`, `isValidPosition`, `flipDirection`,
`setChip`, `getValidPositions` and `getHeuristicPos`; and `doPlayOut` of
`src/reversi` is `doPlayOut` of the simulation with `useHeuristics` true, for
the same random draws and the same fuel. -/
theorem engines_agree :
    (∀ (r : Reversi) (color : Int), reversi.getScore r color = r.getScore color) ∧
    (∀ (r : Reversi) (forceWin : Bool), reversi.checkWin r forceWin = r.checkWin forceWin) ∧
    (∀ (r : Reversi) (fuel : Nat) (pos dir : Int) (lim : Int → Int → Bool),
      reversi.checkDirection r fuel pos dir lim = r.checkDirection fuel pos dir lim) ∧
    (∀ (r : Reversi) (fuel : Nat) (pos : Int),
      reversi.isValidPosition r fuel pos = r.isValidPosition fuel pos) ∧
    (∀ (r : Reversi) (fuel : Nat) (pos dir : Int) (lim : Int → Int → Bool),
      reversi.flipDirection r fuel pos dir lim = r.flipDirection fuel pos dir lim) ∧
    (∀ (r : Reversi) (fuel : Nat) (pos : Int), reversi.setChip r fuel pos = r.setChip fuel pos) ∧
    (∀ (r : Reversi) (fuel : Nat), reversi.getValidPositions r fuel = r.getValidPositions fuel) ∧
    (∀ (positions : List Int) (draw : Nat),
      reversi.getHeuristicPos positions draw = getHeuristicPos positions draw) ∧
    (∀ (rayFuel fuel : Nat) (r : Reversi) (draws : Nat → Nat),
      reversi.doPlayOut rayFuel fuel r draws = doPlayOut rayFuel true fuel r draws) := by
  refine ⟨?_, ?_, ?_, ?_, ?_, ?_, ?_, ?_, ?_⟩
  · exact reversi_getScore_eq
  · exact reversi_checkWin_eq
  · exact reversi_checkDirection_eq
  · exact reversi_isValidPosition_eq
  · exact reversi_flipDirection_eq
  · exact reversi_setChip_eq
  · exact reversi_getValidPositions_eq
  · exact reversi_getHeuristicPos_eq
  · exact reversi_doPlayOut_eq


theorem set_same {α : Type} {l : List α} {i : Nat} {a : α} (h : l[i]? = some a) :
    l.set i a = l := by
  apply List.ext_getElem?
  intro j
  rw [List.getElem?_set]
  split
  · rename_i hij
    subst hij
    have := (List.getElem?_eq_some.1 h).1
    simp [this, h]
  · rfl

theorem load_eq_some {h : Heap} {r : Nat} {v : Reversi} :
    h.load r = some v ↔
      ∃ g, h.games[r]? = some g ∧ h.arrays[g.board]? = some v.board ∧ v.turn = g.turn ∧
        v.End = g.End := by
  unfold Heap.load
  cases hg : h.games[r]? with
  | none => simp
  | some g =>
    cases ha : h.arrays[g.board]? with
    | none => simp [ha]
    | some b =>
      obtain ⟨vb, vt, ve⟩ := v
      simp only [Option.some.injEq, Reversi.mk.injEq, exists_eq_left', ha]
      constructor
      · rintro ⟨h1, h2, h3⟩
        exact ⟨h1, h2.symm, h3.symm⟩
      · rintro ⟨h1, h2, h3⟩
        exact ⟨h1, h2.symm, h3.symm⟩

theorem load_cell {h : Heap} {r : Nat} {v : Reversi} (hl : h.load r = some v) (i : Int) :
    h.cell r i = readCell v.board i := by
  obtain ⟨g, hg, ha, -, -⟩ := load_eq_some.1 hl
  simp [Heap.cell, Heap.boardOf, hg, ha]

theorem load_turnOf {h : Heap} {r : Nat} {v : Reversi} (hl : h.load r = some v) :
    h.turnOf r = some v.turn := by
  obtain ⟨g, hg, -, ht, -⟩ := load_eq_some.1 hl
  simp [Heap.turnOf, hg, ht]

theorem load_store {h : Heap} {r : Nat} {v : Reversi} (hl : h.load r = some v) (v' : Reversi) :
    (h.store r v').load r = some v' := by
  obtain ⟨g, hg, ha, -, -⟩ := load_eq_some.1 hl
  have hr : r < h.games.length := (List.getElem?_eq_some.1 hg).1
  have hb : g.board < h.arrays.length := (List.getElem?_eq_some.1 ha).1
  rw [load_eq_some]
  refine ⟨{ g with turn := v'.turn, End := v'.End }, ?_, ?_, rfl, rfl⟩
  · simp [Heap.store, hg, List.getElem?_set, hr]
  · simp [Heap.store, hg, List.getElem?_set, hb]

theorem store_store {h : Heap} {r : Nat} {v : Reversi} (hl : h.load r = some v)
    (v' v'' : Reversi) : (h.store r v').store r v'' = h.store r v'' := by
  obtain ⟨g, hg, ha, -, -⟩ := load_eq_some.1 hl
  have hr : r < h.games.length := (List.getElem?_eq_some.1 hg).1
  have e1 : h.store r v' = ⟨h.arrays.set g.board v'.board,
      h.games.set r { g with turn := v'.turn, End := v'.End }⟩ := by
    simp [Heap.store, hg]
  have e2 : h.store r v'' = ⟨h.arrays.set g.board v''.board,
      h.games.set r { g with turn := v''.turn, End := v''.End }⟩ := by
    simp [Heap.store, hg]
  rw [e1, e2]
  simp [Heap.store, List.getElem?_set, hr, List.set_set]

theorem store_self {h : Heap} {r : Nat} {v : Reversi} (hl : h.load r = some v) :
    h.store r v = h := by
  obtain ⟨g, hg, ha, ht, he⟩ := load_eq_some.1 hl
  have eg : ({ g with turn := v.turn, End := v.End } : Game) = g := by
    rw [ht, he]
  simp only [Heap.store, hg, eg]
  rw [set_same ha, set_same hg]

theorem load_setCell {h : Heap} {r : Nat} {v : Reversi} (hl : h.load r = some v) (i x : Int) :
    h.setCell r i x =
      (writeCell v.board i x).map (fun b => h.store r { v with board := b }) := by
  obtain ⟨g, hg, ha, ht, he⟩ := load_eq_some.1 hl
  have eg : ({ g with turn := v.turn, End := v.End } : Game) = g := by
    rw [ht, he]
  have e2 : h.games.set r g = h.games := set_same hg
  unfold Heap.setCell
  simp only [hg, ha]
  cases writeCell v.board i x with
  | none => rfl
  | some b =>
    simp only [Option.map_some', Heap.store, hg, eg, e2]

/-- The second loop of `flipDirection` on memory does to the backing array of
the receiver what the loop on values does to the board. -/
theorem heap_flipLoop_eq (r : Nat) (dir : Int) (lim : Int → Int → Bool) (fuel : Nat) :
    ∀ (h : Heap) (v : Reversi) (currPos : Int), h.load r = some v →
      Heap.flipLoop r dir lim fuel h currPos =
        (Reversi.flipLoop v.turn dir lim fuel v.board currPos).bind
          (fun b => .ok (h.store r { v with board := b })) := by
  induction fuel with
  | zero => intro h v currPos _; rfl
  | succ n ih =>
    intro h v currPos hl
    unfold Heap.flipLoop Reversi.flipLoop
    by_cases hlim : lim currPos dir = true
    · simp only [hlim, if_true, load_cell hl, load_turnOf hl]
      cases hc : readCell v.board (currPos + dir) with
      | none => rfl
      | some c =>
        simp only
        by_cases h1 : c = v.turn * -1
        · rw [if_pos h1, if_pos h1, load_setCell hl]
          cases hw : writeCell v.board (currPos + dir) v.turn with
          | none => rfl
          | some b =>
            simp only [Option.map_some']
            have hl1 := load_store hl { v with board := b }
            rw [ih _ _ _ hl1]
            simp only
            congr 1
            funext b'
            rw [store_store hl]
        · rw [if_neg h1, if_neg h1]
          by_cases h2 : c = v.turn ∨ c = 0
          · rw [if_pos h2, if_pos h2]
            simp only [Res.bind]
            rw [store_self hl]
          · rw [if_neg h2, if_neg h2]
            exact ih h v _ hl
    · simp only [hlim, Bool.false_eq_true, if_false, Res.bind]
      rw [store_self hl]

theorem heap_flipDirection_eq {h : Heap} {r : Nat} {v : Reversi} (hl : h.load r = some v)
    (fuel : Nat) (pos dir : Int) (lim : Int → Int → Bool) :
    h.flipDirection r fuel pos dir lim =
      (v.flipDirection fuel pos dir lim).bind (fun p => .ok (h.store r p.1, p.2)) := by
  unfold Heap.flipDirection Reversi.flipDirection
  simp only [hl]
  cases v.flipScanLoop dir lim fuel pos false with
  | fault => rfl
  | outOfFuel => rfl
  | ok e =>
    cases e with
    | returned b => simp only [Res.bind]; rw [store_self hl]
    | done pf =>
      cases pf with
      | false => simp only [Bool.false_eq_true, if_false, Res.bind]; rw [store_self hl]
      | true =>
        simp only [if_true]
        rw [heap_flipLoop_eq r dir lim fuel h v pos hl]
        cases Reversi.flipLoop v.turn dir lim fuel v.board pos with
        | fault => rfl
        | outOfFuel => rfl
        | ok b => rfl

theorem heap_thenFlip_eq {h : Heap} {r : Nat} {v : Reversi} (hl : h.load r = some v)
    (s : Res Reversi) (fuel : Nat) (pos dir : Int) (lim : Int → Int → Bool) :
    Heap.thenFlip (s.bind (fun x => .ok (h.store r x))) r fuel pos dir lim =
      (Reversi.thenFlip s fuel pos dir lim).bind (fun x => .ok (h.store r x)) := by
  cases s with
  | fault => rfl
  | outOfFuel => rfl
  | ok x =>
    simp only [Res.bind, Heap.thenFlip, Reversi.thenFlip]
    rw [heap_flipDirection_eq (load_store hl x)]
    cases x.flipDirection fuel pos dir lim with
    | fault => rfl
    | outOfFuel => rfl
    | ok p =>
      simp only [Res.bind]
      rw [store_store hl]

/-- The method `setChip` on memory writes through the receiver what `setChip` on
values returns. -/
theorem heap_setChip_eq {h : Heap} {r : Nat} {v : Reversi} (hl : h.load r = some v)
    (fuel : Nat) (pos : Int) :
    h.setChip r fuel pos = (v.setChip fuel pos).bind (fun x => .ok (h.store r x)) := by
  unfold Heap.setChip Reversi.setChip
  rw [load_cell hl]
  cases readCell v.board pos with
  | none => rfl
  | some c =>
    simp only
    by_cases hc : c = 0
    · rw [if_pos hc, if_pos hc, load_turnOf hl]
      simp only
      rw [load_setCell hl]
      cases writeCell v.board pos v.turn with
      | none => rfl
      | some b =>
        simp only [Option.map_some']
        have e : (Res.ok (h.store r { v with board := b }) : Res Heap) =
            (Res.ok ({ v with board := b } : Reversi)).bind (fun x => .ok (h.store r x)) := rfl
        rw [e]
        simp only [heap_thenFlip_eq hl]
    · rw [if_neg hc, if_neg hc]
      simp only [Res.bind]
      rw [store_self hl]

theorem heap_switchTurns_eq {h : Heap} {r : Nat} {v : Reversi} (hl : h.load r = some v) :
    h.switchTurns r = .ok (h.store r v.switchTurns) := by
  obtain ⟨g, hg, ha, ht, he⟩ := load_eq_some.1 hl
  unfold Heap.switchTurns Heap.store Reversi.switchTurns
  simp only [hg, Res.ok.injEq]
  rw [set_same ha, ht, he]

theorem heap_checkWin_eq {h : Heap} {r : Nat} {v : Reversi} (hl : h.load r = some v)
    (forceWin : Bool) : h.checkWin r forceWin = .ok (v.checkWin forceWin) := by
  simp [Heap.checkWin, hl]

theorem heap_getValidPositions_eq {h : Heap} {r : Nat} {v : Reversi} (hl : h.load r = some v)
    (fuel : Nat) : h.getValidPositions r fuel = v.getValidPositions fuel := by
  simp [Heap.getValidPositions, hl]

/-- The function `doPlayOut` on memory: it returns what `doPlayOut` on values
returns, and leaves behind the memory with the final state of the rollout
written through the pointer. -/
theorem heap_doPlayOut_eq (rayFuel : Nat) (useHeuristics : Bool) (r : Nat) (fuel : Nat) :
    ∀ (h : Heap) (v : Reversi) (draws : Nat → Nat), h.load r = some v →
      Heap.doPlayOut rayFuel useHeuristics r fuel h draws =
        (doPlayOut rayFuel useHeuristics fuel v draws).bind
          (fun out => .ok (h.store r out.final, out.result)) := by
  induction fuel with
  | zero => intro h v draws _; rfl
  | succ n ih =>
    intro h v draws hl
    unfold Heap.doPlayOut doPlayOut
    simp only [heap_checkWin_eq hl, heap_getValidPositions_eq hl, Res.bind_ok]
    by_cases hw : v.checkWin false < 2
    · simp only [hw, if_true, Res.bind]
      rw [store_self hl]
    · simp only [hw, if_false]
      cases hp : v.getValidPositions rayFuel with
      | fault => rfl
      | outOfFuel => rfl
      | ok ps =>
        simp only [Res.bind_ok]
        by_cases hnil : ps = []
        · simp only [hnil, if_true, heap_switchTurns_eq hl, Res.bind_ok]
          have hl1 := load_store hl v.switchTurns
          simp only [heap_getValidPositions_eq hl1, heap_checkWin_eq hl1]
          cases hp2 : v.switchTurns.getValidPositions rayFuel with
          | fault => rfl
          | outOfFuel => rfl
          | ok ps2 =>
            simp only [Res.bind_ok]
            by_cases hnil2 : ps2 = []
            · simp only [hnil2, if_true, Res.bind]
            · simp only [hnil2, if_false]
              rw [ih _ _ _ hl1]
              congr 1
              funext out
              rw [store_store hl]
        · simp only [hnil, if_false]
          cases (if useHeuristics = true then getHeuristicPos ps (draws 0)
              else getRandPos ps (draws 0)) with
          | fault => rfl
          | outOfFuel => rfl
          | ok pos =>
            simp only [Res.bind_ok, heap_setChip_eq hl]
            cases hs : v.setChip rayFuel pos with
            | fault => rfl
            | outOfFuel => rfl
            | ok v1 =>
              simp only [Res.bind_ok]
              have hl1 := load_store hl v1
              rw [heap_switchTurns_eq hl1, Res.bind_ok, store_store hl]
              have hl2 := load_store hl v1.switchTurns
              rw [ih _ _ _ hl2]
              cases doPlayOut rayFuel useHeuristics n v1.switchTurns (fun n => draws (n + 1)) with
              | fault => rfl
              | outOfFuel => rfl
              | ok out =>
                simp only [Res.bind]
                rw [store_store hl]

theorem prefix_set {α : Type} {l l' : List α} (h : List.IsPrefix l l') {i : Nat}
    (hi : l.length ≤ i) (a : α) : List.IsPrefix l (l'.set i a) := by
  obtain ⟨t, rfl⟩ := h
  rw [List.set_append_right i a hi]
  exact List.prefix_append _ _

theorem prefix_getElem? {α : Type} {l l' : List α} (h : List.IsPrefix l l') {i : Nat} {a : α}
    (hi : l[i]? = some a) : l'[i]? = some a := by
  obtain ⟨t, rfl⟩ := h
  rw [List.getElem?_append_left (List.getElem?_eq_some.1 hi).1]
  exact hi

theorem extends_refl (h : Heap) : h.Extends h := ⟨List.prefix_refl _, List.prefix_refl _⟩

theorem extends_trans {h1 h2 h3 : Heap} (a : h1.Extends h2) (b : h2.Extends h3) :
    h1.Extends h3 := ⟨a.1.trans b.1, a.2.trans b.2⟩

theorem extends_load {h h' : Heap} (he : h.Extends h') {r : Nat} {v : Reversi}
    (hl : h.load r = some v) : h'.load r = some v := by
  obtain ⟨g, hg, ha, ht, hE⟩ := load_eq_some.1 hl
  exact load_eq_some.2 ⟨g, prefix_getElem? he.2 hg, prefix_getElem? he.1 ha, ht, hE⟩

theorem freshClone_mono {h0 h h' : Heap} {c : Nat} (hf : h0.FreshClone h c)
    (he : h.Extends h') : h0.FreshClone h' c := by
  obtain ⟨hc, g, hg, hb⟩ := hf
  exact ⟨hc, g, prefix_getElem? he.2 hg, hb⟩

/-- The method `deepCopy` on memory: it returns; the clone and the backing array
of its board are at fresh addresses; the clone holds what `deepCopy` on values
returns; nothing that was in memory has changed. -/
theorem heap_deepCopy_spec {h : Heap} {r : Nat} {v : Reversi} (hl : h.load r = some v) :
    ∃ h1 gc, h.deepCopy r = .ok (h1, h.games.length) ∧ h.Extends h1 ∧
      h1.load h.games.length = some v.deepCopy ∧
      h1.games[h.games.length]? = some gc ∧ gc.board = h.arrays.length := by
  obtain ⟨g, hg, ha, ht, hE⟩ := load_eq_some.1 hl
  unfold Heap.deepCopy
  simp only [hg, ha]
  refine ⟨_, ⟨h.arrays.length, g.turn, g.End, g.computerTwoColor, g.computerOneColor, [], []⟩,
    rfl, ⟨List.prefix_append _ _, List.prefix_append _ _⟩, ?_, ?_, rfl⟩
  · rw [load_eq_some]
    refine ⟨⟨h.arrays.length, g.turn, g.End, g.computerTwoColor, g.computerOneColor, [], []⟩,
      by simp, ?_, ?_, ?_⟩
    · simp [Reversi.deepCopy]
    · simp [Reversi.deepCopy, ht]
    · simp [Reversi.deepCopy, hE]
  · simp

/-- Writing through the pointer of a fresh clone leaves what was in memory
before the clone was made as it was, and the clone stays a fresh clone. -/
theorem store_fresh {h h1 : Heap} (he : h.Extends h1) {c : Nat} {gc : Game}
    (hc : h.games.length ≤ c) (hg : h1.games[c]? = some gc) (hb : h.arrays.length ≤ gc.board)
    (x : Reversi) : h.Extends (h1.store c x) ∧ h.FreshClone (h1.store c x) c := by
  have hcl : c < h1.games.length := (List.getElem?_eq_some.1 hg).1
  have e : h1.store c x = ⟨h1.arrays.set gc.board x.board,
      h1.games.set c { gc with turn := x.turn, End := x.End }⟩ := by
    simp [Heap.store, hg]
  rw [e]
  refine ⟨⟨prefix_set he.1 hb _, prefix_set he.2 hc _⟩, hc,
    { gc with turn := x.turn, End := x.End }, ?_, hb⟩
  simp [List.getElem?_set, hcl]

/-- The rollout loop on memory follows the rollout loop on values. -/
theorem heap_playoutLoop_tracks {h0 : Heap} {r : Nat} {v : Reversi}
    (hl0 : h0.load r = some v) (rayFuel playFuel : Nat) (useHeuristics : Bool)
    (clock : Nat → Bool) (draws : Nat → Nat → Nat) (pos : Int) (n : Nat) :
    ∀ hs : HeapSearch, h0.Extends hs.heap → (∀ c ∈ hs.clones, h0.FreshClone hs.heap c) →
      hs.clones.length = hs.search.rollouts.length →
      h0.Tracks (v.playoutLoop rayFuel playFuel useHeuristics clock draws pos n hs.search)
        (Heap.playoutLoop r rayFuel playFuel useHeuristics clock draws pos n hs) := by
  induction n with
  | zero =>
    intro hs hext hfresh hlen
    exact ⟨rfl, hext, hfresh, hlen⟩
  | succ n ih =>
    intro hs hext hfresh hlen
    obtain ⟨hp, s, cl⟩ := hs
    simp only at hext hfresh hlen
    unfold Heap.playoutLoop Reversi.playoutLoop
    simp only
    by_cases hc : clock s.numPlayOuts = true
    · simp only [hc, if_true]
      exact ⟨rfl, hext, hfresh, hlen⟩
    · simp only [hc, Bool.false_eq_true, if_false]
      have hl := extends_load hext hl0
      obtain ⟨h1, gc, hd, he1, hl1, hg1, hb1⟩ := heap_deepCopy_spec hl
      rw [hd, Res.bind_ok]
      simp only
      rw [heap_setChip_eq hl1]
      cases hset : v.deepCopy.setChip rayFuel pos with
      | fault => simp [Res.bind, Heap.Tracks]
      | outOfFuel => simp [Res.bind, Heap.Tracks]
      | ok cpy =>
        simp only [Res.bind_ok]
        rw [heap_switchTurns_eq (load_store hl1 cpy), Res.bind_ok, store_store hl1,
          heap_doPlayOut_eq _ _ _ _ _ _ _ (load_store hl1 cpy.switchTurns)]
        cases hplay : doPlayOut rayFuel useHeuristics playFuel cpy.switchTurns
            (draws s.rollouts.length) with
        | fault => simp [Res.bind, Heap.Tracks]
        | outOfFuel => simp [Res.bind, Heap.Tracks]
        | ok out =>
          simp only [Res.bind_ok]
          rw [store_store hl1]
          obtain ⟨hext4, hfresh4⟩ := store_fresh he1 (le_refl _) hg1 (le_of_eq hb1.symm) out.final
          have hl4 := extends_load hext4 hl
          rw [load_turnOf hl4]
          simp only
          refine ih ⟨_, _, _⟩ (extends_trans hext hext4) (fun c hcm => ?_) ?_
          · rcases List.mem_append.1 hcm with hcm | hcm
            · exact freshClone_mono (hfresh c hcm) hext4
            · rw [List.mem_singleton] at hcm
              subst hcm
              obtain ⟨-, g, hg, hb⟩ := hfresh4
              exact ⟨hext.2.length_le, g, hg, le_trans hext.1.length_le hb⟩
          · simp [hlen]

/-- The loop over the candidates on memory follows the loop on values. -/
theorem heap_candidateLoop_tracks {h0 : Heap} {r : Nat} {v : Reversi}
    (hl0 : h0.load r = some v) (budget rayFuel playFuel : Nat) (useHeuristics : Bool)
    (clock : Nat → Bool) (draws : Nat → Nat → Nat) (positions : List Int) :
    ∀ hs : HeapSearch, h0.Extends hs.heap → (∀ c ∈ hs.clones, h0.FreshClone hs.heap c) →
      hs.clones.length = hs.search.rollouts.length →
      h0.Tracks (v.candidateLoop budget rayFuel playFuel useHeuristics clock draws positions
          hs.search)
        (Heap.candidateLoop r budget rayFuel playFuel useHeuristics clock draws positions hs) := by
  induction positions with
  | nil =>
    intro hs hext hfresh hlen
    exact ⟨rfl, hext, hfresh, hlen⟩
  | cons pos rest ih =>
    intro hs hext hfresh hlen
    obtain ⟨hp, s, cl⟩ := hs
    simp only at hext hfresh hlen
    unfold Heap.candidateLoop Reversi.candidateLoop
    simp only
    obtain ⟨sc, np, tl, ro⟩ := s
    cases tl with
    | true =>
      simp only [if_true]
      exact ⟨rfl, hext, hfresh, hlen⟩
    | false =>
      simp only [Bool.false_eq_true, if_false]
      have ht := heap_playoutLoop_tracks hl0 rayFuel playFuel useHeuristics clock draws pos budget
        ⟨hp, ⟨mapSet sc pos 0, np, false, ro⟩, cl⟩ hext hfresh hlen
      simp only at ht
      cases hv : v.playoutLoop rayFuel playFuel useHeuristics clock draws pos budget
          ⟨mapSet sc pos 0, np, false, ro⟩ with
      | fault =>
        rw [hv] at ht
        cases hh : Heap.playoutLoop r rayFuel playFuel useHeuristics clock draws pos budget
            ⟨hp, ⟨mapSet sc pos 0, np, false, ro⟩, cl⟩ with
        | fault => simp [Res.bind, Heap.Tracks]
        | outOfFuel => rw [hh] at ht; simp [Heap.Tracks] at ht
        | ok x => rw [hh] at ht; simp [Heap.Tracks] at ht
      | outOfFuel =>
        rw [hv] at ht
        cases hh : Heap.playoutLoop r rayFuel playFuel useHeuristics clock draws pos budget
            ⟨hp, ⟨mapSet sc pos 0, np, false, ro⟩, cl⟩ with
        | fault => rw [hh] at ht; simp [Heap.Tracks] at ht
        | outOfFuel => simp [Res.bind, Heap.Tracks]
        | ok x => rw [hh] at ht; simp [Heap.Tracks] at ht
      | ok s1 =>
        rw [hv] at ht
        cases hh : Heap.playoutLoop r rayFuel playFuel useHeuristics clock draws pos budget
            ⟨hp, ⟨mapSet sc pos 0, np, false, ro⟩, cl⟩ with
        | fault => rw [hh] at ht; simp [Heap.Tracks] at ht
        | outOfFuel => rw [hh] at ht; simp [Heap.Tracks] at ht
        | ok hs1 =>
          rw [hh] at ht
          obtain ⟨e1, hext1, hfresh1, hlen1⟩ := ht
          simp only [Res.bind_ok]
          have := ih hs1 hext1 hfresh1 (by rw [hlen1, e1])
          rw [e1] at this
          exact this

theorem prefix_set_both {α : Type} {l l' : List α} (h : List.IsPrefix l l') {i : Nat}
    (hi : i < l.length) (a : α) : List.IsPrefix (l.set i a) (l'.set i a) := by
  obtain ⟨t, rfl⟩ := h
  rw [List.set_append_left i a hi]
  exact List.prefix_append _ _

/-- The method `getBestMove` on memory against `getBestMove` on values.  When it
returns, the run on values returns the same position and loop variables; the
contents read through the receiver are as before; every backing array that was
in memory is unchanged; every struct that was in memory is unchanged, except
that the receiver has one entry appended to each metric list when there was a
candidate; and every rollout got its own fresh clone.  When the run on values
returns, so does the run on memory. -/
theorem heap_getBestMove_spec {h : Heap} {r : Nat} {g : Game} {v : Reversi}
    (hg : h.games[r]? = some g) (hl : h.load r = some v) (rayFuel playFuel : Nat)
    (useHeuristics : Bool) (clock : Nat → Bool) (draws : Nat → Nat → Nat)
    (iter : List (Int × Int) → List (Int × Int)) (rnd : ℚ → F64) (elapsedSeconds : F64) :
    (∀ out, h.getBestMove r rayFuel playFuel useHeuristics clock draws iter rnd elapsedSeconds
        = .ok out →
      ∃ ps vout, v.getValidPositions rayFuel = .ok ps ∧
        v.getBestMove rayFuel playFuel useHeuristics clock draws iter = .ok vout ∧
        vout.bestPos = out.bestPos ∧ vout.search = out.search ∧
        out.heap.load r = some v ∧
        List.IsPrefix h.arrays out.heap.arrays ∧
        List.IsPrefix
          (h.games.set r (if ps = [] then g else
            { g with
              playOutsPerSecond := g.playOutsPerSecond ++
                [F64.div rnd (F64.fin out.search.numPlayOuts) elapsedSeconds]
              mctTime := g.mctTime ++ [elapsedSeconds] }))
          out.heap.games ∧
        out.clones.length = out.search.rollouts.length ∧
        ∀ c ∈ out.clones, h.FreshClone out.heap c) ∧
    (∀ vout, v.getBestMove rayFuel playFuel useHeuristics clock draws iter = .ok vout →
      ∃ out, h.getBestMove r rayFuel playFuel useHeuristics clock draws iter rnd elapsedSeconds
        = .ok out) := by
  obtain ⟨g0, hg0, ha, ht, hE⟩ := load_eq_some.1 hl
  have hgg : g = g0 := by
    rw [hg] at hg0
    exact Option.some.inj hg0
  subst hgg
  have hr : r < h.games.length := (List.getElem?_eq_some.1 hg).1
  unfold Heap.getBestMove Reversi.getBestMove Reversi.getBestMoveWith
  simp only [heap_getValidPositions_eq hl]
  cases hp : v.getValidPositions rayFuel with
  | fault => simp [Res.bind]
  | outOfFuel => simp [Res.bind]
  | ok ps =>
    simp only [Res.bind_ok]
    by_cases hnil : ps = []
    · simp only [hnil, if_true, Res.ok.injEq]
      refine ⟨fun out hout => ?_, fun vout _ => ⟨_, rfl⟩⟩
      subst hout
      refine ⟨[], _, rfl, rfl, rfl, rfl, hl, List.prefix_refl _, ?_, rfl, by simp⟩
      rw [if_pos rfl, set_same hg]
    · simp only [hnil, if_false]
      have htr := heap_candidateLoop_tracks hl playouts rayFuel playFuel useHeuristics clock draws
        ps ⟨h, ⟨[], 0, false, []⟩, []⟩ (extends_refl h) (by simp) rfl
      simp only at htr
      cases hvc : v.candidateLoop playouts rayFuel playFuel useHeuristics clock draws ps
          ⟨[], 0, false, []⟩ with
      | fault =>
        rw [hvc] at htr
        cases hhc : Heap.candidateLoop r playouts rayFuel playFuel useHeuristics clock draws ps
            ⟨h, ⟨[], 0, false, []⟩, []⟩ with
        | fault => simp [Res.bind]
        | outOfFuel => rw [hhc] at htr; simp [Heap.Tracks] at htr
        | ok x => rw [hhc] at htr; simp [Heap.Tracks] at htr
      | outOfFuel =>
        rw [hvc] at htr
        cases hhc : Heap.candidateLoop r playouts rayFuel playFuel useHeuristics clock draws ps
            ⟨h, ⟨[], 0, false, []⟩, []⟩ with
        | fault => rw [hhc] at htr; simp [Heap.Tracks] at htr
        | outOfFuel => simp [Res.bind]
        | ok x => rw [hhc] at htr; simp [Heap.Tracks] at htr
      | ok s =>
        rw [hvc] at htr
        cases hhc : Heap.candidateLoop r playouts rayFuel playFuel useHeuristics clock draws ps
            ⟨h, ⟨[], 0, false, []⟩, []⟩ with
        | fault => rw [hhc] at htr; simp [Heap.Tracks] at htr
        | outOfFuel => rw [hhc] at htr; simp [Heap.Tracks] at htr
        | ok hs =>
          rw [hhc] at htr
          obtain ⟨e1, hext, hfresh, hlen⟩ := htr
          have hgs : hs.heap.games[r]? = some g := prefix_getElem? hext.2 hg
          have hrs : r < hs.heap.games.length := (List.getElem?_eq_some.1 hgs).1
          simp only [Res.bind_ok, hgs, Res.ok.injEq]
          refine ⟨fun out hout => ?_, fun vout _ => ⟨_, rfl⟩⟩
          subst hout
          subst e1
          refine ⟨ps, _, rfl, rfl, rfl, rfl, ?_, hext.1, ?_, hlen, fun c hc => ?_⟩
          · rw [load_eq_some]
            refine ⟨⟨g.board, g.turn, g.End, g.computerTwoColor, g.computerOneColor,
              g.playOutsPerSecond ++
                [F64.div rnd (F64.fin hs.search.numPlayOuts) elapsedSeconds],
              g.mctTime ++ [elapsedSeconds]⟩,
              by simp only [List.getElem?_set, hrs, if_true], ?_, ht, hE⟩
            exact prefix_getElem? hext.1 ha
          · simp only [hnil, if_false]
            exact prefix_set_both hext.2 hr _
          · obtain ⟨hcl, gcl, hgc, hb⟩ := hfresh c hc
            refine ⟨hcl, gcl, ?_, hb⟩
            have hne : r ≠ c := by omega
            simp only [List.getElem?_set_ne hne, hgc]

/-- On a valid state `getBestMove` on memory returns, and every rollout it has
recorded is a `doPlayOut` on the contents of a clone on which the candidate was
played and the turn switched. -/
theorem heap_getBestMove_returns {h : Heap} {r : Nat} {g : Game} {v : Reversi}
    (hg : h.games[r]? = some g) (hl : h.load r = some v) {rayFuel playFuel : Nat}
    (hv : v.Valid) (hrf : 8 ≤ rayFuel) (hpf : 2 * v.empties + 1 ≤ playFuel)
    (useHeuristics : Bool) (clock : Nat → Bool) (draws : Nat → Nat → Nat)
    (iter : List (Int × Int) → List (Int × Int)) (rnd : ℚ → F64) (elapsedSeconds : F64) :
    ∃ out, h.getBestMove r rayFuel playFuel useHeuristics clock draws iter rnd elapsedSeconds
        = .ok out ∧
      ∀ e ∈ out.search.rollouts, ∃ cpy k po,
        v.deepCopy.setChip rayFuel e.1 = .ok cpy ∧
        doPlayOut rayFuel useHeuristics playFuel cpy.switchTurns (draws k) = .ok po ∧
        po.result = e.2 := by
  obtain ⟨hfwd, hback⟩ := heap_getBestMove_spec hg hl rayFuel playFuel useHeuristics clock draws
    iter rnd elapsedSeconds
  obtain ⟨ps, -, -, hrun⟩ := getBestMoveWith_run hv hrf hpf playouts useHeuristics clock draws
    iter
  have hval : ∃ vout, v.getBestMove rayFuel playFuel useHeuristics clock draws iter = .ok vout ∧
      ∀ e ∈ vout.search.rollouts, ∃ cpy k po,
        v.deepCopy.setChip rayFuel e.1 = .ok cpy ∧
        doPlayOut rayFuel useHeuristics playFuel cpy.switchTurns (draws k) = .ok po ∧
        po.result = e.2 := by
    rcases hrun with ⟨-, hout⟩ | ⟨-, s, hout, hinv, -, -⟩
    · exact ⟨_, hout, by simp⟩
    · exact ⟨_, hout, fun e he => (hinv.2.2.2.2 e he).2.2⟩
  obtain ⟨vout, hvout, hroll⟩ := hval
  obtain ⟨out, hout⟩ := hback vout hvout
  refine ⟨out, hout, ?_⟩
  obtain ⟨-, vout', -, hvout', -, hsearch, -⟩ := hfwd out hout
  rw [hvout] at hvout'
  have : vout = vout' := Res.ok.inj hvout'
  subst this
  rw [← hsearch]
  exact hroll

/-- C16: `getBestMove` on the program's memory, for every memory `h` and every
pointer `r` to a game `g` whose board is allocated, with contents `v`.
(1) `deepCopy` returns a clone at a fresh address whose board is a fresh backing
array, not the one of `r.board`; the clone holds the turn of the original and,
for a board of 64 cells, the same board contents; the original is untouched.
(2) Whenever `getBestMove` returns: it returns the position and loop variables
of the search on values; the board contents, turn and `End` read through `r` are
as before the call; every backing array that was in memory is unchanged; every
struct that was in memory is unchanged except the receiver, which differs from
before in nothing but one entry appended to `playOutsPerSecond` and to `mctTime`
(and in nothing when there is no candidate); and every rollout was handed its
own clone at a fresh address with a fresh backing array.
(3) On a valid state `getBestMove` returns, and every recorded rollout is a
`doPlayOut` on the contents of a clone after the candidate was played on it and
its turn switched. -/
theorem getBestMove_frame (h : Heap) (r : Nat) (g : Game) (v : Reversi)
    (rayFuel playFuel : Nat) (useHeuristics : Bool) (clock : Nat → Bool)
    (draws : Nat → Nat → Nat) (iter : List (Int × Int) → List (Int × Int)) (rnd : ℚ → F64)
    (elapsedSeconds : F64) (hg : h.games[r]? = some g) (hl : h.load r = some v) :
    (∃ h1 gc, h.deepCopy r = .ok (h1, h.games.length) ∧ h.Extends h1 ∧ h1.load r = some v ∧
      h1.load h.games.length = some v.deepCopy ∧ h1.games[h.games.length]? = some gc ∧
      gc.board = h.arrays.length ∧ gc.board ≠ g.board ∧ h.games.length ≠ r ∧
      v.deepCopy.turn = v.turn ∧ (v.board.length = 64 → v.deepCopy.board = v.board)) ∧
    (∀ out, h.getBestMove r rayFuel playFuel useHeuristics clock draws iter rnd elapsedSeconds
        = .ok out →
      ∃ ps vout, v.getValidPositions rayFuel = .ok ps ∧
        v.getBestMove rayFuel playFuel useHeuristics clock draws iter = .ok vout ∧
        vout.bestPos = out.bestPos ∧ vout.search = out.search ∧
        out.heap.load r = some v ∧
        List.IsPrefix h.arrays out.heap.arrays ∧
        List.IsPrefix
          (h.games.set r (if ps = [] then g else
            { g with
              playOutsPerSecond := g.playOutsPerSecond ++
                [F64.div rnd (F64.fin out.search.numPlayOuts) elapsedSeconds]
              mctTime := g.mctTime ++ [elapsedSeconds] }))
          out.heap.games ∧
        out.clones.length = out.search.rollouts.length ∧
        ∀ c ∈ out.clones, h.FreshClone out.heap c) ∧
    (v.Valid → 8 ≤ rayFuel → 2 * v.empties + 1 ≤ playFuel →
      ∃ out, h.getBestMove r rayFuel playFuel useHeuristics clock draws iter rnd elapsedSeconds
          = .ok out ∧
        ∀ e ∈ out.search.rollouts, ∃ cpy k po,
          v.deepCopy.setChip rayFuel e.1 = .ok cpy ∧
          doPlayOut rayFuel useHeuristics playFuel cpy.switchTurns (draws k) = .ok po ∧
          po.result = e.2) := by
  refine ⟨?_, ?_, fun hv hrf hpf => ?_⟩
  · obtain ⟨h1, gc, hd, hext, hl1, hg1, hb1⟩ := heap_deepCopy_spec hl
    obtain ⟨g0, hg0, ha, -, -⟩ := load_eq_some.1 hl
    have hgg : g = g0 := by
      rw [hg] at hg0
      exact Option.some.inj hg0
    subst hgg
    have hr : r < h.games.length := (List.getElem?_eq_some.1 hg).1
    have hb : g.board < h.arrays.length := (List.getElem?_eq_some.1 ha).1
    refine ⟨h1, gc, hd, hext, extends_load hext hl, hl1, hg1, hb1, by omega, by omega, rfl,
      fun hlen => ?_⟩
    rw [deepCopy_eq hlen]
  · exact (heap_getBestMove_spec hg hl rayFuel playFuel useHeuristics clock draws iter rnd
      elapsedSeconds).1
  · exact heap_getBestMove_returns hg hl hv hrf hpf useHeuristics clock draws iter rnd
      elapsedSeconds

/-- Two structs that share one backing array: a chip set through the pointer 1
is seen through the pointer 0.  This is the aliasing that `deepCopy` rules out
by giving the clone an array of its own. -/
theorem shared_array_visible :
    Heap.load ⟨[NewGame.board], [⟨0, -1, false, -1, 1, [], []⟩, ⟨0, -1, false, -1, 1, [], []⟩]⟩ 0
      = some NewGame ∧
    (Heap.setChip ⟨[NewGame.board],
        [⟨0, -1, false, -1, 1, [], []⟩, ⟨0, -1, false, -1, 1, [], []⟩]⟩ 1 8 20).bind
      (fun h => .ok (h.load 0)) =
      .ok (some ⟨(NewGame.board.set 20 (-1)).set 28 (-1), -1, false⟩) := by
  constructor
  · rfl
  · set_option maxRecDepth 100000 in rfl

theorem getBestMove_frame_witness :
    (⟨[[0, -1] ++ List.replicate 62 1], [⟨0, 1, false, -1, 1, [], []⟩]⟩ : Heap).games[0]? = some (⟨0, 1, false, -1, 1, [], []⟩ : Game) ∧
    Heap.load (⟨[[0, -1] ++ List.replicate 62 1], [⟨0, 1, false, -1, 1, [], []⟩]⟩ : Heap) 0 = some (⟨[0, -1] ++ List.replicate 62 1, 1, false⟩ : Reversi) ∧
    Heap.getBestMove (⟨[[0, -1] ++ List.replicate 62 1], [⟨0, 1, false, -1, 1, [], []⟩]⟩ : Heap)
        0 8 1 true (fun k => decide (3 ≤ k)) (fun _ _ => 0) id F64.fin (F64.fin 11) =
      .ok (⟨0,
        ⟨[[0, -1] ++ List.replicate 62 1, List.replicate 64 1, List.replicate 64 1,
            List.replicate 64 1],
          [⟨0, 1, false, -1, 1, [F64.div F64.fin (F64.fin ((4 : Nat) : ℚ)) (F64.fin 11)],
              [F64.fin 11]⟩,
            ⟨1, -1, false, -1, 1, [], []⟩, ⟨2, -1, false, -1, 1, [], []⟩,
            ⟨3, -1, false, -1, 1, [], []⟩]⟩,
        ⟨[(0, 6)], 4, true, [(0, 1), (0, 1), (0, 1)]⟩, [1, 2, 3]⟩ : HeapBestMove) ∧
    ∃ ps vout, Reversi.getValidPositions (⟨[0, -1] ++ List.replicate 62 1, 1, false⟩ : Reversi) 8 = .ok ps ∧
      Reversi.getBestMove (⟨[0, -1] ++ List.replicate 62 1, 1, false⟩ : Reversi) 8 1 true (fun k => decide (3 ≤ k)) (fun _ _ => 0) id = .ok vout ∧
      vout.bestPos = 0 ∧ vout.search = ⟨[(0, 6)], 4, true, [(0, 1), (0, 1), (0, 1)]⟩ ∧
      Heap.load (⟨0,
        ⟨[[0, -1] ++ List.replicate 62 1, List.replicate 64 1, List.replicate 64 1,
            List.replicate 64 1],
          [⟨0, 1, false, -1, 1, [F64.div F64.fin (F64.fin ((4 : Nat) : ℚ)) (F64.fin 11)],
              [F64.fin 11]⟩,
            ⟨1, -1, false, -1, 1, [], []⟩, ⟨2, -1, false, -1, 1, [], []⟩,
            ⟨3, -1, false, -1, 1, [], []⟩]⟩,
        ⟨[(0, 6)], 4, true, [(0, 1), (0, 1), (0, 1)]⟩, [1, 2, 3]⟩ : HeapBestMove).heap 0 = some (⟨[0, -1] ++ List.replicate 62 1, 1, false⟩ : Reversi) ∧
      List.IsPrefix (⟨[[0, -1] ++ List.replicate 62 1], [⟨0, 1, false, -1, 1, [], []⟩]⟩ : Heap).arrays (⟨0,
        ⟨[[0, -1] ++ List.replicate 62 1, List.replicate 64 1, List.replicate 64 1,
            List.replicate 64 1],
          [⟨0, 1, false, -1, 1, [F64.div F64.fin (F64.fin ((4 : Nat) : ℚ)) (F64.fin 11)],
              [F64.fin 11]⟩,
            ⟨1, -1, false, -1, 1, [], []⟩, ⟨2, -1, false, -1, 1, [], []⟩,
            ⟨3, -1, false, -1, 1, [], []⟩]⟩,
        ⟨[(0, 6)], 4, true, [(0, 1), (0, 1), (0, 1)]⟩, [1, 2, 3]⟩ : HeapBestMove).heap.arrays ∧
      List.IsPrefix
        ((⟨[[0, -1] ++ List.replicate 62 1], [⟨0, 1, false, -1, 1, [], []⟩]⟩ : Heap).games.set 0 (if ps = [] then (⟨0, 1, false, -1, 1, [], []⟩ : Game) else
          { (⟨0, 1, false, -1, 1, [], []⟩ : Game) with
            playOutsPerSecond := (⟨0, 1, false, -1, 1, [], []⟩ : Game).playOutsPerSecond ++
              [F64.div F64.fin (F64.fin (4 : Nat)) (F64.fin 11)]
            mctTime := (⟨0, 1, false, -1, 1, [], []⟩ : Game).mctTime ++ [F64.fin 11] }))
        (⟨0,
        ⟨[[0, -1] ++ List.replicate 62 1, List.replicate 64 1, List.replicate 64 1,
            List.replicate 64 1],
          [⟨0, 1, false, -1, 1, [F64.div F64.fin (F64.fin ((4 : Nat) : ℚ)) (F64.fin 11)],
              [F64.fin 11]⟩,
            ⟨1, -1, false, -1, 1, [], []⟩, ⟨2, -1, false, -1, 1, [], []⟩,
            ⟨3, -1, false, -1, 1, [], []⟩]⟩,
        ⟨[(0, 6)], 4, true, [(0, 1), (0, 1), (0, 1)]⟩, [1, 2, 3]⟩ : HeapBestMove).heap.games ∧
      ([1, 2, 3] : List Nat).length = 3 ∧
      ∀ c ∈ ([1, 2, 3] : List Nat), Heap.FreshClone (⟨[[0, -1] ++ List.replicate 62 1], [⟨0, 1, false, -1, 1, [], []⟩]⟩ : Heap) (⟨0,
        ⟨[[0, -1] ++ List.replicate 62 1, List.replicate 64 1, List.replicate 64 1,
            List.replicate 64 1],
          [⟨0, 1, false, -1, 1, [F64.div F64.fin (F64.fin ((4 : Nat) : ℚ)) (F64.fin 11)],
              [F64.fin 11]⟩,
            ⟨1, -1, false, -1, 1, [], []⟩, ⟨2, -1, false, -1, 1, [], []⟩,
            ⟨3, -1, false, -1, 1, [], []⟩]⟩,
        ⟨[(0, 6)], 4, true, [(0, 1), (0, 1), (0, 1)]⟩, [1, 2, 3]⟩ : HeapBestMove).heap c := by
  have heval : Heap.getBestMove (⟨[[0, -1] ++ List.replicate 62 1], [⟨0, 1, false, -1, 1, [], []⟩]⟩ : Heap)
        0 8 1 true (fun k => decide (3 ≤ k)) (fun _ _ => 0) id F64.fin (F64.fin 11) =
      .ok (⟨0,
        ⟨[[0, -1] ++ List.replicate 62 1, List.replicate 64 1, List.replicate 64 1,
            List.replicate 64 1],
          [⟨0, 1, false, -1, 1, [F64.div F64.fin (F64.fin ((4 : Nat) : ℚ)) (F64.fin 11)],
              [F64.fin 11]⟩,
            ⟨1, -1, false, -1, 1, [], []⟩, ⟨2, -1, false, -1, 1, [], []⟩,
            ⟨3, -1, false, -1, 1, [], []⟩]⟩,
        ⟨[(0, 6)], 4, true, [(0, 1), (0, 1), (0, 1)]⟩, [1, 2, 3]⟩ : HeapBestMove) := by
    set_option maxRecDepth 100000 in rfl
  exact ⟨rfl, rfl, heval,
    (getBestMove_frame (⟨[[0, -1] ++ List.replicate 62 1], [⟨0, 1, false, -1, 1, [], []⟩]⟩ : Heap)
      0 (⟨0, 1, false, -1, 1, [], []⟩ : Game)
      (⟨[0, -1] ++ List.replicate 62 1, 1, false⟩ : Reversi) 8 1 true (fun k => decide (3 ≤ k))
      (fun _ _ => 0) id F64.fin (F64.fin 11) rfl rfl).2.1 _ heval⟩

end reversiSimulation
